import Mathlib

/-!
# MatchHistogram: the curve engine of `src/MatchHistogram.cpp`

A shallow embedding of `IntDiv`, of the class `CurveData`
(`Create`, `Process`, `Show`, `Debug`) and of the body of the loop over the planes in
`MatchHistogram::GetFrame` for a processed plane, followed by theorems about them.

Conventions of the embedding.

* A pixel buffer is a byte-addressed memory `Mem`; a `uint8_t` read is `load`
  (the value modulo 256) and a `uint8_t` write is `store`.  A pointer is the
  offset it has from the base of its buffer, so `ptr += stride` adds to an offset.
* `unsigned int sum[256]`, `unsigned int div[256]` and `unsigned char curve[256]`
  are values of `Arr`; `rd` and `wr` are the indexed read and write.
  Arithmetic on `unsigned int` is reduced modulo `2 ^ 32` at every update.
* `int` values are mathematical integers.  The conversions the C++ code performs
  implicitly are explicit here: `toInt` (unsigned int to int, modulo `2 ^ 32`),
  and `toUChar` (int to unsigned char, modulo 256).
* `width`, `height` and the strides are natural numbers (a non-positive `int`
  width or height runs no loop iteration, like `0`).
* The `while` loop of `Create` can only be run for a given number of passes:
  `Create` takes that number (`fuel`) and returns `none` when it is not enough.
-/

namespace MatchHistogram

/-! ## Memory and arrays -/

/-- Byte-addressed memory of one pixel buffer. -/
abbrev Mem := Nat → Nat

/-- Read of a `uint8_t` at offset `a`. -/
def load (m : Mem) (a : Nat) : Nat := m a % 256

/-- Write of a `uint8_t` at offset `a`. -/
def store (m : Mem) (a : Nat) (v : Nat) : Mem :=
  fun b => if b = a then v % 256 else m b

/-- A C array with 256 elements. -/
abbrev Arr := { l : List Nat // l.length = 256 }

/-- Indexed read `a[i]`. -/
def rd (a : Arr) (i : Nat) : Nat := a.val.getD i 0

/-- Indexed write `a[i] = v`. -/
def wr (a : Arr) (i : Nat) (v : Nat) : Arr :=
  ⟨a.val.set i v, by rw [List.length_set]; exact a.property⟩

/-- Conversion of an `unsigned int` to `int` (two's complement, 32 bits). -/
def toInt (x : Nat) : Int :=
  if x % 4294967296 < 2147483648 then ((x % 4294967296 : Nat) : Int)
  else ((x % 4294967296 : Nat) : Int) - 4294967296

/-- Conversion of an `int` to `unsigned char`. -/
def toUChar (x : Int) : Nat := (x % 256).toNat

/-! ## `IntDiv` -/

/-- Source: `IntDiv` (lines 8-11).
`((x < 0) ^ (y < 0)) ? ((x - (y >> 1)) / y) : ((x + (y >> 1)) / y)`,
with the truncating division of C.  `int` is unbounded here, so the definition is
the C++ expression wherever that one is defined: `y != 0`, `x - (y >> 1)` or
`x + (y >> 1)` inside the 32-bit range, and a dividend other than `INT_MIN` when
`y = -1`.  Outside of that the C++ expression overflows or traps and this definition
says nothing about it. -/
def IntDiv (x y : Int) : Int :=
  if (decide (x < 0) != decide (y < 0)) then (x - (y >>> (1 : Nat))).tdiv y
  else (x + (y >>> (1 : Nat))).tdiv y

/-! ## `fillPlane` -/

/-- Source: `fillPlane`, `memset(data, value, width)` with `data` at offset `o` (line 16). -/
def fillRow (o width value : Nat) (data : Mem) : Mem :=
  (List.range width).foldl (fun m c => store m (o + c) value) data

/-- Source: `fillPlane`, the loop over the rows (lines 15-19): `h` rows remain and
`data` is at offset `o`. -/
def fillRows (width stride value : Nat) : Nat → Nat → Mem → Mem
  | 0, _, data => data
  | h + 1, o, data => fillRows width stride value h (o + stride) (fillRow o width value data)

/-- Source: `fillPlane` (lines 14-20); the result is the buffer. -/
def fillPlane (data : Mem) (width height stride value : Nat) : Mem :=
  fillRows width stride value height 0 data

/-! ## `CurveData` -/

/-- Source: the data members of `class CurveData` (lines 25-27). -/
structure CurveData where
  sum : Arr
  div : Arr
  curve : Arr

/-- Source: `Create`, "Clear data" (lines 32-35). -/
def clearData (st : CurveData) : CurveData :=
  (List.range 256).foldl
    (fun s i => { s with sum := wr s.sum i 0, div := wr s.div i 0 }) st

/-- Source: `Create`, the body `sum[ptr1[w]] += ptr2[w]; div[ptr1[w]] += 1;`
(lines 40-41), with `ptr1` at offset `o1` and `ptr2` at offset `o2`. -/
def populatePixel (ptr1 ptr2 : Mem) (o1 o2 : Nat) (s : CurveData) (w : Nat) : CurveData :=
  { s with
    sum := wr s.sum (load ptr1 (o1 + w))
      ((rd s.sum (load ptr1 (o1 + w)) + load ptr2 (o2 + w)) % 4294967296)
    div := wr s.div (load ptr1 (o1 + w))
      ((rd s.div (load ptr1 (o1 + w)) + 1) % 4294967296) }

/-- Source: `Create`, the inner loop over `w` (lines 39-42). -/
def populateRow (ptr1 ptr2 : Mem) (o1 o2 width : Nat) (st : CurveData) : CurveData :=
  (List.range width).foldl (populatePixel ptr1 ptr2 o1 o2) st

/-- Source: `Create`, "Populate data" (lines 38-45): `h` rows remain, `ptr1` is at
offset `o1` and `ptr2` at offset `o2`; after a row the offsets advance by the strides. -/
def populate (ptr1 ptr2 : Mem) (width stride stride1 : Nat) :
    Nat → Nat → Nat → CurveData → CurveData
  | 0, _, _, st => st
  | h + 1, o1, o2, st =>
    populate ptr1 ptr2 width stride stride1 h (o1 + stride) (o2 + stride1)
      (populateRow ptr1 ptr2 o1 o2 width st)

/-- The value `IntDiv(sum[i], div[i])` before it is narrowed to `unsigned char`
(lines 50 and 165). -/
def meanValue (s : CurveData) (i : Nat) : Int :=
  IntDiv (toInt (rd s.sum i)) (toInt (rd s.div i))

/-- Source: `Create`, "Raw curve", one iteration (lines 49-54). -/
def rawStep (s : CurveData) (i : Nat) : CurveData :=
  if rd s.div i ≠ 0 then { s with curve := wr s.curve i (toUChar (meanValue s i)) }
  else { s with curve := wr s.curve i 0 }

/-- Source: `Create`, "Raw curve" (lines 48-55). -/
def rawCurve (st : CurveData) : CurveData :=
  (List.range 256).foldl rawStep st

/-- Source: `Create`, the search for `flat` (lines 58-69): `n` iterations remain,
the loop variable is `i`. -/
def flatScan (div : Arr) : Nat → Nat → Int → Int
  | 0, _, flat => flat
  | n + 1, i, flat =>
    if rd div i ≠ 0 then
      if flat = -1 then flatScan div n (i + 1) (i : Int) else -1
    else flatScan div n (i + 1) flat

/-- Source: `Create`, "Uniform color" (lines 73-75). -/
def uniformColor (st : CurveData) (flat : Int) : CurveData :=
  (List.range 256).foldl
    (fun s i => { s with curve := wr s.curve i (rd s.curve flat.toNat) }) st

/-- Source: the downward searches `for (p = i - 1; p >= 0; p--)` (lines 80-86) and
`for (l = 255; l >= 0; l--)` (lines 128-134): `scanDown div n` looks at the indices
`n - 1, ..., 0` and is `-1` when none is populated. -/
def scanDown (div : Arr) : Nat → Int
  | 0 => -1
  | p + 1 => if rd div p ≠ 0 then (p : Int) else scanDown div p

/-- Source: the upward searches `for (n = i + 1; n < 256; n++)` (lines 88-94) and
`for (f = 0; f < 256; f++)` (lines 107-113): `scanUp div k n` looks at the `k`
indices `n, n + 1, ...` and is `-1` when none is populated. -/
def scanUp (div : Arr) : Nat → Nat → Int
  | 0, _ => -1
  | k + 1, n => if rd div n ≠ 0 then (n : Int) else scanUp div k (n + 1)

/-- Source: `std::min(std::max(x, 0), 255)`. -/
def clamp (x : Int) : Int := min (max x 0) 255

/-- The value of line 98 before it is narrowed to `unsigned char`. -/
def fillValue (s : CurveData) (i : Nat) (prev next : Int) : Int :=
  clamp ((rd s.curve prev.toNat : Int)
    + IntDiv (((i : Int) - prev) * ((rd s.curve next.toNat : Int) - (rd s.curve prev.toNat : Int)))
        (next - prev))

/-- The three stores `curve[i] = v; sum[i] = curve[i]; div[i] = 1;`
(lines 98-100, 119-121, 140-142). -/
def markFilled (s : CurveData) (i : Nat) (v : Int) : CurveData :=
  { sum := wr s.sum i (toUChar v), div := wr s.div i 1, curve := wr s.curve i (toUChar v) }

/-- Source: `Create`, one iteration of the fill loop (lines 79-102). -/
def fillStep (s : CurveData) (i : Nat) : CurveData :=
  if rd s.div i = 0 then
    if scanDown s.div i ≠ -1 ∧ scanUp s.div (255 - i) (i + 1) ≠ -1 then
      markFilled s i (fillValue s i (scanDown s.div i) (scanUp s.div (255 - i) (i + 1)))
    else s
  else s

/-- Source: `Create`, "Fill missing" (lines 78-103). -/
def fillMissing (st : CurveData) : CurveData :=
  (List.range 256).foldl fillStep st

/-- Source: `Create`, "Fill missing" (lines 78-103) after the iterations `0, ..., i - 1`:
the state in which the loop reaches `i`. -/
def fillPrefix (st : CurveData) (i : Nat) : CurveData :=
  (List.range i).foldl fillStep st

/-- The value of lines 119 and 140 before it is narrowed to `unsigned char`:
`edge` is `first` or `last`, `m` the mirrored index. -/
def mirrorValue (s : CurveData) (edge m : Int) : Int :=
  clamp ((rd s.curve edge.toNat : Int) * 2 - (rd s.curve m.toNat : Int))

/-- Source: `Create`, "Extend bottom", one iteration (lines 117-123). -/
def bottomStep (first : Int) (s : CurveData) (i : Nat) : CurveData :=
  if first * 2 - (i : Int) ≤ 255 then
    if rd s.div (first * 2 - (i : Int)).toNat ≠ 0 then
      markFilled s i (mirrorValue s first (first * 2 - (i : Int)))
    else s
  else s

/-- Source: `Create`, the branch `if (div[0] == 0)` of the loop body (lines 107-124). -/
def extendBottom (s : CurveData) : CurveData :=
  (List.range (scanUp s.div 256 0).toNat).foldl (bottomStep (scanUp s.div 256 0)) s

/-- Source: `Create`, "Extend top", one iteration (lines 138-144). -/
def topStep (last : Int) (s : CurveData) (i : Nat) : CurveData :=
  if 0 ≤ last * 2 - (i : Int) then
    if rd s.div (last * 2 - (i : Int)).toNat ≠ 0 then
      markFilled s i (mirrorValue s last (last * 2 - (i : Int)))
    else s
  else s

/-- Source: `Create`, the branch `if (div[255] == 0)` of the loop body (lines 128-145);
`i` runs over `255, 254, ..., last + 1`. -/
def extendTop (s : CurveData) : CurveData :=
  ((List.range (255 - scanDown s.div 256).toNat).map (fun t => 255 - t)).foldl
    (topStep (scanDown s.div 256)) s

/-- Source: `Create`, one pass of the body of the `while` loop (lines 106-146). -/
def extendPass (s : CurveData) : CurveData :=
  if rd (if rd s.div 0 = 0 then extendBottom s else s).div 255 = 0 then
    extendTop (if rd s.div 0 = 0 then extendBottom s else s)
  else (if rd s.div 0 = 0 then extendBottom s else s)

/-- Source: `Create`, `while (div[0] == 0 || div[255] == 0)` (lines 105-147), run
for at most `fuel` passes; `none` when the loop has not exited by then. -/
def extendLoop : Nat → CurveData → Option CurveData
  | 0, s => if rd s.div 0 = 0 ∨ rd s.div 255 = 0 then none else some s
  | fuel + 1, s =>
    if rd s.div 0 = 0 ∨ rd s.div 255 = 0 then extendLoop fuel (extendPass s) else some s

/-- Source: `Create`, the loop over `j` of "Smooth curve", one iteration (lines 156-159);
`t` counts the iterations, so `j = -smoothing_window + t`. -/
def smoothAdd (smoothing_window : Int) (i : Nat) (s : CurveData) (t : Nat) : CurveData :=
  if 0 ≤ (i : Int) + (-smoothing_window + (t : Int))
      ∧ (i : Int) + (-smoothing_window + (t : Int)) < 256 then
    { s with
      sum := wr s.sum i
        ((rd s.sum i + rd s.curve ((i : Int) + (-smoothing_window + (t : Int))).toNat)
          % 4294967296)
      div := wr s.div i ((rd s.div i + 1) % 4294967296) }
  else s

/-- Source: `Create`, "Smooth curve", one iteration of the loop over `i` (lines 152-160). -/
def smoothStep (smoothing_window : Int) (s : CurveData) (i : Nat) : CurveData :=
  (List.range (2 * smoothing_window).toNat).foldl (smoothAdd smoothing_window i)
    { s with sum := wr s.sum i 0, div := wr s.div i 0 }

/-- Source: `Create`, "Smooth curve" (lines 150-162). -/
def smoothCurve (smoothing_window : Int) (st : CurveData) : CurveData :=
  if smoothing_window > 0 then (List.range 256).foldl (smoothStep smoothing_window) st
  else st

/-- Source: `Create`, the final loop `curve[i] = IntDiv(sum[i], div[i])` (lines 164-166). -/
def finalAverage (st : CurveData) : CurveData :=
  (List.range 256).foldl
    (fun s i => { s with curve := wr s.curve i (toUChar (meanValue s i)) }) st

/-- The state after "Clear data", "Populate data" and "Raw curve" (lines 32-55). -/
def rawState (st : CurveData) (ptr1 ptr2 : Mem) (width height stride stride1 : Nat) :
    CurveData :=
  rawCurve (populate ptr1 ptr2 width stride stride1 height 0 0 (clearData st))

/-- Source: `CurveData::Create` (lines 30-169).  `st` holds the previous contents of
the object, `fuel` bounds the number of passes of the `while` loop. -/
def Create (fuel : Nat) (st : CurveData) (ptr1 ptr2 : Mem)
    (width height stride stride1 : Nat) (raw : Bool) (smoothing_window : Int) :
    Option CurveData :=
  if !raw then
    if flatScan (rawState st ptr1 ptr2 width height stride stride1).div 256 0 (-1) ≠ -1 then
      some (uniformColor (rawState st ptr1 ptr2 width height stride stride1)
        (flatScan (rawState st ptr1 ptr2 width height stride stride1).div 256 0 (-1)))
    else
      (extendLoop fuel (fillMissing (rawState st ptr1 ptr2 width height stride stride1))).map
        (fun s => finalAverage (smoothCurve smoothing_window s))
  else some (rawState st ptr1 ptr2 width height stride stride1)

/-- Source: `CurveData::Process`, the inner loop `dstp[w] = curve[srcp[w]]`
(lines 173-174), with `srcp` at offset `so` and `dstp` at offset `dof`. -/
def processRow (cd : CurveData) (srcp : Mem) (so dof width : Nat) (dstp : Mem) : Mem :=
  (List.range width).foldl
    (fun d w => store d (dof + w) (rd cd.curve (load srcp (so + w)))) dstp

/-- Source: `CurveData::Process`, the loop over the rows (lines 172-178): `h` rows
remain; after a row the offsets advance by `stride` and `dst_stride`. -/
def processRows (cd : CurveData) (srcp : Mem) (width stride dst_stride : Nat) :
    Nat → Nat → Nat → Mem → Mem
  | 0, _, _, d => d
  | h + 1, so, dof, d =>
    processRows cd srcp width stride dst_stride h (so + stride) (dof + dst_stride)
      (processRow cd srcp so dof width d)

/-- Source: `CurveData::Process` (lines 171-179).  The method has no store to `sum`,
`div` or `curve`; the result is the destination buffer. -/
def Process (cd : CurveData) (srcp dstp : Mem) (width height stride dst_stride : Nat) : Mem :=
  processRows cd srcp width stride dst_stride height 0 0 dstp

/-- Source: `CurveData::Show` (lines 181-184); the result is the canvas. -/
def Show (cd : CurveData) (ptr : Mem) (stride color : Nat) : Mem :=
  (List.range 256).foldl (fun m i => store m ((255 - rd cd.curve i) * stride + i) color) ptr

/-- Source: `CurveData::Debug`, the loop over `j` for one column `i` (lines 188-190). -/
def debugColumn (cd : CurveData) (stride i : Nat) (ptr : Mem) : Mem :=
  (List.range (rd cd.curve i + 1)).foldl
    (fun m j => store m ((255 - j) * stride + i) (rd cd.curve i)) ptr

/-- Source: `CurveData::Debug`, the first loop (lines 187-191). -/
def debugFill (cd : CurveData) (stride : Nat) (ptr : Mem) : Mem :=
  (List.range 256).foldl (fun m i => debugColumn cd stride i m) ptr

/-- Source: `CurveData::Debug`, the second loop (lines 193-197). -/
def debugCap (cd : CurveData) (stride : Nat) (ptr : Mem) : Mem :=
  (List.range 256).foldl
    (fun m i => if rd cd.curve i > 0 then store m ((255 - rd cd.curve i) * stride + i) 255
      else m) ptr

/-- Source: `CurveData::Debug` (lines 186-198); the result is the canvas. -/
def Debug (cd : CurveData) (ptr : Mem) (stride : Nat) : Mem :=
  debugCap cd stride (debugFill cd stride ptr)

/-! ## `MatchHistogram::GetFrame` -/

/-- One plane of a frame, as the accessors of `PVideoFrame` give it: `GetReadPtr` or
`GetWritePtr`, `GetPitch`, `GetRowSize` and `GetHeight`. -/
structure Plane where
  ptr : Mem
  pitch : Nat
  rowSize : Nat
  height : Nat

/-- Source: `MatchHistogram::GetFrame` (lines 275-330), the body of the loop over the
planes for a plane with `processPlane[i]`, `_debug = false` and `_show = false`
(lines 289-301 and 313-318): `src_stride`, `src_width` and `src_height` are read from
`src1`, `src1_stride` from `src2`, `src3dst_width` and `src3dst_height` from `src3`,
`dst_stride` from `dst`, and `Process` is called with `src_stride`.  The result is the
plane of `dst`. -/
def GetFramePlane (fuel : Nat) (curve : CurveData) (src1 src2 src3 dst : Plane)
    (raw : Bool) (smoothing_window : Int) : Option Mem :=
  (Create fuel curve src1.ptr src2.ptr src1.rowSize src1.height src1.pitch src2.pitch
      raw smoothing_window).map
    (fun c => Process c src3.ptr dst.ptr src3.rowSize src3.height src1.pitch dst.pitch)

/-! ## Quantities the statements are written with -/

/-- Number of pixels (row `r < height`, column `c < width`) of the source plane
whose value is `v`. -/
def pixelCount (ptr1 : Mem) (width height stride : Nat) (v : Nat) : Nat :=
  ∑ r ∈ Finset.range height, ∑ c ∈ Finset.range width,
    if load ptr1 (r * stride + c) = v then 1 else 0

/-- Sum of the target plane's values over the pixels whose source value is `v`. -/
def targetSum (ptr1 ptr2 : Mem) (width height stride stride1 : Nat) (v : Nat) : Nat :=
  ∑ r ∈ Finset.range height, ∑ c ∈ Finset.range width,
    if load ptr1 (r * stride + c) = v then load ptr2 (r * stride1 + c) else 0

/-- Sum of the values of a plane over the rows `r < height` and columns `c < width`. -/
def planeSum (ptr : Mem) (width height stride : Nat) : Nat :=
  ∑ r ∈ Finset.range height, ∑ c ∈ Finset.range width, load ptr (r * stride + c)

/-- State `t` extends state `s`: at every index the three arrays are either as in `s`,
or the index was unpopulated in `s` and has been filled in `t`
(`div[i] = 1`, `sum[i] = curve[i]`). -/
def Extends (s t : CurveData) : Prop :=
  ∀ i, i < 256 →
    (rd t.sum i = rd s.sum i ∧ rd t.div i = rd s.div i ∧ rd t.curve i = rd s.curve i)
      ∨ (rd s.div i = 0 ∧ rd t.div i = 1 ∧ rd t.curve i < 256 ∧ rd t.sum i = rd t.curve i)

/-- The populated indices of `s` (those with `div[i] != 0`) are exactly `a, ..., b`. -/
def Interval (s : CurveData) (a b : Nat) : Prop :=
  b < 256 ∧ ∀ i, i < 256 → (rd s.div i ≠ 0 ↔ a ≤ i ∧ i ≤ b)

/-- The smallest populated index of `d` is `a` and the largest is `b`. -/
def Extremes (d : Arr) (a b : Nat) : Prop :=
  b < 256 ∧ rd d a ≠ 0 ∧ rd d b ≠ 0 ∧ (∀ j, j < a → rd d j = 0)
    ∧ ∀ j, b < j → j < 256 → rd d j = 0

/-- What holds after the iterations `i < n` of the fill loop started in `s0`, whose
smallest and largest populated indices are `a` and `b`: the state extends `s0`, the
populated indices are those of `s0` and the indices strictly between `a` and `b`
below `n`, and an index filled so far holds the value of line 98 computed with
`prev = i - 1` and `next` the next index populated in `s0`. -/
def FillInv (s0 : CurveData) (a b n : Nat) (s : CurveData) : Prop :=
  Extends s0 s
    ∧ (∀ i, i < 256 → (rd s.div i ≠ 0 ↔ (rd s0.div i ≠ 0 ∨ (a < i ∧ i < b ∧ i < n))))
    ∧ ∀ i, i < n → a < i → i < b → rd s0.div i = 0 →
        rd s.curve i
          = toUChar (fillValue s i ((i : Int) - 1) (scanUp s0.div (255 - i) (i + 1)))

/-- Every populated entry of `curve` is the narrowed `IntDiv(sum[i], div[i])`. -/
def Averaged (s : CurveData) : Prop :=
  ∀ i, i < 256 → rd s.div i ≠ 0 → rd s.curve i = toUChar (meanValue s i)

/-- Every populated index has `div[i] <= 2 ^ 23` and `sum[i] <= 255 * div[i]`. -/
def Bounded (s : CurveData) : Prop :=
  ∀ i, i < 256 → rd s.div i ≠ 0 →
    rd s.div i ≤ 8388608 ∧ rd s.sum i ≤ 255 * rd s.div i

/-- Number of unpopulated indices of `s`. -/
def unpopulated (s : CurveData) : Nat :=
  ((List.range 256).filter (fun i => decide (rd s.div i = 0))).length

/-- Sum of `c[k]` over the `k` from `max(0, i - w)` to `min(255, i + w - 1)`. -/
def windowSum (c : Arr) (i : Nat) (w : Int) : Nat :=
  ∑ k ∈ Finset.range 256,
    if (i : Int) - w ≤ (k : Int) ∧ (k : Int) ≤ (i : Int) + w - 1 then rd c k else 0

/-- Number of `k` from `max(0, i - w)` to `min(255, i + w - 1)`. -/
def windowCount (i : Nat) (w : Int) : Nat :=
  ∑ k ∈ Finset.range 256,
    if (i : Int) - w ≤ (k : Int) ∧ (k : Int) ≤ (i : Int) + w - 1 then 1 else 0

/-- A plane of 128 x 2 bytes with pitch 128: the first row is 0, the second 50. -/
def twoRows : Mem := fun o => if o < 128 then 0 else 50

/-- The curve of `s` is the identity on the indices `a, ..., b`. -/
def IdOn (s : CurveData) (a b : Nat) : Prop :=
  ∀ i, a ≤ i → i ≤ b → rd s.curve i = i

/-- The curve of `s` is at most 255 and non-decreasing on the indices `a, ..., b`. -/
def MonoOn (s : CurveData) (a b : Nat) : Prop :=
  (∀ i, a ≤ i → i ≤ b → rd s.curve i < 256)
    ∧ ∀ i j, a ≤ i → i ≤ j → j ≤ b → rd s.curve i ≤ rd s.curve j

/-- An array with the same value at every index. -/
def constArr (v : Nat) : Arr := ⟨List.replicate 256 v, List.length_replicate 256 v⟩

/-- A plane whose every byte is `k`. -/
def flatPlane (k : Nat) : Mem := fun _ => k

/-- A plane that alternates between the values `a` (even offsets) and `b` (odd offsets). -/
def stripedPlane (a b : Nat) : Mem := fun o => if o % 2 = 0 then a else b

/-- The identity curve: `curve[v] = v`. -/
def identityArr : Arr := ⟨List.range 256, List.length_range 256⟩

/-- An object whose three arrays hold zeros. -/
def zeroData : CurveData := { sum := constArr 0, div := constArr 0, curve := constArr 0 }

/-! ## Arrays -/

theorem rd_wr (a : Arr) (i v j : Nat) (hi : i < 256) :
    rd (wr a i v) j = if j = i then v else rd a j := by
  unfold rd wr
  have hl := a.property
  simp only [List.getD_eq_getElem?_getD, List.getElem?_set]
  by_cases h : i = j
  · subst h
    simp [hl, hi]
  · have h2 : ¬ j = i := fun e => h e.symm
    simp [h, h2]

theorem rd_wr_same (a : Arr) (i v : Nat) (hi : i < 256) : rd (wr a i v) i = v := by
  rw [rd_wr a i v i hi]; simp

theorem rd_wr_ne (a : Arr) (i v j : Nat) (h : j ≠ i) : rd (wr a i v) j = rd a j := by
  unfold rd wr
  simp only [List.getD_eq_getElem?_getD]
  rw [List.getElem?_set_ne (fun e => h e.symm)]

theorem arr_ext (a b : Arr) (h : ∀ i, i < 256 → rd a i = rd b i) : a = b := by
  apply Subtype.ext
  apply List.ext_getElem (by rw [a.property, b.property])
  intro i h1 h2
  have := h i (by rw [a.property] at h1; exact h1)
  unfold rd at this
  simpa [List.getD_eq_getElem?_getD, List.getElem?_eq_getElem h1,
    List.getElem?_eq_getElem h2] using this

theorem rd_constArr (v i : Nat) (hi : i < 256) : rd (constArr v) i = v := by
  show (List.replicate 256 v).getD i 0 = v
  rw [List.getD_eq_getElem?_getD, List.getElem?_replicate, if_pos hi]
  rfl

theorem rd_identityArr (i : Nat) (hi : i < 256) : rd identityArr i = i := by
  unfold rd identityArr
  simp only [List.getD_eq_getElem?_getD, List.getElem?_range hi, Option.getD_some]

theorem load_lt (m : Mem) (a : Nat) : load m a < 256 := by
  unfold load; omega

/-! ## Integer helpers -/

theorem shr_one (y : Int) : y >>> (1 : Nat) = y / 2 := by
  rw [Int.shiftRight_eq_div_pow]; norm_num

theorem toInt_small (x : Nat) (h : x < 2147483648) : toInt x = (x : Int) := by
  unfold toInt
  have : x % 4294967296 = x := Nat.mod_eq_of_lt (by omega)
  rw [this]; simp [h]

theorem IntDiv_nonneg (x y : Nat) : IntDiv (x : Int) (y : Int) = (((x + y / 2) / y : Nat) : Int) := by
  unfold IntDiv
  have hx : ¬ ((x : Int) < 0) := by omega
  have hy : ¬ ((y : Int) < 0) := by omega
  simp only [hx, hy, decide_False, bne_self_eq_false, Bool.false_eq_true, if_false, shr_one]
  rw [Int.tdiv_eq_ediv (by omega) (by omega)]
  norm_cast

theorem toUChar_small (x : Nat) (h : x < 256) : toUChar (x : Int) = x := by
  unfold toUChar
  omega

/-! ## Loops -/

theorem foldl_range_ind {β : Type} (step : β → Nat → β) (P : Nat → β → Prop) (st : β)
    (n : Nat) (h0 : P 0 st) (hs : ∀ i s, i < n → P i s → P (i + 1) (step s i)) :
    P n ((List.range n).foldl step st) := by
  induction n with
  | zero => simpa using h0
  | succ k ih =>
    rw [List.range_succ, List.foldl_append]
    simp only [List.foldl_cons, List.foldl_nil]
    exact hs k _ (Nat.lt_succ_self k)
      (ih (fun i s hi hp => hs i s (Nat.lt_succ_of_lt hi) hp))

/-! ## "Clear data" -/

theorem clearData_spec (st : CurveData) :
    (∀ j, j < 256 → rd (clearData st).sum j = 0 ∧ rd (clearData st).div j = 0)
      ∧ (clearData st).curve = st.curve := by
  unfold clearData
  have h := foldl_range_ind
    (fun (s : CurveData) i => { s with sum := wr s.sum i 0, div := wr s.div i 0 })
    (fun n s => n ≤ 256 → ((∀ j, j < n → rd s.sum j = 0 ∧ rd s.div j = 0) ∧ s.curve = st.curve))
    st 256 (fun _ => ⟨fun j hj => absurd hj (Nat.not_lt_zero j), rfl⟩)
    (by
      intro i s hi hp hle
      obtain ⟨h1, h2⟩ := hp (by omega)
      refine ⟨fun j hj => ?_, h2⟩
      by_cases hji : j = i
      · subst hji
        exact ⟨rd_wr_same _ _ _ hi, rd_wr_same _ _ _ hi⟩
      · rw [rd_wr_ne _ _ _ _ hji, rd_wr_ne _ _ _ _ hji]
        exact h1 j (by omega))
  exact h (le_refl 256)

theorem clearData_eq (st : CurveData) :
    clearData st = { sum := constArr 0, div := constArr 0, curve := st.curve } := by
  obtain ⟨h1, h2⟩ := clearData_spec st
  have hs : (clearData st).sum = constArr 0 :=
    arr_ext _ _ (fun i hi => by rw [(h1 i hi).1, rd_constArr 0 i hi])
  have hd : (clearData st).div = constArr 0 :=
    arr_ext _ _ (fun i hi => by rw [(h1 i hi).2, rd_constArr 0 i hi])
  cases hc : clearData st with
  | mk a b c =>
    rw [hc] at hs hd h2
    simp only at hs hd h2
    rw [hs, hd, h2]

/-! ## "Populate data" -/

/-- Sum of the target values of one row over the columns `c < n` whose source value is `v`;
the row starts at offset `o1` in the source and `o2` in the target. -/
theorem populateRow_spec (ptr1 ptr2 : Mem) (o1 o2 width : Nat) (st : CurveData) (v : Nat) :
    rd (populateRow ptr1 ptr2 o1 o2 width st).sum v % 4294967296
        = (rd st.sum v + ∑ c ∈ Finset.range width,
            if load ptr1 (o1 + c) = v then load ptr2 (o2 + c) else 0) % 4294967296
      ∧ rd (populateRow ptr1 ptr2 o1 o2 width st).div v % 4294967296
        = (rd st.div v + ∑ c ∈ Finset.range width,
            if load ptr1 (o1 + c) = v then 1 else 0) % 4294967296
      ∧ (rd st.sum v < 4294967296 → rd (populateRow ptr1 ptr2 o1 o2 width st).sum v < 4294967296)
      ∧ (rd st.div v < 4294967296 → rd (populateRow ptr1 ptr2 o1 o2 width st).div v < 4294967296)
      ∧ (populateRow ptr1 ptr2 o1 o2 width st).curve = st.curve := by
  unfold populateRow
  refine foldl_range_ind (populatePixel ptr1 ptr2 o1 o2)
    (fun n s =>
      rd s.sum v % 4294967296
        = (rd st.sum v + ∑ c ∈ Finset.range n,
            if load ptr1 (o1 + c) = v then load ptr2 (o2 + c) else 0) % 4294967296
      ∧ rd s.div v % 4294967296
        = (rd st.div v + ∑ c ∈ Finset.range n,
            if load ptr1 (o1 + c) = v then 1 else 0) % 4294967296
      ∧ (rd st.sum v < 4294967296 → rd s.sum v < 4294967296)
      ∧ (rd st.div v < 4294967296 → rd s.div v < 4294967296)
      ∧ s.curve = st.curve) st width ?_ ?_
  · simp
  · intro i s _ hp
    obtain ⟨h1, h2, h3, h4, h5⟩ := hp
    have hl := load_lt ptr1 (o1 + i)
    simp only [populatePixel, Finset.sum_range_succ]
    rw [rd_wr _ _ _ _ hl, rd_wr _ _ _ _ hl]
    by_cases hv : load ptr1 (o1 + i) = v
    · subst hv
      simp only [if_true]
      refine ⟨by omega, by omega, fun _ => by omega, fun _ => by omega, h5⟩
    · have hv2 : ¬ v = load ptr1 (o1 + i) := fun e => hv e.symm
      simp only [hv, hv2, if_false, Nat.add_zero]
      exact ⟨h1, h2, h3, h4, h5⟩

theorem populate_spec (ptr1 ptr2 : Mem) (width stride stride1 : Nat) (v : Nat) :
    ∀ (h o1 o2 : Nat) (st : CurveData),
      rd (populate ptr1 ptr2 width stride stride1 h o1 o2 st).sum v % 4294967296
        = (rd st.sum v + ∑ r ∈ Finset.range h, ∑ c ∈ Finset.range width,
            if load ptr1 (o1 + r * stride + c) = v then load ptr2 (o2 + r * stride1 + c)
            else 0) % 4294967296
      ∧ rd (populate ptr1 ptr2 width stride stride1 h o1 o2 st).div v % 4294967296
        = (rd st.div v + ∑ r ∈ Finset.range h, ∑ c ∈ Finset.range width,
            if load ptr1 (o1 + r * stride + c) = v then 1 else 0) % 4294967296
      ∧ (rd st.sum v < 4294967296
          → rd (populate ptr1 ptr2 width stride stride1 h o1 o2 st).sum v < 4294967296)
      ∧ (rd st.div v < 4294967296
          → rd (populate ptr1 ptr2 width stride stride1 h o1 o2 st).div v < 4294967296)
      ∧ (populate ptr1 ptr2 width stride stride1 h o1 o2 st).curve = st.curve := by
  intro h
  induction h with
  | zero => intro o1 o2 st; simp [populate]
  | succ k ih =>
    intro o1 o2 st
    obtain ⟨r1, r2, r3, r4, r5⟩ := populateRow_spec ptr1 ptr2 o1 o2 width st v
    obtain ⟨q1, q2, q3, q4, q5⟩ :=
      ih (o1 + stride) (o2 + stride1) (populateRow ptr1 ptr2 o1 o2 width st)
    have e1 : ∀ r c, o1 + stride + r * stride + c = o1 + (r + 1) * stride + c := by
      intro r c; ring
    have e2 : ∀ r c, o2 + stride1 + r * stride1 + c = o2 + (r + 1) * stride1 + c := by
      intro r c; ring
    simp only [e1, e2] at q1 q2
    simp only [populate]
    rw [Finset.sum_range_succ' (fun r => ∑ c ∈ Finset.range width,
        if load ptr1 (o1 + r * stride + c) = v then load ptr2 (o2 + r * stride1 + c) else 0),
      Finset.sum_range_succ' (fun r => ∑ c ∈ Finset.range width,
        if load ptr1 (o1 + r * stride + c) = v then 1 else 0)]
    simp only [Nat.zero_mul, Nat.add_zero]
    refine ⟨?_, ?_, fun hb => q3 (r3 hb), fun hb => q4 (r4 hb), q5.trans r5⟩
    · rw [q1]; omega
    · rw [q2]; omega

/-- After "Clear data" and "Populate data", `sum[v]` and `div[v]` are the target sum and
the pixel count of `v`, modulo `2 ^ 32`. -/
theorem populate_clear (st : CurveData) (ptr1 ptr2 : Mem) (width height stride stride1 : Nat)
    (v : Nat) (hv : v < 256) :
    rd (populate ptr1 ptr2 width stride stride1 height 0 0 (clearData st)).sum v
        = targetSum ptr1 ptr2 width height stride stride1 v % 4294967296
      ∧ rd (populate ptr1 ptr2 width stride stride1 height 0 0 (clearData st)).div v
        = pixelCount ptr1 width height stride v % 4294967296 := by
  obtain ⟨q1, q2, q3, q4, _⟩ :=
    populate_spec ptr1 ptr2 width stride stride1 v height 0 0 (clearData st)
  obtain ⟨c1, c2⟩ := (clearData_spec st).1 v hv
  rw [c1] at q1 q3
  rw [c2] at q2 q4
  simp only [Nat.zero_add] at q1 q2
  have b1 := q3 (by norm_num)
  have b2 := q4 (by norm_num)
  unfold targetSum pixelCount
  rw [← q1, ← q2]
  exact ⟨(Nat.mod_eq_of_lt b1).symm, (Nat.mod_eq_of_lt b2).symm⟩

theorem curveData_ext (a b : CurveData)
    (h1 : ∀ i, i < 256 → rd a.sum i = rd b.sum i)
    (h2 : ∀ i, i < 256 → rd a.div i = rd b.div i)
    (h3 : ∀ i, i < 256 → rd a.curve i = rd b.curve i) : a = b := by
  cases a with
  | mk a1 a2 a3 =>
    cases b with
    | mk b1 b2 b3 =>
      simp only at h1 h2 h3
      rw [arr_ext a1 b1 h1, arr_ext a2 b2 h2, arr_ext a3 b3 h3]

theorem pixelCount_le (ptr1 : Mem) (width height stride v : Nat) :
    pixelCount ptr1 width height stride v ≤ width * height := by
  unfold pixelCount
  calc (∑ r ∈ Finset.range height, ∑ c ∈ Finset.range width,
          if load ptr1 (r * stride + c) = v then 1 else 0)
      ≤ ∑ _r ∈ Finset.range height, ∑ _c ∈ Finset.range width, 1 :=
        Finset.sum_le_sum (fun r _ => Finset.sum_le_sum (fun c _ => by split <;> omega))
    _ = width * height := by simp [Nat.mul_comm]

theorem targetSum_le (ptr1 ptr2 : Mem) (width height stride stride1 v : Nat) :
    targetSum ptr1 ptr2 width height stride stride1 v
      ≤ 255 * pixelCount ptr1 width height stride v := by
  unfold targetSum pixelCount
  rw [Finset.mul_sum]
  refine Finset.sum_le_sum (fun r _ => ?_)
  rw [Finset.mul_sum]
  refine Finset.sum_le_sum (fun c _ => ?_)
  have := load_lt ptr2 (r * stride1 + c)
  split <;> omega

/-! ## "Raw curve" -/

theorem rawCurve_spec (st : CurveData) :
    (rawCurve st).sum = st.sum ∧ (rawCurve st).div = st.div
      ∧ ∀ j, j < 256 → rd (rawCurve st).curve j
          = if rd st.div j ≠ 0 then toUChar (meanValue st j) else 0 := by
  unfold rawCurve
  have h := foldl_range_ind rawStep
    (fun n s => n ≤ 256 → (s.sum = st.sum ∧ s.div = st.div
      ∧ ∀ j, j < n → rd s.curve j
          = if rd st.div j ≠ 0 then toUChar (meanValue st j) else 0))
    st 256 (fun _ => ⟨rfl, rfl, fun j hj => absurd hj (Nat.not_lt_zero j)⟩)
    (by
      intro i s hi hp hle
      obtain ⟨h1, h2, h3⟩ := hp (by omega)
      have hm : meanValue s i = meanValue st i := by
        unfold meanValue; rw [h1, h2]
      unfold rawStep
      by_cases hd : rd s.div i ≠ 0
      · rw [if_pos hd]
        refine ⟨h1, h2, fun j hj => ?_⟩
        by_cases hji : j = i
        · subst hji
          rw [rd_wr_same _ _ _ hi, hm, ← h2, if_pos hd]
        · rw [rd_wr_ne _ _ _ _ hji]
          exact h3 j (by omega)
      · rw [if_neg hd]
        refine ⟨h1, h2, fun j hj => ?_⟩
        by_cases hji : j = i
        · subst hji
          rw [rd_wr_same _ _ _ hi, ← h2, if_neg hd]
        · rw [rd_wr_ne _ _ _ _ hji]
          exact h3 j (by omega))
  exact h (le_refl 256)

/-- The state after "Raw curve" in terms of the plane contents. -/
theorem rawState_spec (st : CurveData) (ptr1 ptr2 : Mem) (width height stride stride1 : Nat)
    (v : Nat) (hv : v < 256) :
    rd (rawState st ptr1 ptr2 width height stride stride1).sum v
        = targetSum ptr1 ptr2 width height stride stride1 v % 4294967296
      ∧ rd (rawState st ptr1 ptr2 width height stride stride1).div v
        = pixelCount ptr1 width height stride v % 4294967296
      ∧ rd (rawState st ptr1 ptr2 width height stride stride1).curve v
        = if pixelCount ptr1 width height stride v % 4294967296 ≠ 0 then
            toUChar (IntDiv (toInt (targetSum ptr1 ptr2 width height stride stride1 v % 4294967296))
              (toInt (pixelCount ptr1 width height stride v % 4294967296)))
          else 0 := by
  obtain ⟨p1, p2⟩ := populate_clear st ptr1 ptr2 width height stride stride1 v hv
  obtain ⟨r1, r2, r3⟩ :=
    rawCurve_spec (populate ptr1 ptr2 width stride stride1 height 0 0 (clearData st))
  unfold rawState
  rw [r1, r2, r3 v hv]
  unfold meanValue
  rw [p1, p2]
  exact ⟨rfl, rfl, rfl⟩

/-- With at most `2 ^ 23` pixels nothing wraps: the counters are exact and the raw
curve entry is the mean rounded half up. -/
theorem rawState_exact (st : CurveData) (ptr1 ptr2 : Mem) (width height stride stride1 : Nat)
    (v : Nat) (hv : v < 256) (hsz : width * height ≤ 8388608) :
    rd (rawState st ptr1 ptr2 width height stride stride1).sum v
        = targetSum ptr1 ptr2 width height stride stride1 v
      ∧ rd (rawState st ptr1 ptr2 width height stride stride1).div v
        = pixelCount ptr1 width height stride v
      ∧ rd (rawState st ptr1 ptr2 width height stride stride1).curve v
        = (if pixelCount ptr1 width height stride v = 0 then 0
          else (targetSum ptr1 ptr2 width height stride stride1 v
            + pixelCount ptr1 width height stride v / 2)
              / pixelCount ptr1 width height stride v)
      ∧ (targetSum ptr1 ptr2 width height stride stride1 v
            + pixelCount ptr1 width height stride v / 2)
              / pixelCount ptr1 width height stride v < 256 := by
  obtain ⟨q1, q2, q3⟩ := rawState_spec st ptr1 ptr2 width height stride stride1 v hv
  have hn := pixelCount_le ptr1 width height stride v
  have hS := targetSum_le ptr1 ptr2 width height stride stride1 v
  generalize pixelCount ptr1 width height stride v = n at *
  generalize targetSum ptr1 ptr2 width height stride stride1 v = S at *
  have en : n % 4294967296 = n := Nat.mod_eq_of_lt (by omega)
  have eS : S % 4294967296 = S := Nat.mod_eq_of_lt (by omega)
  rw [en, eS] at q3
  rw [en] at q2
  rw [eS] at q1
  have hq : (S + n / 2) / n < 256 := by
    rcases Nat.eq_zero_or_pos n with h0 | hpos
    · subst h0; simp
    · rw [Nat.div_lt_iff_lt_mul hpos]; omega
  refine ⟨q1, q2, ?_, hq⟩
  rw [q3]
  by_cases h0 : n = 0
  · simp [h0]
  · rw [if_pos h0, if_neg h0, toInt_small S (by omega), toInt_small n (by omega),
      IntDiv_nonneg, toUChar_small _ hq]

theorem pixelCount_flat (k width height stride v : Nat) :
    pixelCount (flatPlane k) width height stride v
      = if k % 256 = v then width * height else 0 := by
  unfold pixelCount flatPlane load
  by_cases h : k % 256 = v
  · simp [h, Nat.mul_comm]
  · simp [h]

theorem targetSum_flat (k t width height stride stride1 v : Nat) :
    targetSum (flatPlane k) (flatPlane t) width height stride stride1 v
      = if k % 256 = v then width * height * (t % 256) else 0 := by
  unfold targetSum flatPlane load
  by_cases h : k % 256 = v
  · simp [h, Nat.mul_comm, Nat.mul_left_comm, Nat.mul_assoc]
  · simp [h]

theorem rawState_congr (st1 st2 : CurveData) (p1 t1 p2 t2 : Mem)
    (width height s1 u1 s2 u2 : Nat)
    (hsrc : ∀ r c, r < height → c < width → load p1 (r * s1 + c) = load p2 (r * s2 + c))
    (htgt : ∀ r c, r < height → c < width → load t1 (r * u1 + c) = load t2 (r * u2 + c)) :
    rawState st1 p1 t1 width height s1 u1 = rawState st2 p2 t2 width height s2 u2 := by
  have hc : ∀ v, pixelCount p1 width height s1 v = pixelCount p2 width height s2 v := by
    intro v
    unfold pixelCount
    refine Finset.sum_congr rfl (fun r hr => Finset.sum_congr rfl (fun c hc => ?_))
    rw [hsrc r c (Finset.mem_range.mp hr) (Finset.mem_range.mp hc)]
  have ht : ∀ v, targetSum p1 t1 width height s1 u1 v = targetSum p2 t2 width height s2 u2 v := by
    intro v
    unfold targetSum
    refine Finset.sum_congr rfl (fun r hr => Finset.sum_congr rfl (fun c hc => ?_))
    rw [hsrc r c (Finset.mem_range.mp hr) (Finset.mem_range.mp hc),
      htgt r c (Finset.mem_range.mp hr) (Finset.mem_range.mp hc)]
  apply curveData_ext
  · intro i hi
    rw [(rawState_spec st1 p1 t1 width height s1 u1 i hi).1,
      (rawState_spec st2 p2 t2 width height s2 u2 i hi).1, ht]
  · intro i hi
    rw [(rawState_spec st1 p1 t1 width height s1 u1 i hi).2.1,
      (rawState_spec st2 p2 t2 width height s2 u2 i hi).2.1, hc]
  · intro i hi
    rw [(rawState_spec st1 p1 t1 width height s1 u1 i hi).2.2,
      (rawState_spec st2 p2 t2 width height s2 u2 i hi).2.2, hc, ht]

/-! ## The search for `flat` and "Uniform color" -/

theorem flatScan_none (div : Arr) :
    ∀ (n i : Nat) (flat : Int), (∀ j, i ≤ j → j < i + n → rd div j = 0) →
      flatScan div n i flat = flat := by
  intro n
  induction n with
  | zero => intro i flat _; rfl
  | succ k ih =>
    intro i flat h
    have h0 : rd div i = 0 := h i (le_refl i) (by omega)
    simp only [flatScan, h0, ne_eq, not_true_eq_false, if_false]
    exact ih (i + 1) flat (fun j hj1 hj2 => h j (by omega) (by omega))

theorem flatScan_second (div : Arr) :
    ∀ (n i : Nat) (flat : Int), flat ≠ -1 →
      (∃ j, i ≤ j ∧ j < i + n ∧ rd div j ≠ 0) → flatScan div n i flat = -1 := by
  intro n
  induction n with
  | zero => intro i flat _ h; obtain ⟨j, h1, h2, _⟩ := h; omega
  | succ k ih =>
    intro i flat hf h
    obtain ⟨j, h1, h2, h3⟩ := h
    by_cases h0 : rd div i = 0
    · simp only [flatScan, h0, ne_eq, not_true_eq_false, if_false]
      have hji : j ≠ i := fun e => h3 (e ▸ h0)
      exact ih (i + 1) flat hf ⟨j, by omega, by omega, h3⟩
    · simp only [flatScan, ne_eq, h0, not_false_eq_true, if_true, hf, if_false]

theorem flatScan_one (div : Arr) (k : Nat) (hk : rd div k ≠ 0) :
    ∀ (n i : Nat), i ≤ k → k < i + n →
      (∀ j, i ≤ j → j < i + n → j ≠ k → rd div j = 0) →
      flatScan div n i (-1) = (k : Int) := by
  intro n
  induction n with
  | zero => intro i h1 h2 _; omega
  | succ m ih =>
    intro i h1 h2 h
    by_cases hik : i = k
    · subst hik
      simp only [flatScan, ne_eq, hk, not_false_eq_true, if_true]
      exact flatScan_none div m (i + 1) (i : Int)
        (fun j hj1 hj2 => h j (by omega) (by omega) (by omega))
    · have h0 : rd div i = 0 := h i (le_refl i) (by omega) hik
      simp only [flatScan, h0, ne_eq, not_true_eq_false, if_false]
      exact ih (i + 1) (by omega) (by omega)
        (fun j hj1 hj2 hj3 => h j (by omega) (by omega) hj3)

theorem flatScan_two (div : Arr) (u v : Nat) (huv : u < v) (hu : rd div u ≠ 0)
    (hv : rd div v ≠ 0) :
    ∀ (n i : Nat), i ≤ u → v < i + n → flatScan div n i (-1) = -1 := by
  intro n
  induction n with
  | zero => intro i h1 h2; omega
  | succ m ih =>
    intro i h1 h2
    by_cases h0 : rd div i = 0
    · simp only [flatScan, h0, ne_eq, not_true_eq_false, if_false]
      have : i ≠ u := fun e => hu (e ▸ h0)
      exact ih (i + 1) (by omega) (by omega)
    · simp only [flatScan, ne_eq, h0, not_false_eq_true, if_true]
      exact flatScan_second div m (i + 1) (i : Int) (by omega) ⟨v, by omega, by omega, hv⟩

theorem uniformColor_spec (st : CurveData) (k : Nat) :
    (uniformColor st (k : Int)).sum = st.sum ∧ (uniformColor st (k : Int)).div = st.div
      ∧ ∀ j, j < 256 → rd (uniformColor st (k : Int)).curve j = rd st.curve k := by
  unfold uniformColor
  simp only [Int.toNat_ofNat]
  have h := foldl_range_ind
    (fun (s : CurveData) i => { s with curve := wr s.curve i (rd s.curve k) })
    (fun n s => n ≤ 256 → (s.sum = st.sum ∧ s.div = st.div
      ∧ (∀ j, j < n → rd s.curve j = rd st.curve k)
      ∧ ∀ j, n ≤ j → rd s.curve j = rd st.curve j))
    st 256 (fun _ => ⟨rfl, rfl, fun j hj => absurd hj (Nat.not_lt_zero j), fun _ _ => rfl⟩)
    (by
      intro i s hi hp hle
      obtain ⟨h1, h2, h3, h4⟩ := hp (by omega)
      have hk : rd s.curve k = rd st.curve k := by
        by_cases hki : k < i
        · exact h3 k hki
        · exact h4 k (by omega)
      refine ⟨h1, h2, fun j hj => ?_, fun j hj => ?_⟩
      · by_cases hji : j = i
        · subst hji
          simp only [rd_wr_same _ _ _ hi, hk]
        · simp only [rd_wr_ne _ _ _ _ hji]
          exact h3 j (by omega)
      · have hji : j ≠ i := by omega
        simp only [rd_wr_ne _ _ _ _ hji]
        exact h4 j (by omega))
  obtain ⟨h1, h2, h3, _⟩ := h (le_refl 256)
  exact ⟨h1, h2, h3⟩

theorem pixelCount_of_const (ptr1 : Mem) (width height stride k : Nat)
    (hk : ∀ r c, r < height → c < width → load ptr1 (r * stride + c) = k) (v : Nat) :
    pixelCount ptr1 width height stride v = if k = v then width * height else 0 := by
  unfold pixelCount
  rw [Finset.sum_congr rfl (fun r hr => Finset.sum_congr rfl (fun c hc => by
    rw [hk r c (Finset.mem_range.mp hr) (Finset.mem_range.mp hc)]))]
  by_cases h : k = v
  · simp [h, Nat.mul_comm]
  · simp [h]

theorem targetSum_of_const (ptr1 ptr2 : Mem) (width height stride stride1 k : Nat)
    (hk : ∀ r c, r < height → c < width → load ptr1 (r * stride + c) = k) :
    targetSum ptr1 ptr2 width height stride stride1 k = planeSum ptr2 width height stride1 := by
  unfold targetSum planeSum
  refine Finset.sum_congr rfl (fun r hr => Finset.sum_congr rfl (fun c hc => ?_))
  rw [hk r c (Finset.mem_range.mp hr) (Finset.mem_range.mp hc)]
  simp

theorem planeSum_flat (t width height stride : Nat) :
    planeSum (flatPlane t) width height stride = width * height * (t % 256) := by
  unfold planeSum flatPlane load
  simp [Nat.mul_comm, Nat.mul_left_comm, Nat.mul_assoc]

/-! ## The searches and the stores of a filled entry -/

theorem scanDown_spec (div : Arr) :
    ∀ n, (scanDown div n = -1 ∧ ∀ j, j < n → rd div j = 0)
      ∨ ∃ p : Nat, scanDown div n = (p : Int) ∧ p < n ∧ rd div p ≠ 0
          ∧ ∀ j, p < j → j < n → rd div j = 0 := by
  intro n
  induction n with
  | zero => exact Or.inl ⟨rfl, fun j hj => absurd hj (Nat.not_lt_zero j)⟩
  | succ k ih =>
    by_cases h0 : rd div k = 0
    · simp only [scanDown, h0, ne_eq, not_true_eq_false, if_false]
      rcases ih with ⟨h1, h2⟩ | ⟨p, h1, h2, h3, h4⟩
      · refine Or.inl ⟨h1, fun j hj => ?_⟩
        by_cases hjk : j = k
        · rw [hjk]; exact h0
        · exact h2 j (by omega)
      · refine Or.inr ⟨p, h1, by omega, h3, fun j hj1 hj2 => ?_⟩
        by_cases hjk : j = k
        · rw [hjk]; exact h0
        · exact h4 j hj1 (by omega)
    · simp only [scanDown, ne_eq, h0, not_false_eq_true, if_true]
      exact Or.inr ⟨k, rfl, Nat.lt_succ_self k, h0, fun j hj1 hj2 => by omega⟩

theorem scanUp_spec (div : Arr) :
    ∀ k n, (scanUp div k n = -1 ∧ ∀ j, n ≤ j → j < n + k → rd div j = 0)
      ∨ ∃ p : Nat, scanUp div k n = (p : Int) ∧ n ≤ p ∧ p < n + k ∧ rd div p ≠ 0
          ∧ ∀ j, n ≤ j → j < p → rd div j = 0 := by
  intro k
  induction k with
  | zero => intro n; exact Or.inl ⟨rfl, fun j hj1 hj2 => by omega⟩
  | succ m ih =>
    intro n
    by_cases h0 : rd div n = 0
    · simp only [scanUp, h0, ne_eq, not_true_eq_false, if_false]
      rcases ih (n + 1) with ⟨h1, h2⟩ | ⟨p, h1, h2, h3, h4, h5⟩
      · refine Or.inl ⟨h1, fun j hj1 hj2 => ?_⟩
        by_cases hjn : j = n
        · rw [hjn]; exact h0
        · exact h2 j (by omega) (by omega)
      · refine Or.inr ⟨p, h1, by omega, by omega, h4, fun j hj1 hj2 => ?_⟩
        by_cases hjn : j = n
        · rw [hjn]; exact h0
        · exact h5 j (by omega) hj2
    · simp only [scanUp, ne_eq, h0, not_false_eq_true, if_true]
      exact Or.inr ⟨n, rfl, le_refl n, by omega, h0, fun j hj1 hj2 => by omega⟩

/-- The downward search finds `p` when `p` is populated and nothing above it is. -/
theorem scanDown_eq (div : Arr) (n p : Nat) (hp : p < n) (hd : rd div p ≠ 0)
    (hz : ∀ j, p < j → j < n → rd div j = 0) : scanDown div n = (p : Int) := by
  rcases scanDown_spec div n with ⟨_, h2⟩ | ⟨q, h1, h2, h3, h4⟩
  · exact absurd (h2 p hp) hd
  · rw [h1]
    rcases Nat.lt_trichotomy q p with h | h | h
    · exact absurd (h4 p h hp) hd
    · rw [h]
    · exact absurd (hz q h h2) h3

/-- The upward search finds `p` when `p` is populated and nothing below it is. -/
theorem scanUp_eq (div : Arr) (k n p : Nat) (hn : n ≤ p) (hp : p < n + k) (hd : rd div p ≠ 0)
    (hz : ∀ j, n ≤ j → j < p → rd div j = 0) : scanUp div k n = (p : Int) := by
  rcases scanUp_spec div k n with ⟨_, h2⟩ | ⟨q, h1, h2, h3, h4, h5⟩
  · exact absurd (h2 p hn hp) hd
  · rw [h1]
    rcases Nat.lt_trichotomy q p with h | h | h
    · exact absurd (hz q h2 h) h4
    · rw [h]
    · exact absurd (h5 p hn h) hd

theorem scanDown_none (div : Arr) (n : Nat) (hz : ∀ j, j < n → rd div j = 0) :
    scanDown div n = -1 := by
  rcases scanDown_spec div n with ⟨h1, _⟩ | ⟨q, _, h2, h3, _⟩
  · exact h1
  · exact absurd (hz q h2) h3

theorem scanUp_none (div : Arr) (k n : Nat) (hz : ∀ j, n ≤ j → j < n + k → rd div j = 0) :
    scanUp div k n = -1 := by
  rcases scanUp_spec div k n with ⟨h1, _⟩ | ⟨q, _, h2, h3, h4, _⟩
  · exact h1
  · exact absurd (hz q h2 h3) h4

theorem toUChar_lt (x : Int) : toUChar x < 256 := by
  unfold toUChar
  omega

theorem clamp_range (x : Int) : 0 ≤ clamp x ∧ clamp x ≤ 255 := by
  unfold clamp
  omega

theorem toUChar_of_range (x : Int) (h0 : 0 ≤ x) (h1 : x ≤ 255) : (toUChar x : Int) = x := by
  unfold toUChar
  omega

theorem markFilled_div (s : CurveData) (i : Nat) (v : Int) (j : Nat) (hi : i < 256) :
    rd (markFilled s i v).div j = if j = i then 1 else rd s.div j := by
  unfold markFilled
  exact rd_wr _ _ _ _ hi

theorem markFilled_sum (s : CurveData) (i : Nat) (v : Int) (j : Nat) (hi : i < 256) :
    rd (markFilled s i v).sum j = if j = i then toUChar v else rd s.sum j := by
  unfold markFilled
  exact rd_wr _ _ _ _ hi

theorem markFilled_curve (s : CurveData) (i : Nat) (v : Int) (j : Nat) (hi : i < 256) :
    rd (markFilled s i v).curve j = if j = i then toUChar v else rd s.curve j := by
  unfold markFilled
  exact rd_wr _ _ _ _ hi

theorem Extends_refl (s : CurveData) : Extends s s :=
  fun _ _ => Or.inl ⟨rfl, rfl, rfl⟩

theorem Extends_trans (s t u : CurveData) (h1 : Extends s t) (h2 : Extends t u) :
    Extends s u := by
  intro i hi
  rcases h1 i hi with ⟨a1, a2, a3⟩ | ⟨a1, a2, a3, a4⟩
  · rcases h2 i hi with ⟨b1, b2, b3⟩ | ⟨b1, b2, b3, b4⟩
    · exact Or.inl ⟨b1.trans a1, b2.trans a2, b3.trans a3⟩
    · exact Or.inr ⟨by rw [← a2]; exact b1, b2, b3, b4⟩
  · rcases h2 i hi with ⟨b1, b2, b3⟩ | ⟨b1, b2, b3, b4⟩
    · exact Or.inr ⟨a1, by rw [b2]; exact a2, by rw [b3]; exact a3, by rw [b1, b3]; exact a4⟩
    · rw [a2] at b1; omega

theorem Extends_markFilled (s : CurveData) (i : Nat) (v : Int) (hi : i < 256)
    (h0 : rd s.div i = 0) : Extends s (markFilled s i v) := by
  intro j hj
  rw [markFilled_div s i v j hi, markFilled_sum s i v j hi, markFilled_curve s i v j hi]
  by_cases hji : j = i
  · subst hji
    rw [if_pos rfl, if_pos rfl, if_pos rfl]
    exact Or.inr ⟨h0, rfl, toUChar_lt v, rfl⟩
  · rw [if_neg hji, if_neg hji, if_neg hji]
    exact Or.inl ⟨rfl, rfl, rfl⟩

/-- Populated entries keep their three values in an extension. -/
theorem Extends_keep (s t : CurveData) (h : Extends s t) (i : Nat) (hi : i < 256)
    (hp : rd s.div i ≠ 0) :
    rd t.sum i = rd s.sum i ∧ rd t.div i = rd s.div i ∧ rd t.curve i = rd s.curve i := by
  rcases h i hi with h1 | ⟨h1, _⟩
  · exact h1
  · exact absurd h1 hp

/-! ## "Fill missing" -/

theorem fillValue_frame (s t : CurveData) (i : Nat) (p q : Int)
    (hp : rd t.curve p.toNat = rd s.curve p.toNat)
    (hq : rd t.curve q.toNat = rd s.curve q.toNat) :
    fillValue t i p q = fillValue s i p q := by
  unfold fillValue
  rw [hp, hq]

theorem Extremes_le (d : Arr) (a b : Nat) (hx : Extremes d a b) : a ≤ b := by
  obtain ⟨_, h2, h3, h4, _⟩ := hx
  by_contra hlt
  exact h3 (h4 b (by omega))

theorem Extremes_range (d : Arr) (a b : Nat) (hx : Extremes d a b) (j : Nat) (hj : j < 256)
    (hp : rd d j ≠ 0) : a ≤ j ∧ j ≤ b := by
  obtain ⟨_, _, _, h4, h5⟩ := hx
  constructor
  · by_contra hlt
    exact hp (h4 j (by omega))
  · by_contra hlt
    exact hp (h5 j (by omega) hj)

theorem fillStep_inv (s0 : CurveData) (a b : Nat) (hx : Extremes s0.div a b) (hab : a < b)
    (n : Nat) (hn : n < 256) (s : CurveData) (h : FillInv s0 a b n s) :
    FillInv s0 a b (n + 1) (fillStep s n) := by
  obtain ⟨hE, hP, hV⟩ := h
  have hb256 : b < 256 := hx.1
  have hpa : rd s0.div a ≠ 0 := hx.2.1
  have hpb : rd s0.div b ≠ 0 := hx.2.2.1
  unfold fillStep
  by_cases hd : rd s.div n = 0
  · rw [if_pos hd]
    have hs0n : rd s0.div n = 0 := by
      by_contra hne
      exact ((hP n hn).mpr (Or.inl hne)) hd
    by_cases hmid : a < n ∧ n < b
    · obtain ⟨han, hnb⟩ := hmid
      -- the predecessor found is n - 1
      have hprevpop : rd s.div (n - 1) ≠ 0 := by
        refine (hP (n - 1) (by omega)).mpr ?_
        by_cases hna : n - 1 = a
        · rw [hna]; exact Or.inl hpa
        · exact Or.inr ⟨by omega, by omega, by omega⟩
      have hprev : scanDown s.div n = (n : Int) - 1 := by
        rw [scanDown_eq s.div n (n - 1) (by omega) hprevpop (fun j h1 h2 => by omega)]
        omega
      -- the successor found is the next index populated in s0
      rcases scanUp_spec s0.div (255 - n) (n + 1) with ⟨_, hz⟩ | ⟨q, hq1, hq2, hq3, hq4, hq5⟩
      · exact absurd (hz b (by omega) (by omega)) hpb
      · have hnext : scanUp s.div (255 - n) (n + 1) = (q : Int) := by
          refine scanUp_eq s.div (255 - n) (n + 1) q hq2 hq3
            ((hP q (by omega)).mpr (Or.inl hq4)) (fun j h1 h2 => ?_)
          by_contra hne
          rcases (hP j (by omega)).mp hne with h3 | ⟨_, _, h3⟩
          · exact h3 (hq5 j h1 h2)
          · omega
        have hcond : scanDown s.div n ≠ -1 ∧ scanUp s.div (255 - n) (n + 1) ≠ -1 := by
          rw [hprev, hnext]
          constructor <;> omega
        rw [if_pos hcond, hprev, hnext]
        refine ⟨Extends_trans _ _ _ hE (Extends_markFilled s n _ hn hd), fun i hi => ?_,
          fun i hi1 hi2 hi3 hi4 => ?_⟩
        · rw [markFilled_div s n _ i hn]
          by_cases hin : i = n
          · rw [if_pos hin]
            exact ⟨fun _ => Or.inr ⟨by omega, by omega, by omega⟩, fun _ => by omega⟩
          · rw [if_neg hin, hP i hi]
            constructor
            · rintro (h1 | ⟨h1, h2, h3⟩)
              · exact Or.inl h1
              · exact Or.inr ⟨h1, h2, by omega⟩
            · rintro (h1 | ⟨h1, h2, h3⟩)
              · exact Or.inl h1
              · exact Or.inr ⟨h1, h2, by omega⟩
        · rw [markFilled_curve s n _ i hn]
          by_cases hin : i = n
          · subst hin
            rw [if_pos rfl, hq1]
            congr 1
            symm
            apply fillValue_frame
            · rw [markFilled_curve s i _ _ hn, if_neg (by omega)]
            · rw [markFilled_curve s i _ _ hn, if_neg (by omega)]
          · rw [if_neg hin, hV i (by omega) hi2 hi3 hi4]
            congr 1
            symm
            apply fillValue_frame
            · rw [markFilled_curve s n _ _ hn, if_neg (by omega)]
            · rw [markFilled_curve s n _ _ hn, if_neg]
              rcases scanUp_spec s0.div (255 - i) (i + 1) with ⟨e, _⟩ | ⟨q2, e, _, _, e4, _⟩
              · rw [e]
                change ¬ (0 : Nat) = n
                omega
              · rw [e, Int.toNat_ofNat]
                intro e5
                rw [e5] at e4
                exact e4 hs0n
    · have hcond : ¬ (scanDown s.div n ≠ -1 ∧ scanUp s.div (255 - n) (n + 1) ≠ -1) := by
        intro hc
        have hna : n ≠ a := fun e => hpa (e ▸ hs0n)
        have hnb : n ≠ b := fun e => hpb (e ▸ hs0n)
        by_cases hlow : n < a
        · refine hc.1 (scanDown_none s.div n (fun j hj => ?_))
          by_contra hne
          rcases (hP j (by omega)).mp hne with h3 | ⟨_, _, _⟩
          · exact h3 (hx.2.2.2.1 j (by omega))
          · omega
        · refine hc.2 (scanUp_none s.div (255 - n) (n + 1) (fun j hj1 hj2 => ?_))
          by_contra hne
          rcases (hP j (by omega)).mp hne with h3 | ⟨_, _, _⟩
          · exact h3 (hx.2.2.2.2 j (by omega) (by omega))
          · omega
      rw [if_neg hcond]
      refine ⟨hE, fun i hi => ?_, fun i hi1 hi2 hi3 hi4 => ?_⟩
      · rw [hP i hi]
        by_cases hin : i = n
        · subst hin
          constructor
          · rintro (h1 | ⟨h1, h2, h3⟩)
            · exact Or.inl h1
            · omega
          · rintro (h1 | ⟨h1, h2, h3⟩)
            · exact Or.inl h1
            · exact absurd ⟨h1, h2⟩ hmid
        · constructor
          · rintro (h1 | ⟨h1, h2, h3⟩)
            · exact Or.inl h1
            · exact Or.inr ⟨h1, h2, by omega⟩
          · rintro (h1 | ⟨h1, h2, h3⟩)
            · exact Or.inl h1
            · exact Or.inr ⟨h1, h2, by omega⟩
      · have hin : i ≠ n := fun e => hmid ⟨e ▸ hi2, e ▸ hi3⟩
        exact hV i (by omega) hi2 hi3 hi4
  · rw [if_neg hd]
    have hs0n : rd s0.div n ≠ 0 := by
      rcases (hP n hn).mp hd with h1 | ⟨_, _, h3⟩
      · exact h1
      · omega
    refine ⟨hE, fun i hi => ?_, fun i hi1 hi2 hi3 hi4 => ?_⟩
    · rw [hP i hi]
      by_cases hin : i = n
      · subst hin
        exact ⟨fun _ => Or.inl hs0n, fun _ => Or.inl hs0n⟩
      · constructor
        · rintro (h1 | ⟨h1, h2, h3⟩)
          · exact Or.inl h1
          · exact Or.inr ⟨h1, h2, by omega⟩
        · rintro (h1 | ⟨h1, h2, h3⟩)
          · exact Or.inl h1
          · exact Or.inr ⟨h1, h2, by omega⟩
    · have hin : i ≠ n := fun e => hs0n (e ▸ hi4)
      exact hV i (by omega) hi2 hi3 hi4

theorem fillMissing_inv (s0 : CurveData) (a b : Nat) (hx : Extremes s0.div a b) (hab : a < b) :
    FillInv s0 a b 256 (fillMissing s0) := by
  unfold fillMissing
  have h := foldl_range_ind fillStep (fun n s => n ≤ 256 → FillInv s0 a b n s) s0 256
    (fun _ => ⟨Extends_refl s0, fun i _ =>
      ⟨fun h => Or.inl h, fun h => h.elim id (fun h2 => absurd h2.2.2 (Nat.not_lt_zero i))⟩,
      fun i hi => absurd hi (Nat.not_lt_zero i)⟩)
    (fun i s hi hp hle => fillStep_inv s0 a b hx hab i hi s (hp (by omega)))
  exact h (le_refl 256)

/-- After "Fill missing" the populated indices are exactly `a, ..., b`. -/
theorem fillMissing_interval (s0 : CurveData) (a b : Nat) (hx : Extremes s0.div a b)
    (hab : a < b) : Interval (fillMissing s0) a b := by
  obtain ⟨_, hP, _⟩ := fillMissing_inv s0 a b hx hab
  refine ⟨hx.1, fun i hi => ?_⟩
  rw [hP i hi]
  constructor
  · rintro (h1 | ⟨h1, h2, _⟩)
    · exact Extremes_range s0.div a b hx i hi h1
    · omega
  · rintro ⟨h1, h2⟩
    by_cases hia : i = a
    · rw [hia]; exact Or.inl hx.2.1
    · by_cases hib : i = b
      · rw [hib]; exact Or.inl hx.2.2.1
      · exact Or.inr ⟨by omega, by omega, hi⟩

/-! ## The boundary extrapolation -/

theorem mirrorValue_frame (s t : CurveData) (e m : Int)
    (he : rd t.curve e.toNat = rd s.curve e.toNat)
    (hm : rd t.curve m.toNat = rd s.curve m.toNat) :
    mirrorValue t e m = mirrorValue s e m := by
  unfold mirrorValue
  rw [he, hm]

theorem Interval_first (s : CurveData) (a b : Nat) (hI : Interval s a b) (hab : a ≤ b) :
    scanUp s.div 256 0 = (a : Int) := by
  obtain ⟨hb, hP⟩ := hI
  refine scanUp_eq s.div 256 0 a (Nat.zero_le a) (by omega)
    ((hP a (by omega)).mpr ⟨le_refl a, hab⟩) (fun j _ hj => ?_)
  by_contra hne
  have := (hP j (by omega)).mp hne
  omega

theorem Interval_last (s : CurveData) (a b : Nat) (hI : Interval s a b) (hab : a ≤ b) :
    scanDown s.div 256 = (b : Int) := by
  obtain ⟨hb, hP⟩ := hI
  refine scanDown_eq s.div 256 b hb ((hP b hb).mpr ⟨hab, le_refl b⟩) (fun j hj1 hj2 => ?_)
  by_contra hne
  have := (hP j hj2).mp hne
  omega

/-- "Extend bottom" on a state whose populated indices are `a, ..., b` with `a < b`:
the indices `i < a` with `2 * a - i <= b` are filled with the mirrored value. -/
theorem extendBottom_spec (s : CurveData) (a b : Nat) (hI : Interval s a b) (hab : a < b) :
    Extends s (extendBottom s)
      ∧ Interval (extendBottom s) (2 * a - b) b
      ∧ (∀ i, a ≤ i → i < 256 → rd (extendBottom s).curve i = rd s.curve i)
      ∧ ∀ i, i < a → 2 * a ≤ b + i →
          rd (extendBottom s).curve i
            = toUChar (mirrorValue s (a : Int) ((a : Int) * 2 - (i : Int))) := by
  obtain ⟨hb, hP⟩ := hI
  unfold extendBottom
  rw [Interval_first s a b ⟨hb, hP⟩ (by omega), Int.toNat_ofNat]
  have h := foldl_range_ind (bottomStep (a : Int))
    (fun n t => n ≤ a →
      (Extends s t
        ∧ (∀ i, i < 256 → (rd t.div i ≠ 0 ↔ ((a ≤ i ∧ i ≤ b) ∨ (i < n ∧ 2 * a ≤ b + i))))
        ∧ (∀ i, a ≤ i → i < 256 → rd t.curve i = rd s.curve i)
        ∧ ∀ i, i < n → 2 * a ≤ b + i →
            rd t.curve i = toUChar (mirrorValue s (a : Int) ((a : Int) * 2 - (i : Int)))))
    s a
    (fun _ => ⟨Extends_refl s, fun i hi => by rw [hP i hi]; constructor <;> intro h <;> omega,
      fun _ _ _ => rfl, fun i hi => absurd hi (Nat.not_lt_zero i)⟩)
    (by
      intro n t hn hp hle
      obtain ⟨hE, hQ, hC, hV⟩ := hp (by omega)
      have hm : ((a : Int) * 2 - (n : Int)).toNat = 2 * a - n := by omega
      have htn : rd t.div n = 0 := by
        by_contra hne
        have := (hQ n (by omega)).mp hne
        omega
      unfold bottomStep
      by_cases hfill : 2 * a ≤ b + n
      · have c1 : (a : Int) * 2 - (n : Int) ≤ 255 := by omega
        have c2 : rd t.div ((a : Int) * 2 - (n : Int)).toNat ≠ 0 := by
          rw [hm]
          exact (hQ (2 * a - n) (by omega)).mpr (Or.inl ⟨by omega, by omega⟩)
        rw [if_pos c1, if_pos c2]
        have hfr : mirrorValue t (a : Int) ((a : Int) * 2 - (n : Int))
            = mirrorValue s (a : Int) ((a : Int) * 2 - (n : Int)) := by
          apply mirrorValue_frame
          · rw [Int.toNat_ofNat]; exact hC a (le_refl a) (by omega)
          · rw [hm]; exact hC (2 * a - n) (by omega) (by omega)
        refine ⟨Extends_trans _ _ _ hE (Extends_markFilled t n _ (by omega) htn),
          fun i hi => ?_, fun i hi1 hi2 => ?_, fun i hi1 hi2 => ?_⟩
        · rw [markFilled_div t n _ i (by omega)]
          by_cases hin : i = n
          · rw [if_pos hin]
            exact ⟨fun _ => Or.inr ⟨by omega, by omega⟩, fun _ => by omega⟩
          · rw [if_neg hin, hQ i hi]
            constructor <;> intro h <;> omega
        · rw [markFilled_curve t n _ i (by omega), if_neg (by omega)]
          exact hC i hi1 hi2
        · rw [markFilled_curve t n _ i (by omega)]
          by_cases hin : i = n
          · subst hin
            rw [if_pos rfl, hfr]
          · rw [if_neg hin]
            exact hV i (by omega) hi2
      · have hnow : (if (a : Int) * 2 - (n : Int) ≤ 255 then
              if rd t.div ((a : Int) * 2 - (n : Int)).toNat ≠ 0 then
                markFilled t n (mirrorValue t (a : Int) ((a : Int) * 2 - (n : Int)))
              else t
            else t) = t := by
          by_cases c1 : (a : Int) * 2 - (n : Int) ≤ 255
          · rw [if_pos c1]
            have c2 : ¬ rd t.div ((a : Int) * 2 - (n : Int)).toNat ≠ 0 := by
              rw [hm]
              intro hne
              have := (hQ (2 * a - n) (by omega)).mp hne
              omega
            rw [if_neg c2]
          · rw [if_neg c1]
        rw [hnow]
        refine ⟨hE, fun i hi => ?_, hC, fun i hi1 hi2 => ?_⟩
        · rw [hQ i hi]
          constructor <;> intro h <;> omega
        · have hin : i ≠ n := fun e => hfill (e ▸ hi2)
          exact hV i (by omega) hi2)
  obtain ⟨hE, hQ, hC, hV⟩ := h (le_refl a)
  refine ⟨hE, ⟨hb, fun i hi => ?_⟩, hC, hV⟩
  rw [hQ i hi]
  constructor <;> intro h <;> omega

/-- "Extend top" on a state whose populated indices are `a, ..., b` with `a < b`:
the indices `i > b` with `2 * b - i >= a` are filled with the mirrored value. -/
theorem extendTop_spec (s : CurveData) (a b : Nat) (hI : Interval s a b) (hab : a < b) :
    Extends s (extendTop s)
      ∧ Interval (extendTop s) a (min 255 (2 * b - a))
      ∧ (∀ i, i ≤ b → rd (extendTop s).curve i = rd s.curve i)
      ∧ ∀ i, b < i → i < 256 → i + a ≤ 2 * b →
          rd (extendTop s).curve i
            = toUChar (mirrorValue s (b : Int) ((b : Int) * 2 - (i : Int))) := by
  obtain ⟨hb, hP⟩ := hI
  unfold extendTop
  rw [Interval_last s a b ⟨hb, hP⟩ (by omega), List.foldl_map]
  have hk : (255 - (b : Int)).toNat = 255 - b := by omega
  rw [hk]
  have h := foldl_range_ind (fun t n => topStep (b : Int) t (255 - n))
    (fun n t => n ≤ 255 - b →
      (Extends s t
        ∧ (∀ i, i < 256 → (rd t.div i ≠ 0 ↔ ((a ≤ i ∧ i ≤ b) ∨ (255 - n < i ∧ i + a ≤ 2 * b))))
        ∧ (∀ i, i ≤ b → rd t.curve i = rd s.curve i)
        ∧ ∀ i, i < 256 → 255 - n < i → i + a ≤ 2 * b →
            rd t.curve i = toUChar (mirrorValue s (b : Int) ((b : Int) * 2 - (i : Int)))))
    s (255 - b)
    (fun _ => ⟨Extends_refl s, fun i hi => by rw [hP i hi]; constructor <;> intro h <;> omega,
      fun _ _ => rfl, fun i hi1 hi2 => by omega⟩)
    (by
      intro n t hn hp hle
      obtain ⟨hE, hQ, hC, hV⟩ := hp (by omega)
      beta_reduce
      have hcast : (((255 - n : Nat)) : Int) = 255 - (n : Int) := by omega
      have hm : ((b : Int) * 2 - ((255 - n : Nat) : Int)).toNat = 2 * b - (255 - n) := by omega
      have htn : rd t.div (255 - n) = 0 := by
        by_contra hne
        have := (hQ (255 - n) (by omega)).mp hne
        omega
      unfold topStep
      by_cases hfill : (255 - n) + a ≤ 2 * b
      · have c1 : 0 ≤ (b : Int) * 2 - ((255 - n : Nat) : Int) := by omega
        have c2 : rd t.div ((b : Int) * 2 - ((255 - n : Nat) : Int)).toNat ≠ 0 := by
          rw [hm]
          exact (hQ (2 * b - (255 - n)) (by omega)).mpr (Or.inl ⟨by omega, by omega⟩)
        rw [if_pos c1, if_pos c2]
        have hfr : mirrorValue t (b : Int) ((b : Int) * 2 - ((255 - n : Nat) : Int))
            = mirrorValue s (b : Int) ((b : Int) * 2 - ((255 - n : Nat) : Int)) := by
          apply mirrorValue_frame
          · rw [Int.toNat_ofNat]; exact hC b (le_refl b)
          · rw [hm]; exact hC (2 * b - (255 - n)) (by omega)
        refine ⟨Extends_trans _ _ _ hE (Extends_markFilled t (255 - n) _ (by omega) htn),
          fun i hi => ?_, fun i hi1 => ?_, fun i hi1 hi2 hi3 => ?_⟩
        · rw [markFilled_div t (255 - n) _ i (by omega)]
          by_cases hin : i = 255 - n
          · rw [if_pos hin]
            exact ⟨fun _ => Or.inr ⟨by omega, by omega⟩, fun _ => by omega⟩
          · rw [if_neg hin, hQ i hi]
            constructor <;> intro h <;> omega
        · rw [markFilled_curve t (255 - n) _ i (by omega), if_neg (by omega)]
          exact hC i hi1
        · rw [markFilled_curve t (255 - n) _ i (by omega)]
          by_cases hin : i = 255 - n
          · subst hin
            rw [if_pos rfl, hfr]
          · rw [if_neg hin]
            exact hV i hi1 (by omega) hi3
      · have hnow : (if 0 ≤ (b : Int) * 2 - ((255 - n : Nat) : Int) then
              if rd t.div ((b : Int) * 2 - ((255 - n : Nat) : Int)).toNat ≠ 0 then
                markFilled t (255 - n)
                  (mirrorValue t (b : Int) ((b : Int) * 2 - ((255 - n : Nat) : Int)))
              else t
            else t) = t := by
          by_cases c1 : 0 ≤ (b : Int) * 2 - ((255 - n : Nat) : Int)
          · rw [if_pos c1]
            have c2 : ¬ rd t.div ((b : Int) * 2 - ((255 - n : Nat) : Int)).toNat ≠ 0 := by
              rw [hm]
              intro hne
              have := (hQ (2 * b - (255 - n)) (by omega)).mp hne
              omega
            rw [if_neg c2]
          · rw [if_neg c1]
        rw [hnow]
        refine ⟨hE, fun i hi => ?_, hC, fun i hi1 hi2 hi3 => ?_⟩
        · rw [hQ i hi]
          constructor <;> intro h <;> omega
        · have hin : i ≠ 255 - n := fun e => hfill (e ▸ hi3)
          exact hV i hi1 (by omega) hi3)
  obtain ⟨hE, hQ, hC, hV⟩ := h (le_refl (255 - b))
  refine ⟨hE, ⟨by omega, fun i hi => ?_⟩, hC, fun i hi1 hi2 hi3 => hV i hi2 (by omega) hi3⟩
  rw [hQ i hi]
  constructor <;> intro h <;> omega

theorem Interval_zero_iff (s : CurveData) (a b : Nat) (hI : Interval s a b) (hab : a ≤ b) :
    (rd s.div 0 = 0 ↔ 0 < a) ∧ (rd s.div 255 = 0 ↔ b < 255) := by
  obtain ⟨hb, hP⟩ := hI
  constructor
  · constructor
    · intro h0
      by_contra hna
      exact ((hP 0 (by omega)).mpr ⟨by omega, by omega⟩) h0
    · intro ha
      by_contra hne
      have := (hP 0 (by omega)).mp hne
      omega
  · constructor
    · intro h0
      by_contra hna
      exact ((hP 255 (by omega)).mpr ⟨by omega, by omega⟩) h0
    · intro ha
      by_contra hne
      have := (hP 255 (by omega)).mp hne
      omega

/-- One pass of the loop body on a state whose populated indices are `a, ..., b`,
`a < b`: afterwards they are `2 * a - b, ..., min 255 (2 * b - (2 * a - b))`
(subtraction truncated at 0). -/
theorem extendPass_spec (s : CurveData) (a b : Nat) (hI : Interval s a b) (hab : a < b) :
    Extends s (extendPass s)
      ∧ Interval (extendPass s) (2 * a - b) (min 255 (2 * b - (2 * a - b))) := by
  obtain ⟨z0, z255⟩ := Interval_zero_iff s a b hI (by omega)
  have hb := hI.1
  have h1 : Extends s (if rd s.div 0 = 0 then extendBottom s else s)
      ∧ Interval (if rd s.div 0 = 0 then extendBottom s else s) (2 * a - b) b := by
    by_cases h0 : rd s.div 0 = 0
    · rw [if_pos h0]
      obtain ⟨e1, e2, _⟩ := extendBottom_spec s a b hI hab
      exact ⟨e1, e2⟩
    · rw [if_neg h0]
      have ha : a = 0 := by
        by_contra hne
        exact h0 (z0.mpr (by omega))
      refine ⟨Extends_refl s, ?_⟩
      rw [show 2 * a - b = a by omega]
      exact hI
  unfold extendPass
  generalize (if rd s.div 0 = 0 then extendBottom s else s) = s1 at h1
  obtain ⟨hE1, hI1⟩ := h1
  obtain ⟨_, y255⟩ := Interval_zero_iff s1 (2 * a - b) b hI1 (by omega)
  by_cases h255 : rd s1.div 255 = 0
  · rw [if_pos h255]
    obtain ⟨e1, e2, _⟩ := extendTop_spec s1 (2 * a - b) b hI1 (by omega)
    exact ⟨Extends_trans _ _ _ hE1 e1, e2⟩
  · rw [if_neg h255]
    have hb255 : b = 255 := by
      by_contra hne
      exact h255 (y255.mpr (by omega))
    refine ⟨hE1, ?_⟩
    rw [show min 255 (2 * b - (2 * a - b)) = b by omega]
    exact hI1

theorem count_outside (a b : Nat) (hab : a ≤ b) :
    ∀ n, ((List.range n).filter (fun i => decide (i < a ∨ b < i))).length
      = min n a + (n - (b + 1)) := by
  intro n
  induction n with
  | zero => simp
  | succ k ih =>
    rw [List.range_succ, List.filter_append, List.length_append, ih]
    by_cases h : k < a ∨ b < k
    · simp only [List.filter_cons, h, decide_True, if_true, List.filter_nil, List.length_cons,
        List.length_nil]
      omega
    · simp only [List.filter_cons, h, decide_False, List.filter_nil, List.length_nil]
      simp only [Bool.false_eq_true, if_false, List.length_nil]
      omega

theorem unpopulated_of_interval (s : CurveData) (a b : Nat) (hI : Interval s a b)
    (hab : a ≤ b) : unpopulated s = a + (255 - b) := by
  obtain ⟨hb, hP⟩ := hI
  unfold unpopulated
  have hc : (List.range 256).filter (fun i => decide (rd s.div i = 0))
      = (List.range 256).filter (fun i => decide (i < a ∨ b < i)) := by
    apply List.filter_congr
    intro x hx
    have hx2 : x < 256 := List.mem_range.mp hx
    have := hP x hx2
    by_cases h0 : rd s.div x = 0
    · have h3 : x < a ∨ b < x := by
        by_contra hne
        exact (this.mpr (by omega)) h0
      simp [h0, h3]
    · have h3 : ¬ (x < a ∨ b < x) := by
        have := this.mp h0
        omega
      simp [h0, h3]
  rw [hc, count_outside a b hab 256]
  omega

/-- The loop exits after at most `a + (255 - b)` passes. -/
theorem extendLoop_spec :
    ∀ (fuel : Nat) (s : CurveData) (a b : Nat), Interval s a b → a < b →
      a + (255 - b) ≤ fuel →
      ∃ t, extendLoop fuel s = some t ∧ Extends s t ∧ Interval t 0 255 := by
  intro fuel
  induction fuel with
  | zero =>
    intro s a b hI hab hf
    obtain ⟨z0, z255⟩ := Interval_zero_iff s a b hI (by omega)
    have hb := hI.1
    have hc : ¬ (rd s.div 0 = 0 ∨ rd s.div 255 = 0) := by
      rintro (h | h)
      · have := z0.mp h; omega
      · have := z255.mp h; omega
    refine ⟨s, by simp only [extendLoop, hc, if_false], Extends_refl s, ?_⟩
    rw [show a = 0 by omega, show b = 255 by omega] at hI
    exact hI
  | succ f ih =>
    intro s a b hI hab hf
    obtain ⟨z0, z255⟩ := Interval_zero_iff s a b hI (by omega)
    have hb := hI.1
    by_cases hc : rd s.div 0 = 0 ∨ rd s.div 255 = 0
    · obtain ⟨e1, e2⟩ := extendPass_spec s a b hI hab
      have hm : (2 * a - b) + (255 - min 255 (2 * b - (2 * a - b))) ≤ f := by
        rcases hc with h | h
        · have := z0.mp h; omega
        · have := z255.mp h; omega
      obtain ⟨t, t1, t2, t3⟩ := ih (extendPass s) _ _ e2 (by omega) hm
      exact ⟨t, by simp only [extendLoop, hc, if_true]; exact t1, Extends_trans _ _ _ e1 t2, t3⟩
    · have h0 : ¬ 0 < a := fun h => hc (Or.inl (z0.mpr h))
      have h255 : ¬ b < 255 := fun h => hc (Or.inr (z255.mpr h))
      refine ⟨s, by simp only [extendLoop, hc, if_false], Extends_refl s, ?_⟩
      rw [show a = 0 by omega, show b = 255 by omega] at hI
      exact hI

/-- More passes allowed do not change the result of the loop. -/
theorem extendLoop_mono :
    ∀ (f : Nat) (s t : CurveData), extendLoop f s = some t →
      ∀ g, f ≤ g → extendLoop g s = some t := by
  intro f
  induction f with
  | zero =>
    intro s t h g _
    by_cases hc : rd s.div 0 = 0 ∨ rd s.div 255 = 0
    · simp [extendLoop, hc] at h
    · simp only [extendLoop, hc, if_false] at h
      cases g with
      | zero => simp only [extendLoop, hc, if_false]; exact h
      | succ g2 => simp only [extendLoop, hc, if_false]; exact h
  | succ f2 ih =>
    intro s t h g hg
    cases g with
    | zero => omega
    | succ g2 =>
      by_cases hc : rd s.div 0 = 0 ∨ rd s.div 255 = 0
      · simp only [extendLoop, hc, if_true] at h ⊢
        exact ih _ _ h g2 (by omega)
      · simp only [extendLoop, hc, if_false] at h ⊢
        exact h

/-! ## Smallest and largest populated index -/

theorem exists_extremes (d : Arr) (v : Nat) (hv : v < 256) (hp : rd d v ≠ 0) :
    ∃ a b, Extremes d a b ∧ a ≤ v ∧ v ≤ b := by
  rcases scanUp_spec d 256 0 with ⟨_, hz⟩ | ⟨a, _, _, ha2, ha3, ha4⟩
  · exact absurd (hz v (Nat.zero_le v) (by omega)) hp
  · rcases scanDown_spec d 256 with ⟨_, hz⟩ | ⟨b, _, hb2, hb3, hb4⟩
    · exact absurd (hz v hv) hp
    · refine ⟨a, b, ⟨hb2, ha3, hb3, fun j hj => ha4 j (Nat.zero_le j) hj, hb4⟩, ?_, ?_⟩
      · by_contra hlt
        exact hp (ha4 v (Nat.zero_le v) (by omega))
      · by_contra hlt
        exact hp (hb4 v (by omega) hv)

theorem extremes_of_two (d : Arr) (u v : Nat) (huv : u < v) (hv : v < 256)
    (hpu : rd d u ≠ 0) (hpv : rd d v ≠ 0) : ∃ a b, Extremes d a b ∧ a < b := by
  obtain ⟨a, b, hx, h1, _⟩ := exists_extremes d u (by omega) hpu
  have := Extremes_range d a b hx v hv hpv
  exact ⟨a, b, hx, by omega⟩

theorem extremes_of_flat (d : Arr) (v : Nat) (hv : v < 256) (hp : rd d v ≠ 0)
    (hflat : flatScan d 256 0 (-1) = -1) : ∃ a b, Extremes d a b ∧ a < b := by
  obtain ⟨a, b, hx, _, _⟩ := exists_extremes d v hv hp
  have hle := Extremes_le d a b hx
  refine ⟨a, b, hx, ?_⟩
  by_contra hnlt
  have hab : a = b := by omega
  subst hab
  have h1 := flatScan_one d a hx.2.1 256 0 (Nat.zero_le a) (by have := hx.1; omega)
    (fun j _ hj hja => by
      by_contra hne
      have := Extremes_range d a a hx j (by omega) hne
      omega)
  rw [h1] at hflat
  omega

theorem flat_of_extremes (d : Arr) (a b : Nat) (hx : Extremes d a b) (hab : a < b) :
    flatScan d 256 0 (-1) = -1 :=
  flatScan_two d a b hab hx.2.1 hx.2.2.1 256 0 (Nat.zero_le a) (by have := hx.1; omega)

/-! ## The final averaging -/

theorem meanValue_congr (s t : CurveData) (i : Nat) (h1 : rd t.sum i = rd s.sum i)
    (h2 : rd t.div i = rd s.div i) : meanValue t i = meanValue s i := by
  unfold meanValue
  rw [h1, h2]

theorem meanValue_filled (t : CurveData) (i : Nat) (h1 : rd t.div i = 1)
    (h2 : rd t.curve i < 256) (h3 : rd t.sum i = rd t.curve i) :
    meanValue t i = (rd t.curve i : Int) := by
  unfold meanValue
  rw [h1, h3, toInt_small _ (by omega), toInt_small 1 (by omega), IntDiv_nonneg]
  simp

theorem meanValue_range (s : CurveData) (i : Nat) (h1 : 1 ≤ rd s.div i)
    (h2 : rd s.div i ≤ 8388608) (h3 : rd s.sum i ≤ 255 * rd s.div i) :
    0 ≤ meanValue s i ∧ meanValue s i ≤ 255 := by
  unfold meanValue
  rw [toInt_small _ (by omega), toInt_small _ (by omega), IntDiv_nonneg]
  have hq : (rd s.sum i + rd s.div i / 2) / rd s.div i < 256 := by
    rw [Nat.div_lt_iff_lt_mul (by omega)]; omega
  generalize (rd s.sum i + rd s.div i / 2) / rd s.div i = q at hq
  omega

theorem Averaged_extends (s t : CurveData) (h : Averaged s) (he : Extends s t) :
    Averaged t := by
  intro i hi hp
  rcases he i hi with ⟨a1, a2, a3⟩ | ⟨_, a2, a3, a4⟩
  · rw [a3, meanValue_congr s t i a1 a2]
    exact h i hi (by rw [← a2]; exact hp)
  · rw [meanValue_filled t i a2 a3 a4, toUChar_small _ a3]

theorem Bounded_extends (s t : CurveData) (h : Bounded s) (he : Extends s t) :
    Bounded t := by
  intro i hi hp
  rcases he i hi with ⟨a1, a2, _⟩ | ⟨_, a2, a3, a4⟩
  · rw [a1, a2]
    exact h i hi (by rw [← a2]; exact hp)
  · rw [a2, a4]
    omega

theorem Averaged_rawCurve (st : CurveData) : Averaged (rawCurve st) := by
  obtain ⟨h1, h2, h3⟩ := rawCurve_spec st
  intro i hi hp
  rw [h2] at hp
  rw [h3 i hi, if_pos hp, meanValue_congr st (rawCurve st) i (by rw [h1]) (by rw [h2])]

theorem Bounded_rawState (st : CurveData) (ptr1 ptr2 : Mem) (width height stride stride1 : Nat)
    (hsz : width * height ≤ 8388608) :
    Bounded (rawState st ptr1 ptr2 width height stride stride1) := by
  intro i hi _
  obtain ⟨e1, e2, _, _⟩ := rawState_exact st ptr1 ptr2 width height stride stride1 i hi hsz
  rw [e1, e2]
  exact ⟨le_trans (pixelCount_le ptr1 width height stride i) hsz,
    targetSum_le ptr1 ptr2 width height stride stride1 i⟩

theorem finalAverage_spec (st : CurveData) :
    (finalAverage st).sum = st.sum ∧ (finalAverage st).div = st.div
      ∧ ∀ j, j < 256 → rd (finalAverage st).curve j = toUChar (meanValue st j) := by
  unfold finalAverage
  have h := foldl_range_ind
    (fun (s : CurveData) i => { s with curve := wr s.curve i (toUChar (meanValue s i)) })
    (fun n s => n ≤ 256 → (s.sum = st.sum ∧ s.div = st.div
      ∧ ∀ j, j < n → rd s.curve j = toUChar (meanValue st j)))
    st 256 (fun _ => ⟨rfl, rfl, fun j hj => absurd hj (Nat.not_lt_zero j)⟩)
    (by
      intro i s hi hp hle
      obtain ⟨h1, h2, h3⟩ := hp (by omega)
      have hm : meanValue s i = meanValue st i := by
        unfold meanValue; rw [h1, h2]
      refine ⟨h1, h2, fun j hj => ?_⟩
      by_cases hji : j = i
      · subst hji
        simp only [rd_wr_same _ _ _ hi, hm]
      · simp only [rd_wr_ne _ _ _ _ hji]
        exact h3 j (by omega))
  exact h (le_refl 256)

/-- On a fully populated state whose curve entries are the narrowed means, the final
averaging leaves the curve as it is. -/
theorem finalAverage_id (t : CurveData) (ha : Averaged t) (hI : Interval t 0 255) (j : Nat)
    (hj : j < 256) : rd (finalAverage t).curve j = rd t.curve j := by
  rw [(finalAverage_spec t).2.2 j hj]
  exact (ha j hj ((hI.2 j hj).mpr ⟨Nat.zero_le j, by omega⟩)).symm

/-! ## "Smooth curve" -/

theorem smoothStep_spec (w : Int) (hw : 0 < w) (s : CurveData) (i : Nat) (hi : i < 256)
    (hc : ∀ j, j < 256 → rd s.curve j < 256) :
    (smoothStep w s i).curve = s.curve
      ∧ (∀ j, j ≠ i → rd (smoothStep w s i).sum j = rd s.sum j
          ∧ rd (smoothStep w s i).div j = rd s.div j)
      ∧ 1 ≤ rd (smoothStep w s i).div i ∧ rd (smoothStep w s i).div i ≤ 256
      ∧ rd (smoothStep w s i).sum i ≤ 255 * rd (smoothStep w s i).div i := by
  unfold smoothStep
  have h := foldl_range_ind (smoothAdd w i)
    (fun n u => u.curve = s.curve
      ∧ (∀ j, j ≠ i → rd u.sum j = rd s.sum j ∧ rd u.div j = rd s.div j)
      ∧ ((rd u.div i : Int) ≤ max 0 (min 256 ((i : Int) - w + (n : Int))))
      ∧ (w < (n : Int) → 1 ≤ rd u.div i)
      ∧ rd u.sum i ≤ 255 * rd u.div i)
    { s with sum := wr s.sum i 0, div := wr s.div i 0 } (2 * w).toNat
    (by
      refine ⟨rfl, fun j hj => ⟨rd_wr_ne _ _ _ _ hj, rd_wr_ne _ _ _ _ hj⟩, ?_, ?_, ?_⟩
      · simp only [rd_wr_same _ _ _ hi]; omega
      · intro h; omega
      · simp only [rd_wr_same _ _ _ hi]; omega)
    (by
      intro n u _ hp
      obtain ⟨h1, h2, h3, h4, h5⟩ := hp
      unfold smoothAdd
      by_cases hv : 0 ≤ (i : Int) + (-w + (n : Int)) ∧ (i : Int) + (-w + (n : Int)) < 256
      · rw [if_pos hv]
        have hrd : rd u.curve ((i : Int) + (-w + (n : Int))).toNat < 256 := by
          rw [h1]
          exact hc _ (by omega)
        refine ⟨h1, fun j hj => ?_, ?_, ?_, ?_⟩
        · simp only [rd_wr_ne _ _ _ _ hj]
          exact h2 j hj
        · simp only [rd_wr_same _ _ _ hi]
          omega
        · intro _
          simp only [rd_wr_same _ _ _ hi]
          omega
        · simp only [rd_wr_same _ _ _ hi]
          omega
      · rw [if_neg hv]
        refine ⟨h1, h2, by omega, fun hlt => ?_, h5⟩
        by_cases hwn : w < (n : Int)
        · exact h4 hwn
        · exfalso
          apply hv
          omega)
  obtain ⟨h1, h2, h3, h4, h5⟩ := h
  exact ⟨h1, h2, h4 (by omega), by omega, h5⟩

theorem smoothCurve_spec (w : Int) (hw : 0 < w) (s : CurveData)
    (hc : ∀ j, j < 256 → rd s.curve j < 256) :
    (smoothCurve w s).curve = s.curve
      ∧ ∀ i, i < 256 → 1 ≤ rd (smoothCurve w s).div i ∧ rd (smoothCurve w s).div i ≤ 256
          ∧ rd (smoothCurve w s).sum i ≤ 255 * rd (smoothCurve w s).div i := by
  unfold smoothCurve
  rw [if_pos (by omega)]
  have h := foldl_range_ind (smoothStep w)
    (fun n u => n ≤ 256 → (u.curve = s.curve
      ∧ ∀ i, i < n → 1 ≤ rd u.div i ∧ rd u.div i ≤ 256 ∧ rd u.sum i ≤ 255 * rd u.div i))
    s 256 (fun _ => ⟨rfl, fun i hi => absurd hi (Nat.not_lt_zero i)⟩)
    (by
      intro n u hn hp hle
      obtain ⟨h1, h2⟩ := hp (by omega)
      obtain ⟨e1, e2, e3, e4, e5⟩ := smoothStep_spec w hw u n hn (by rw [h1]; exact hc)
      refine ⟨e1.trans h1, fun i hi => ?_⟩
      by_cases hin : i = n
      · subst hin
        exact ⟨e3, e4, e5⟩
      · rw [(e2 i hin).1, (e2 i hin).2]
        exact h2 i (by omega))
  exact h (le_refl 256)

/-! ## `Create` with at least two populated intensities -/

theorem Averaged_curve_lt (t : CurveData) (ha : Averaged t) (hI : Interval t 0 255) (j : Nat)
    (hj : j < 256) : rd t.curve j < 256 := by
  rw [ha j hj ((hI.2 j hj).mpr ⟨Nat.zero_le j, by omega⟩)]
  exact toUChar_lt _

/-- When the smallest populated index `a` and the largest `b` of the raw state differ,
the loop exits within 255 passes in a fully populated state `t` that extends the state
after "Fill missing", and `Create` returns the final averaging of the smoothed `t`. -/
theorem Create_two (st : CurveData) (ptr1 ptr2 : Mem) (width height stride stride1 : Nat)
    (a b : Nat) (hx : Extremes (rawState st ptr1 ptr2 width height stride stride1).div a b)
    (hab : a < b) :
    ∃ t, (∀ fuel, 255 ≤ fuel →
          extendLoop fuel (fillMissing (rawState st ptr1 ptr2 width height stride stride1))
            = some t)
      ∧ Extends (fillMissing (rawState st ptr1 ptr2 width height stride stride1)) t
      ∧ Extends (rawState st ptr1 ptr2 width height stride stride1) t
      ∧ Interval t 0 255 ∧ Averaged t
      ∧ ∀ fuel sw, 255 ≤ fuel →
          Create fuel st ptr1 ptr2 width height stride stride1 false sw
            = some (finalAverage (smoothCurve sw t)) := by
  have hfi := fillMissing_inv _ a b hx hab
  have hI := fillMissing_interval _ a b hx hab
  obtain ⟨t, t1, t2, t3⟩ := extendLoop_spec 255 _ a b hI hab (by have := hx.1; omega)
  have hE : Extends (rawState st ptr1 ptr2 width height stride stride1) t :=
    Extends_trans _ _ _ hfi.1 t2
  have hA : Averaged t := by
    refine Averaged_extends _ _ ?_ hE
    unfold rawState
    exact Averaged_rawCurve _
  refine ⟨t, fun fuel hf => extendLoop_mono 255 _ _ t1 fuel hf, t2, hE, t3, hA,
    fun fuel sw hf => ?_⟩
  unfold Create
  rw [flat_of_extremes _ a b hx hab, extendLoop_mono 255 _ _ t1 fuel hf]
  simp

theorem pixelCount_pos (ptr1 : Mem) (width height stride r c : Nat) (hr : r < height)
    (hc : c < width) : 0 < pixelCount ptr1 width height stride (load ptr1 (r * stride + c)) := by
  unfold pixelCount
  have h1 : (∑ c2 ∈ Finset.range width,
      if load ptr1 (r * stride + c2) = load ptr1 (r * stride + c) then 1 else 0)
      ≤ ∑ r2 ∈ Finset.range height, ∑ c2 ∈ Finset.range width,
        if load ptr1 (r2 * stride + c2) = load ptr1 (r * stride + c) then 1 else 0 :=
    Finset.single_le_sum
      (f := fun r2 => ∑ c2 ∈ Finset.range width,
        if load ptr1 (r2 * stride + c2) = load ptr1 (r * stride + c) then 1 else 0)
      (fun _ _ => Nat.zero_le _) (Finset.mem_range.mpr hr)
  have h2 : (if load ptr1 (r * stride + c) = load ptr1 (r * stride + c) then 1 else 0)
      ≤ ∑ c2 ∈ Finset.range width,
        if load ptr1 (r * stride + c2) = load ptr1 (r * stride + c) then 1 else 0 :=
    Finset.single_le_sum
      (f := fun c2 => if load ptr1 (r * stride + c2) = load ptr1 (r * stride + c) then 1 else 0)
      (fun _ _ => Nat.zero_le _) (Finset.mem_range.mpr hc)
  rw [if_pos rfl] at h2
  omega

/-- A plane pair with at least one and fewer than `2 ^ 32` pixels has a populated
intensity. -/
theorem exists_populated (st : CurveData) (ptr1 ptr2 : Mem) (width height stride stride1 : Nat)
    (hpos : 1 ≤ width * height) (hlt : width * height < 4294967296) :
    ∃ v, v < 256 ∧ rd (rawState st ptr1 ptr2 width height stride stride1).div v ≠ 0 := by
  have hw : 0 < width := Nat.pos_of_ne_zero (fun e => by rw [e] at hpos; omega)
  have hh : 0 < height := Nat.pos_of_ne_zero (fun e => by rw [e] at hpos; omega)
  refine ⟨load ptr1 (0 * stride + 0), load_lt _ _, ?_⟩
  rw [(rawState_spec st ptr1 ptr2 width height stride stride1 _ (load_lt _ _)).2.1]
  have h1 := pixelCount_pos ptr1 width height stride 0 0 hh hw
  have h2 := pixelCount_le ptr1 width height stride (load ptr1 (0 * stride + 0))
  omega

/-! ## A state without populated index -/

theorem extendPass_iterate (s : CurveData) (a b : Nat) (hI : Interval s a b) (hab : a < b) :
    ∀ k, ∃ a2 b2, Interval (Nat.iterate extendPass k s) a2 b2 ∧ a2 < b2 := by
  intro k
  induction k with
  | zero => exact ⟨a, b, hI, hab⟩
  | succ n ih =>
    obtain ⟨a2, b2, h1, h2⟩ := ih
    rw [Function.iterate_succ_apply']
    have hb := h1.1
    exact ⟨_, _, (extendPass_spec _ a2 b2 h1 h2).2, by omega⟩

theorem extendPass_progress (s : CurveData) (a b : Nat) (hI : Interval s a b) (hab : a < b)
    (hc : rd s.div 0 = 0 ∨ rd s.div 255 = 0) :
    unpopulated (extendPass s) < unpopulated s
      ∧ ∃ i, i < 256 ∧ rd s.div i = 0 ∧ rd (extendPass s).div i ≠ 0 := by
  obtain ⟨z0, z255⟩ := Interval_zero_iff s a b hI (by omega)
  obtain ⟨_, e2⟩ := extendPass_spec s a b hI hab
  have hb := hI.1
  have hm : (2 * a - b) + (255 - min 255 (2 * b - (2 * a - b))) < a + (255 - b) := by
    rcases hc with h | h
    · have := z0.mp h; omega
    · have := z255.mp h; omega
  rw [unpopulated_of_interval _ _ _ e2 (by omega), unpopulated_of_interval _ _ _ hI (by omega)]
  refine ⟨hm, ?_⟩
  by_cases ha : 0 < a
  · refine ⟨a - 1, by omega, ?_, (e2.2 (a - 1) (by omega)).mpr (by omega)⟩
    by_contra hne
    have := (hI.2 (a - 1) (by omega)).mp hne
    omega
  · have hb255 : b < 255 := by
      rcases hc with h | h
      · have := z0.mp h; omega
      · exact z255.mp h
    refine ⟨b + 1, by omega, ?_, (e2.2 (b + 1) (by omega)).mpr (by omega)⟩
    by_contra hne
    have := (hI.2 (b + 1) (by omega)).mp hne
    omega

/-! ## The interior fill in the returned curve -/

/-- With `smoothing_window = 0` the returned curve is the curve of the state `t` in
which the loop exits. -/
theorem Create_zero (st : CurveData) (ptr1 ptr2 : Mem) (width height stride stride1 : Nat)
    (a b : Nat) (hx : Extremes (rawState st ptr1 ptr2 width height stride stride1).div a b)
    (hab : a < b) :
    ∃ res, (∀ fuel, 255 ≤ fuel →
          Create fuel st ptr1 ptr2 width height stride stride1 false 0 = some res)
      ∧ ∀ j, j < 256 →
          rd (fillMissing (rawState st ptr1 ptr2 width height stride stride1)).div j ≠ 0 →
          rd res.curve j
            = rd (fillMissing (rawState st ptr1 ptr2 width height stride stride1)).curve j := by
  obtain ⟨t, _, t2, _, t4, t5, t6⟩ :=
    Create_two st ptr1 ptr2 width height stride stride1 a b hx hab
  refine ⟨finalAverage t, fun fuel hf => ?_, fun j hj hp => ?_⟩
  · rw [t6 fuel 0 hf]
    simp [smoothCurve]
  · rw [finalAverage_id t t5 t4 j hj]
    exact (Extends_keep _ t t2 j hj hp).2.2

/-- The value the returned curve has at an index `i` of a gap between the measured
intensities `p` and `q`: line 98 evaluated with `prev = i - 1` and `next = q`, on the
returned curve itself. -/
theorem interior_value (st : CurveData) (ptr1 ptr2 : Mem) (width height stride stride1 : Nat)
    (p i q : Nat) (hpi : p < i) (hiq : i < q) (hq : q < 256)
    (hp : rd (rawState st ptr1 ptr2 width height stride stride1).div p ≠ 0)
    (hqp : rd (rawState st ptr1 ptr2 width height stride stride1).div q ≠ 0)
    (hgap : ∀ j, p < j → j < q →
      rd (rawState st ptr1 ptr2 width height stride stride1).div j = 0)
    (res : CurveData)
    (hres : Create 255 st ptr1 ptr2 width height stride stride1 false 0 = some res) :
    (rd res.curve i : Int) = fillValue res i ((i - 1 : Nat) : Int) (q : Int)
      ∧ rd res.curve p = rd (rawState st ptr1 ptr2 width height stride stride1).curve p
      ∧ rd res.curve q = rd (rawState st ptr1 ptr2 width height stride stride1).curve q := by
  obtain ⟨a, b, hx, hab⟩ := extremes_of_two _ p q (by omega) hq hp hqp
  obtain ⟨res2, r1, r2⟩ := Create_zero st ptr1 ptr2 width height stride stride1 a b hx hab
  have hres2 : res2 = res := by
    have := r1 255 (le_refl 255)
    rw [hres] at this
    exact (Option.some.inj this).symm
  subst hres2
  obtain ⟨hE, hP, hV⟩ := fillMissing_inv _ a b hx hab
  have hI := fillMissing_interval _ a b hx hab
  have hpr := Extremes_range _ a b hx p (by omega) hp
  have hqr := Extremes_range _ a b hx q hq hqp
  have pop : ∀ j, a ≤ j → j ≤ b → rd res2.curve j
      = rd (fillMissing (rawState st ptr1 ptr2 width height stride stride1)).curve j :=
    fun j h1 h2 => r2 j (by have := hx.1; omega) ((hI.2 j (by have := hx.1; omega)).mpr ⟨h1, h2⟩)
  have hnext : scanUp (rawState st ptr1 ptr2 width height stride stride1).div (255 - i) (i + 1)
      = (q : Int) :=
    scanUp_eq _ (255 - i) (i + 1) q (by omega) (by omega) hqp
      (fun j h1 h2 => hgap j (by omega) h2)
  have hcast : ((i - 1 : Nat) : Int) = (i : Int) - 1 := by omega
  refine ⟨?_, ?_, ?_⟩
  · rw [pop i (by omega) (by omega), hV i (by omega) (by omega) (by omega)
      (hgap i hpi hiq), hnext, hcast]
    have hfr : fillValue res2 i ((i : Int) - 1) (q : Int)
        = fillValue (fillMissing (rawState st ptr1 ptr2 width height stride stride1)) i
            ((i : Int) - 1) (q : Int) := by
      apply fillValue_frame
      · rw [show ((i : Int) - 1).toNat = i - 1 by omega]
        exact pop (i - 1) (by omega) (by omega)
      · rw [Int.toNat_ofNat]
        exact pop q (by omega) (by omega)
    rw [hfr]
    have hr := clamp_range ((rd (fillMissing
      (rawState st ptr1 ptr2 width height stride stride1)).curve ((i : Int) - 1).toNat : Int)
        + IntDiv (((i : Int) - ((i : Int) - 1))
            * ((rd (fillMissing (rawState st ptr1 ptr2 width height stride stride1)).curve
                  (q : Int).toNat : Int)
              - (rd (fillMissing (rawState st ptr1 ptr2 width height stride stride1)).curve
                  ((i : Int) - 1).toNat : Int)))
          ((q : Int) - ((i : Int) - 1)))
    exact toUChar_of_range _ hr.1 hr.2
  · rw [pop p (by omega) (by omega)]
    exact (Extends_keep _ _ hE p (by omega) hp).2.2
  · rw [pop q (by omega) (by omega)]
    exact (Extends_keep _ _ hE q hq hqp).2.2

/-! ## The two-point scenario: source 50 and 200, target 80 and 220 -/

theorem scenario_count (j : Nat) :
    pixelCount (stripedPlane 50 200) 2 1 2 j = if j = 50 ∨ j = 200 then 1 else 0 := by
  unfold pixelCount
  simp only [Finset.sum_range_succ, Finset.sum_range_zero, stripedPlane, load]
  norm_num
  split_ifs <;> omega

theorem scenario_sum (j : Nat) :
    targetSum (stripedPlane 50 200) (stripedPlane 80 220) 2 1 2 2 j
      = if j = 50 then 80 else if j = 200 then 220 else 0 := by
  unfold targetSum
  simp only [Finset.sum_range_succ, Finset.sum_range_zero, stripedPlane, load]
  norm_num
  split_ifs <;> omega

theorem scenario_div (st : CurveData) (j : Nat) (hj : j < 256) :
    rd (rawState st (stripedPlane 50 200) (stripedPlane 80 220) 2 1 2 2).div j
      = if j = 50 ∨ j = 200 then 1 else 0 := by
  rw [(rawState_exact st _ _ 2 1 2 2 j hj (by decide)).2.1, scenario_count]

theorem scenario_curve (st : CurveData) :
    rd (rawState st (stripedPlane 50 200) (stripedPlane 80 220) 2 1 2 2).curve 50 = 80
      ∧ rd (rawState st (stripedPlane 50 200) (stripedPlane 80 220) 2 1 2 2).curve 200 = 220 := by
  rw [(rawState_exact st _ _ 2 1 2 2 50 (by decide) (by decide)).2.2.1,
    (rawState_exact st _ _ 2 1 2 2 200 (by decide) (by decide)).2.2.1]
  simp only [scenario_count, scenario_sum]
  decide

/-! ## `Process` -/

theorem processRow_spec (cd : CurveData) (srcp : Mem) (so dof width : Nat) (d : Mem) :
    (∀ c, c < width →
        processRow cd srcp so dof width d (dof + c) = rd cd.curve (load srcp (so + c)) % 256)
      ∧ ∀ a, (∀ c, c < width → a ≠ dof + c) → processRow cd srcp so dof width d a = d a := by
  unfold processRow
  refine foldl_range_ind
    (fun m w => store m (dof + w) (rd cd.curve (load srcp (so + w))))
    (fun n m => (∀ c, c < n → m (dof + c) = rd cd.curve (load srcp (so + c)) % 256)
      ∧ ∀ a, (∀ c, c < n → a ≠ dof + c) → m a = d a) d width ?_ ?_
  · exact ⟨fun c hc => absurd hc (Nat.not_lt_zero c), fun a _ => rfl⟩
  · intro i m _ hp
    obtain ⟨h1, h2⟩ := hp
    refine ⟨fun c hc => ?_, fun a ha => ?_⟩
    · unfold store
      by_cases hci : c = i
      · subst hci; simp
      · have : ¬ dof + c = dof + i := by omega
        simp only [this, if_false]
        exact h1 c (by omega)
    · unfold store
      have : ¬ a = dof + i := ha i (Nat.lt_succ_self i)
      simp only [this, if_false]
      exact h2 a (fun c hc => ha c (by omega))

theorem processRows_spec (cd : CurveData) (srcp : Mem) (width stride dst_stride : Nat)
    (hd : width ≤ dst_stride) :
    ∀ (h so dof : Nat) (d : Mem),
      (∀ r c, r < h → c < width →
          processRows cd srcp width stride dst_stride h so dof d (dof + r * dst_stride + c)
            = rd cd.curve (load srcp (so + r * stride + c)) % 256)
        ∧ ∀ a, (∀ r c, r < h → c < width → a ≠ dof + r * dst_stride + c) →
            processRows cd srcp width stride dst_stride h so dof d a = d a := by
  intro h
  induction h with
  | zero =>
    intro so dof d
    exact ⟨fun r c hr _ => absurd hr (Nat.not_lt_zero r), fun a _ => rfl⟩
  | succ k ih =>
    intro so dof d
    obtain ⟨r1, r2⟩ := processRow_spec cd srcp so dof width d
    obtain ⟨q1, q2⟩ := ih (so + stride) (dof + dst_stride) (processRow cd srcp so dof width d)
    simp only [processRows]
    refine ⟨fun r c hr hc => ?_, fun a ha => ?_⟩
    · cases r with
      | zero =>
        simp only [Nat.zero_mul, Nat.add_zero]
        rw [q2 (dof + c) (fun r c2 _ _ => by omega)]
        exact r1 c hc
      | succ r2 =>
        have e1 : dof + (r2 + 1) * dst_stride + c = dof + dst_stride + r2 * dst_stride + c := by
          rw [Nat.succ_mul]; omega
        have e2 : so + (r2 + 1) * stride + c = so + stride + r2 * stride + c := by
          rw [Nat.succ_mul]; omega
        rw [e1, e2]
        exact q1 r2 c (by omega) hc
    · rw [q2 a (fun r c hr hc => by
        have := ha (r + 1) c (by omega) hc
        rw [Nat.succ_mul] at this
        omega)]
      exact r2 a (fun c hc => by
        have := ha 0 c (by omega) hc
        simpa using this)

/-! ## `Debug` -/

theorem addr_inj (s r i r2 i2 : Nat) (hi : i < s) (hi2 : i2 < s)
    (h : r * s + i = r2 * s + i2) : r = r2 ∧ i = i2 := by
  rcases Nat.lt_trichotomy r r2 with hlt | heq | hgt
  · have := Nat.mul_le_mul_right s (show r + 1 ≤ r2 by omega)
    rw [Nat.succ_mul] at this
    omega
  · subst heq
    exact ⟨rfl, by omega⟩
  · have := Nat.mul_le_mul_right s (show r2 + 1 ≤ r by omega)
    rw [Nat.succ_mul] at this
    omega

theorem debugColumn_spec (cd : CurveData) (stride i : Nat) (m : Mem) :
    (∀ j, j ≤ rd cd.curve i →
        debugColumn cd stride i m ((255 - j) * stride + i) = rd cd.curve i % 256)
      ∧ ∀ a, (∀ j, j ≤ rd cd.curve i → a ≠ (255 - j) * stride + i) →
          debugColumn cd stride i m a = m a := by
  unfold debugColumn
  have h := foldl_range_ind
    (fun m j => store m ((255 - j) * stride + i) (rd cd.curve i))
    (fun n m2 => (∀ j, j < n → m2 ((255 - j) * stride + i) = rd cd.curve i % 256)
      ∧ ∀ a, (∀ j, j < n → a ≠ (255 - j) * stride + i) → m2 a = m a) m (rd cd.curve i + 1)
    ⟨fun c hc => absurd hc (Nat.not_lt_zero c), fun a _ => rfl⟩
    (by
      intro k m2 _ hp
      obtain ⟨h1, h2⟩ := hp
      refine ⟨fun j hj => ?_, fun a ha => ?_⟩
      · unfold store
        by_cases hjk : (255 - j) * stride + i = (255 - k) * stride + i
        · simp [hjk]
        · simp only [hjk, if_false]
          have hne : j ≠ k := fun e => hjk (by rw [e])
          exact h1 j (by omega)
      · unfold store
        have : ¬ a = (255 - k) * stride + i := ha k (Nat.lt_succ_self k)
        simp only [this, if_false]
        exact h2 a (fun c hc => ha c (by omega)))
  exact ⟨fun j hj => h.1 j (by omega), fun a ha => h.2 a (fun j hj => ha j (by omega))⟩

theorem debugFill_spec (cd : CurveData) (stride : Nat) (hs : 256 ≤ stride) (ptr : Mem) :
    (∀ i j, i < 256 → j ≤ rd cd.curve i →
        debugFill cd stride ptr ((255 - j) * stride + i) = rd cd.curve i % 256)
      ∧ ∀ a, (∀ i j, i < 256 → j ≤ rd cd.curve i → a ≠ (255 - j) * stride + i) →
          debugFill cd stride ptr a = ptr a := by
  unfold debugFill
  have h := foldl_range_ind (fun m i => debugColumn cd stride i m)
    (fun n m => n ≤ 256 →
      ((∀ i j, i < n → j ≤ rd cd.curve i → m ((255 - j) * stride + i) = rd cd.curve i % 256)
      ∧ ∀ a, (∀ i j, i < n → j ≤ rd cd.curve i → a ≠ (255 - j) * stride + i) → m a = ptr a))
    ptr 256
    (fun _ => ⟨fun i j hi _ => absurd hi (Nat.not_lt_zero i), fun a _ => rfl⟩)
    (by
      intro k m hk hp hle
      obtain ⟨h1, h2⟩ := hp (by omega)
      obtain ⟨c1, c2⟩ := debugColumn_spec cd stride k m
      refine ⟨fun i j hi hj => ?_, fun a ha => ?_⟩ <;> beta_reduce
      · by_cases hik : i = k
        · subst hik
          exact c1 j hj
        · rw [c2 _ (fun j2 _ e => hik (addr_inj stride _ _ _ _ (by omega) (by omega) e).2)]
          exact h1 i j (by omega) hj
      · rw [c2 a (fun j hj => ha k j (Nat.lt_succ_self k) hj)]
        exact h2 a (fun i j hi hj => ha i j (by omega) hj))
  exact h (le_refl 256)

theorem debugCap_spec (cd : CurveData) (stride : Nat) (hs : 256 ≤ stride) (m : Mem) :
    (∀ i, i < 256 → 0 < rd cd.curve i →
        debugCap cd stride m ((255 - rd cd.curve i) * stride + i) = 255)
      ∧ ∀ a, (∀ i, i < 256 → 0 < rd cd.curve i → a ≠ (255 - rd cd.curve i) * stride + i) →
          debugCap cd stride m a = m a := by
  unfold debugCap
  have h := foldl_range_ind
    (fun m i => if rd cd.curve i > 0 then store m ((255 - rd cd.curve i) * stride + i) 255
      else m)
    (fun n m2 => n ≤ 256 →
      ((∀ i, i < n → 0 < rd cd.curve i → m2 ((255 - rd cd.curve i) * stride + i) = 255)
      ∧ ∀ a, (∀ i, i < n → 0 < rd cd.curve i → a ≠ (255 - rd cd.curve i) * stride + i) →
          m2 a = m a))
    m 256
    (fun _ => ⟨fun i hi _ => absurd hi (Nat.not_lt_zero i), fun a _ => rfl⟩)
    (by
      intro k m2 hk hp hle
      obtain ⟨h1, h2⟩ := hp (by omega)
      refine ⟨fun i hi hpos => ?_, fun a ha => ?_⟩
      · by_cases hik : i = k
        · subst hik
          simp only [gt_iff_lt, hpos, if_true]
          unfold store
          simp
        · have hne : ¬ (255 - rd cd.curve i) * stride + i = (255 - rd cd.curve k) * stride + k :=
            fun e => hik (addr_inj stride _ _ _ _ (by omega) (by omega) e).2
          by_cases hkp : rd cd.curve k > 0
          · simp only [hkp, if_true]
            unfold store
            simp only [hne, if_false]
            exact h1 i (by omega) hpos
          · simp only [hkp, if_false]
            exact h1 i (by omega) hpos
      · by_cases hkp : rd cd.curve k > 0
        · simp only [hkp, if_true]
          unfold store
          have : ¬ a = (255 - rd cd.curve k) * stride + k := ha k (Nat.lt_succ_self k) hkp
          simp only [this, if_false]
          exact h2 a (fun i hi hpos => ha i (by omega) hpos)
        · simp only [hkp, if_false]
          exact h2 a (fun i hi hpos => ha i (by omega) hpos))
  exact h (le_refl 256)

/-! ## `Show` -/

theorem Show_spec (cd : CurveData) (ptr : Mem) (stride color : Nat) (hs : 256 ≤ stride) :
    (∀ i, i < 256 → Show cd ptr stride color ((255 - rd cd.curve i) * stride + i) = color % 256)
      ∧ ∀ a, (∀ i, i < 256 → a ≠ (255 - rd cd.curve i) * stride + i) →
          Show cd ptr stride color a = ptr a := by
  unfold Show
  have h := foldl_range_ind
    (fun m i => store m ((255 - rd cd.curve i) * stride + i) color)
    (fun n m => n ≤ 256 →
      ((∀ i, i < n → m ((255 - rd cd.curve i) * stride + i) = color % 256)
      ∧ ∀ a, (∀ i, i < n → a ≠ (255 - rd cd.curve i) * stride + i) → m a = ptr a))
    ptr 256
    (fun _ => ⟨fun i hi => absurd hi (Nat.not_lt_zero i), fun a _ => rfl⟩)
    (by
      intro k m hk hp hle
      obtain ⟨h1, h2⟩ := hp (by omega)
      refine ⟨fun i hi => ?_, fun a ha => ?_⟩
      · unfold store
        by_cases hik : i = k
        · subst hik
          simp
        · have hne : ¬ (255 - rd cd.curve i) * stride + i = (255 - rd cd.curve k) * stride + k :=
            fun e => hik (addr_inj stride _ _ _ _ (by omega) (by omega) e).2
          simp only [hne, if_false]
          exact h1 i (by omega)
      · unfold store
        have : ¬ a = (255 - rd cd.curve k) * stride + k := ha k (Nat.lt_succ_self k)
        simp only [this, if_false]
        exact h2 a (fun i hi => ha i (by omega)))
  exact h (le_refl 256)

/-! ## `IntDiv` with a positive divisor -/

theorem IntDiv_of_nonneg (x y : Int) (hx : 0 ≤ x) (hy : 0 < y) :
    IntDiv x y = (x + y / 2) / y := by
  unfold IntDiv
  have h1 : ¬ (x < 0) := by omega
  have h2 : ¬ (y < 0) := by omega
  simp only [h1, h2, decide_False, bne_self_eq_false, Bool.false_eq_true, if_false, shr_one]
  exact Int.tdiv_eq_ediv (by omega) (by omega)

theorem IntDiv_of_neg (x y : Int) (hx : x < 0) (hy : 0 < y) :
    IntDiv x y = -((-x + y / 2) / y) := by
  unfold IntDiv
  have h2 : ¬ (y < 0) := by omega
  simp only [hx, h2, decide_True, decide_False, shr_one]
  have e : x - y / 2 = -(-x + y / 2) := by ring
  have hb : (true != false) = true := rfl
  rw [hb, if_pos rfl, e, Int.neg_tdiv, Int.tdiv_eq_ediv (by omega) (by omega)]

theorem IntDiv_neg_eq (x y : Int) (hy : 0 < y) : IntDiv (-x) y = -IntDiv x y := by
  rcases Int.lt_trichotomy x 0 with h | h | h
  · rw [IntDiv_of_neg x y h hy, IntDiv_of_nonneg (-x) y (by omega) hy, neg_neg]
  · subst h
    rw [neg_zero, IntDiv_of_nonneg 0 y (le_refl 0) hy,
      Int.ediv_eq_zero_of_lt (by omega) (by omega)]
    rfl
  · rw [IntDiv_of_neg (-x) y (by omega) hy, IntDiv_of_nonneg x y (by omega) hy, neg_neg]

/-- The quotient `(x + y / 2) / y` of a non-negative `x` is within half of `x / y`, and
when it is exactly half away it is the larger candidate. -/
theorem round_nonneg (x y : Int) (hx : 0 ≤ x) (hy : 0 < y) :
    -y < 2 * ((x + y / 2) / y * y - x) ∧ 2 * ((x + y / 2) / y * y - x) ≤ y
      ∧ (2 * ((x + y / 2) / y * y - x) = y → 0 < x) := by
  have h1 := Int.ediv_mul_le (x + y / 2) (show y ≠ 0 by omega)
  have h2 := Int.lt_ediv_add_one_mul_self (x + y / 2) hy
  rw [add_mul, one_mul] at h2
  refine ⟨by omega, by omega, fun h => ?_⟩
  by_contra hx0
  have hx0 : x = 0 := by omega
  subst hx0
  have hz : (0 + y / 2) / y = 0 := Int.ediv_eq_zero_of_lt (by omega) (by omega)
  rw [hz] at h
  omega

/-! ## The fill loop, step by step -/

theorem fillStep_extends (s : CurveData) (n : Nat) (hn : n < 256) : Extends s (fillStep s n) := by
  unfold fillStep
  by_cases hd : rd s.div n = 0
  · rw [if_pos hd]
    by_cases hc : scanDown s.div n ≠ -1 ∧ scanUp s.div (255 - n) (n + 1) ≠ -1
    · rw [if_pos hc]
      exact Extends_markFilled s n _ hn hd
    · rw [if_neg hc]
      exact Extends_refl s
  · rw [if_neg hd]
    exact Extends_refl s

/-- The state when the fill loop reaches `n` satisfies the invariant of the loop. -/
theorem fill_prefix_inv (s0 : CurveData) (a b : Nat) (hx : Extremes s0.div a b) (hab : a < b)
    (n : Nat) (hn : n ≤ 256) : FillInv s0 a b n ((List.range n).foldl fillStep s0) := by
  have h := foldl_range_ind fillStep (fun k s => k ≤ 256 → FillInv s0 a b k s) s0 n
    (fun _ => ⟨Extends_refl s0, fun i _ =>
      ⟨fun h => Or.inl h, fun h => h.elim id (fun h2 => absurd h2.2.2 (Nat.not_lt_zero i))⟩,
      fun i hi => absurd hi (Nat.not_lt_zero i)⟩)
    (fun i s hi hp hle => fillStep_inv s0 a b hx hab i (by omega) s (hp (by omega)))
  exact h hn

/-- The state at a later point of the fill loop extends the state at an earlier one. -/
theorem fill_prefix_extends (s0 : CurveData) (i : Nat) :
    ∀ n, i ≤ n → n ≤ 256 →
      Extends ((List.range i).foldl fillStep s0) ((List.range n).foldl fillStep s0) := by
  intro n hin
  induction n, hin using Nat.le_induction with
  | base => intro _; exact Extends_refl _
  | succ k hk ih =>
    intro hle
    rw [List.range_succ, List.foldl_append]
    simp only [List.foldl_cons, List.foldl_nil]
    exact Extends_trans _ _ _ (ih (by omega)) (fillStep_extends _ k (by omega))

/-- What the two searches of the fill loop find at an unpopulated index `n` strictly
between the smallest and the largest populated index. -/
theorem fill_scans (s0 : CurveData) (a b : Nat) (hx : Extremes s0.div a b)
    (n : Nat) (s : CurveData) (h : FillInv s0 a b n s) (han : a < n) (hnb : n < b) :
    scanDown s.div n = ((n - 1 : Nat) : Int)
      ∧ scanUp s.div (255 - n) (n + 1) = scanUp s0.div (255 - n) (n + 1)
      ∧ ∃ q : Nat, scanUp s0.div (255 - n) (n + 1) = (q : Int) ∧ n < q ∧ q ≤ b
          ∧ rd s0.div q ≠ 0 := by
  obtain ⟨hE, hP, hV⟩ := h
  have hb256 : b < 256 := hx.1
  have hprevpop : rd s.div (n - 1) ≠ 0 := by
    refine (hP (n - 1) (by omega)).mpr ?_
    by_cases hna : n - 1 = a
    · rw [hna]; exact Or.inl hx.2.1
    · exact Or.inr ⟨by omega, by omega, by omega⟩
  refine ⟨scanDown_eq s.div n (n - 1) (by omega) hprevpop (fun j h1 h2 => by omega), ?_⟩
  rcases scanUp_spec s0.div (255 - n) (n + 1) with ⟨_, hz⟩ | ⟨q, hq1, hq2, hq3, hq4, hq5⟩
  · exact absurd (hz b (by omega) (by omega)) hx.2.2.1
  · have hnext : scanUp s.div (255 - n) (n + 1) = (q : Int) := by
      refine scanUp_eq s.div (255 - n) (n + 1) q hq2 hq3
        ((hP q (by omega)).mpr (Or.inl hq4)) (fun j h1 h2 => ?_)
      by_contra hne
      rcases (hP j (by omega)).mp hne with h3 | ⟨_, _, h3⟩
      · exact h3 (hq5 j h1 h2)
      · omega
    have hqb := (Extremes_range s0.div a b hx q (by omega) hq4).2
    exact ⟨by rw [hnext, hq1], q, hq1, by omega, hqb, hq4⟩

/-! ## One step of the running interpolation -/

theorem IntDiv_step (D d : Int) (hd : 1 ≤ d) :
    (0 ≤ D → 0 ≤ IntDiv D d ∧ IntDiv D d ≤ D) ∧ (D ≤ 0 → D ≤ IntDiv D d ∧ IntDiv D d ≤ 0) := by
  have pos : ∀ E : Int, 0 ≤ E → 0 ≤ (E + d / 2) / d ∧ (E + d / 2) / d ≤ E := by
    intro E hE
    have h1 := Int.ediv_mul_le (E + d / 2) (show d ≠ 0 by omega)
    refine ⟨Int.ediv_nonneg (by omega) (by omega), ?_⟩
    by_contra hlt
    have hq : E + 1 ≤ (E + d / 2) / d := by omega
    have hh : d / 2 < d := by omega
    generalize (E + d / 2) / d = q at h1 hq
    generalize d / 2 = e at h1 hh
    nlinarith [mul_nonneg (show 0 ≤ q - E - 1 by omega) (show 0 ≤ d by omega),
      mul_nonneg hE (show 0 ≤ d - 1 by omega)]
  constructor
  · intro hD
    rw [IntDiv_of_nonneg D d hD (by omega)]
    exact pos D hD
  · intro hD
    rcases Int.lt_or_le D 0 with h | h
    · rw [IntDiv_of_neg D d h (by omega)]
      have := pos (-D) (by omega)
      omega
    · have hD0 : D = 0 := by omega
      subst hD0
      rw [IntDiv_of_nonneg 0 d (le_refl 0) (by omega)]
      have := pos 0 (le_refl 0)
      omega

theorem rawCurve_lt (st : CurveData) (j : Nat) (hj : j < 256) :
    rd (rawCurve st).curve j < 256 := by
  rw [(rawCurve_spec st).2.2 j hj]
  split
  · exact toUChar_lt _
  · omega

/-- The recurrence of the filled values inside a gap between the consecutive measured
indices `p < q` of `s0`, and the bounds that follow from it. -/
theorem fill_gap (s0 : CurveData) (a b : Nat) (hx : Extremes s0.div a b) (hab : a < b)
    (hlt : ∀ j, j < 256 → rd s0.curve j < 256)
    (p q : Nat) (hpq : p < q) (hq : q < 256) (hp : rd s0.div p ≠ 0) (hqp : rd s0.div q ≠ 0)
    (hgap : ∀ j, p < j → j < q → rd s0.div j = 0) :
    rd (fillMissing s0).curve p = rd s0.curve p
      ∧ rd (fillMissing s0).curve q = rd s0.curve q
      ∧ ∀ i, p < i → i < q →
          (rd (fillMissing s0).curve i : Int)
              = (rd (fillMissing s0).curve (i - 1) : Int)
                + IntDiv ((rd (fillMissing s0).curve q : Int)
                    - (rd (fillMissing s0).curve (i - 1) : Int))
                  ((q : Int) - ((i - 1 : Nat) : Int))
            ∧ (rd s0.curve p ≤ rd s0.curve q →
                rd (fillMissing s0).curve (i - 1) ≤ rd (fillMissing s0).curve i
                  ∧ rd s0.curve p ≤ rd (fillMissing s0).curve i
                  ∧ rd (fillMissing s0).curve i ≤ rd s0.curve q)
            ∧ (rd s0.curve q ≤ rd s0.curve p →
                rd (fillMissing s0).curve i ≤ rd (fillMissing s0).curve (i - 1)
                  ∧ rd s0.curve q ≤ rd (fillMissing s0).curve i
                  ∧ rd (fillMissing s0).curve i ≤ rd s0.curve p) := by
  obtain ⟨hE, hP, hV⟩ := fillMissing_inv s0 a b hx hab
  have hpr := Extremes_range _ a b hx p (by omega) hp
  have hqr := Extremes_range _ a b hx q hq hqp
  have ep : rd (fillMissing s0).curve p = rd s0.curve p :=
    (Extends_keep _ _ hE p (by omega) hp).2.2
  have eq : rd (fillMissing s0).curve q = rd s0.curve q :=
    (Extends_keep _ _ hE q hq hqp).2.2
  have hcp := hlt p (by omega)
  have hcq := hlt q hq
  -- the value at `i` from the value at `i - 1`
  have rec : ∀ i, p < i → i < q →
      (rd (fillMissing s0).curve i : Int)
        = clamp ((rd (fillMissing s0).curve (i - 1) : Int)
            + IntDiv ((rd (fillMissing s0).curve q : Int)
                - (rd (fillMissing s0).curve (i - 1) : Int))
              ((q : Int) - ((i - 1 : Nat) : Int))) := by
    intro i h1 h2
    have hnext : scanUp s0.div (255 - i) (i + 1) = (q : Int) :=
      scanUp_eq _ (255 - i) (i + 1) q (by omega) (by omega) hqp
        (fun j h3 h4 => hgap j (by omega) h4)
    rw [hV i (by omega) (by omega) (by omega) (hgap i h1 h2), hnext]
    have hr := clamp_range ((rd (fillMissing s0).curve ((i : Int) - 1).toNat : Int)
        + IntDiv (((i : Int) - ((i : Int) - 1))
            * ((rd (fillMissing s0).curve (q : Int).toNat : Int)
              - (rd (fillMissing s0).curve ((i : Int) - 1).toNat : Int)))
          ((q : Int) - ((i : Int) - 1)))
    rw [show fillValue (fillMissing s0) i ((i : Int) - 1) (q : Int)
        = clamp ((rd (fillMissing s0).curve ((i : Int) - 1).toNat : Int)
          + IntDiv (((i : Int) - ((i : Int) - 1))
              * ((rd (fillMissing s0).curve (q : Int).toNat : Int)
                - (rd (fillMissing s0).curve ((i : Int) - 1).toNat : Int)))
            ((q : Int) - ((i : Int) - 1))) from rfl, toUChar_of_range _ hr.1 hr.2]
    rw [show ((i : Int) - 1).toNat = i - 1 by omega, Int.toNat_ofNat,
      show ((i : Int) - ((i : Int) - 1)) = 1 by ring, one_mul,
      show ((i - 1 : Nat) : Int) = (i : Int) - 1 by omega]
  -- bounds, by induction along the gap
  have bnd : ∀ i, p ≤ i → i < q →
      (rd s0.curve p ≤ rd s0.curve q →
        rd s0.curve p ≤ rd (fillMissing s0).curve i
          ∧ rd (fillMissing s0).curve i ≤ rd s0.curve q)
      ∧ (rd s0.curve q ≤ rd s0.curve p →
        rd s0.curve q ≤ rd (fillMissing s0).curve i
          ∧ rd (fillMissing s0).curve i ≤ rd s0.curve p) := by
    intro i hpi
    induction i, hpi using Nat.le_induction with
    | base =>
      intro _
      rw [ep]
      exact ⟨fun h => ⟨le_refl _, h⟩, fun h => ⟨h, le_refl _⟩⟩
    | succ k hk ih =>
      intro hkq
      obtain ⟨i1, i2⟩ := ih (by omega)
      have hrec := rec (k + 1) (by omega) hkq
      rw [show k + 1 - 1 = k by omega, eq] at hrec
      obtain ⟨s1, s2⟩ := IntDiv_step ((rd s0.curve q : Int) - (rd (fillMissing s0).curve k : Int))
        ((q : Int) - (k : Int)) (by omega)
      generalize IntDiv ((rd s0.curve q : Int) - (rd (fillMissing s0).curve k : Int))
        ((q : Int) - (k : Int)) = t at hrec s1 s2
      unfold clamp at hrec
      constructor
      · intro hle
        obtain ⟨b1, b2⟩ := i1 hle
        have := s1 (by omega)
        omega
      · intro hle
        obtain ⟨b1, b2⟩ := i2 hle
        have := s2 (by omega)
        omega
  refine ⟨ep, eq, fun i h1 h2 => ?_⟩
  have hrec := rec i h1 h2
  obtain ⟨i1, i2⟩ := bnd (i - 1) (by omega) (by omega)
  obtain ⟨j1, j2⟩ := bnd i (by omega) h2
  have hcast : ((i - 1 : Nat) : Int) = (i : Int) - 1 := by omega
  rw [eq] at hrec ⊢
  obtain ⟨s1, s2⟩ := IntDiv_step ((rd s0.curve q : Int) - (rd (fillMissing s0).curve (i - 1) : Int))
    ((q : Int) - ((i - 1 : Nat) : Int)) (by omega)
  generalize IntDiv ((rd s0.curve q : Int) - (rd (fillMissing s0).curve (i - 1) : Int))
    ((q : Int) - ((i - 1 : Nat) : Int)) = t at hrec s1 s2 ⊢
  unfold clamp at hrec
  refine ⟨?_, fun hle => ?_, fun hle => ?_⟩
  · rcases le_total (rd s0.curve p) (rd s0.curve q) with hle | hle
    · obtain ⟨b1, b2⟩ := i1 hle
      have := s1 (by omega)
      omega
    · obtain ⟨b1, b2⟩ := i2 hle
      have := s2 (by omega)
      omega
  · obtain ⟨b1, b2⟩ := i1 hle
    obtain ⟨c1, c2⟩ := j1 hle
    have := s1 (by omega)
    omega
  · obtain ⟨b1, b2⟩ := i2 hle
    obtain ⟨c1, c2⟩ := j2 hle
    have := s2 (by omega)
    omega

/-! ## The mirrored values of a pass -/

theorem mirrorValue_toUChar (s : CurveData) (e m : Int) :
    (toUChar (mirrorValue s e m) : Int) = mirrorValue s e m := by
  have h := clamp_range ((rd s.curve e.toNat : Int) * 2 - (rd s.curve m.toNat : Int))
  exact toUChar_of_range _ h.1 h.2

/-- After "Extend bottom" every index it filled holds the mirror value of the state it
produced. -/
theorem extendBottom_self (s : CurveData) (a b : Nat) (hI : Interval s a b) (hab : a < b)
    (i : Nat) (hia : i < a) (hm : 2 * a ≤ b + i) :
    (rd (extendBottom s).curve i : Int)
      = mirrorValue (extendBottom s) (a : Int) ((a : Int) * 2 - (i : Int)) := by
  obtain ⟨_, _, hC, hV⟩ := extendBottom_spec s a b hI hab
  have hb := hI.1
  rw [hV i hia hm, mirrorValue_toUChar]
  symm
  apply mirrorValue_frame
  · rw [Int.toNat_ofNat]; exact hC a (le_refl a) (by omega)
  · rw [show ((a : Int) * 2 - (i : Int)).toNat = 2 * a - i by omega]
    exact hC (2 * a - i) (by omega) (by omega)

/-- After "Extend top" every index it filled holds the mirror value of the state it
produced. -/
theorem extendTop_self (s : CurveData) (a b : Nat) (hI : Interval s a b) (hab : a < b)
    (i : Nat) (hbi : b < i) (hi : i < 256) (hm : i + a ≤ 2 * b) :
    (rd (extendTop s).curve i : Int)
      = mirrorValue (extendTop s) (b : Int) ((b : Int) * 2 - (i : Int)) := by
  obtain ⟨_, _, hC, hV⟩ := extendTop_spec s a b hI hab
  rw [hV i hbi hi hm, mirrorValue_toUChar]
  symm
  apply mirrorValue_frame
  · rw [Int.toNat_ofNat]; exact hC b (le_refl b)
  · rw [show ((b : Int) * 2 - (i : Int)).toNat = 2 * b - i by omega]
    exact hC (2 * b - i) (by omega)

/-- The values of one pass of the loop body: the indices filled below `a` and above `b`
hold mirror values of the state after the pass. -/
theorem extendPass_mirror (s : CurveData) (a b : Nat) (hI : Interval s a b) (hab : a < b) :
    (∀ i, i < a → 2 * a ≤ b + i →
        (rd (extendPass s).curve i : Int)
          = mirrorValue (extendPass s) (a : Int) ((a : Int) * 2 - (i : Int)))
      ∧ ∀ i, b < i → i < 256 → i + (2 * a - b) ≤ 2 * b →
          (rd (extendPass s).curve i : Int)
            = mirrorValue (extendPass s) (b : Int) ((b : Int) * 2 - (i : Int)) := by
  obtain ⟨z0, z255⟩ := Interval_zero_iff s a b hI (by omega)
  have hb := hI.1
  have h1 : Interval (if rd s.div 0 = 0 then extendBottom s else s) (2 * a - b) b
      ∧ ∀ i, i < a → 2 * a ≤ b + i →
        (rd (if rd s.div 0 = 0 then extendBottom s else s).curve i : Int)
          = mirrorValue (if rd s.div 0 = 0 then extendBottom s else s) (a : Int)
              ((a : Int) * 2 - (i : Int)) := by
    by_cases h0 : rd s.div 0 = 0
    · rw [if_pos h0]
      exact ⟨(extendBottom_spec s a b hI hab).2.1,
        fun i hia hm => extendBottom_self s a b hI hab i hia hm⟩
    · rw [if_neg h0]
      have ha : a = 0 := by
        by_contra hne
        exact h0 (z0.mpr (by omega))
      refine ⟨?_, fun i hia _ => by omega⟩
      rw [show 2 * a - b = a by omega]
      exact hI
  unfold extendPass
  generalize (if rd s.div 0 = 0 then extendBottom s else s) = s1 at h1
  obtain ⟨hI1, hB⟩ := h1
  obtain ⟨_, y255⟩ := Interval_zero_iff s1 (2 * a - b) b hI1 (by omega)
  by_cases h255 : rd s1.div 255 = 0
  · rw [if_pos h255]
    obtain ⟨_, _, hC, _⟩ := extendTop_spec s1 (2 * a - b) b hI1 (by omega)
    refine ⟨fun i hia hm => ?_,
      fun i hbi hi hm => extendTop_self s1 (2 * a - b) b hI1 (by omega) i hbi hi hm⟩
    rw [hC i (by omega), hB i hia hm]
    symm
    apply mirrorValue_frame
    · rw [Int.toNat_ofNat]; exact hC a (by omega)
    · rw [show ((a : Int) * 2 - (i : Int)).toNat = 2 * a - i by omega]
      exact hC (2 * a - i) (by omega)
  · rw [if_neg h255]
    have hb255 : b = 255 := by
      by_contra hne
      exact h255 (y255.mpr (by omega))
    exact ⟨hB, fun i hbi hi _ => by omega⟩

theorem extendLoop_succ (f : Nat) (s : CurveData) :
    extendLoop (f + 1) s
      = if rd s.div 0 = 0 ∨ rd s.div 255 = 0 then extendLoop f (extendPass s) else some s :=
  rfl

/-- The loop result extends the state after the first pass of the body. -/
theorem extendLoop_after_pass (s : CurveData) (a b : Nat) (hI : Interval s a b) (hab : a < b) :
    ∃ t, extendLoop 255 s = some t ∧ Extends (extendPass s) t := by
  obtain ⟨z0, z255⟩ := Interval_zero_iff s a b hI (by omega)
  have hb := hI.1
  by_cases hc : rd s.div 0 = 0 ∨ rd s.div 255 = 0
  · obtain ⟨_, e2⟩ := extendPass_spec s a b hI hab
    have hm : (2 * a - b) + (255 - min 255 (2 * b - (2 * a - b))) ≤ 254 := by
      rcases hc with h | h
      · have := z0.mp h; omega
      · have := z255.mp h; omega
    obtain ⟨t, t1, t2, _⟩ := extendLoop_spec 254 (extendPass s) _ _ e2 (by omega) hm
    have e : extendLoop 255 s = extendLoop 254 (extendPass s) := by
      have := extendLoop_succ 254 s
      rw [if_pos hc] at this
      exact this
    exact ⟨t, e.trans t1, t2⟩
  · have h0 : ¬ rd s.div 0 = 0 := fun h => hc (Or.inl h)
    have h255 : ¬ rd s.div 255 = 0 := fun h => hc (Or.inr h)
    have e : extendLoop 255 s = some s := by
      have := extendLoop_succ 254 s
      rw [if_neg hc] at this
      exact this
    refine ⟨s, e, ?_⟩
    unfold extendPass
    rw [if_neg h0, if_neg h255]
    exact Extends_refl s

/-- The curve `Create` returns with `smoothing_window = 0` is, at every index, the curve
of the state `t` in which the loop exits. -/
theorem Create_zero_loop (st : CurveData) (ptr1 ptr2 : Mem) (width height stride stride1 : Nat)
    (a b : Nat) (hx : Extremes (rawState st ptr1 ptr2 width height stride stride1).div a b)
    (hab : a < b) :
    ∃ t, extendLoop 255 (fillMissing (rawState st ptr1 ptr2 width height stride stride1))
          = some t
      ∧ Interval t 0 255 ∧ Averaged t
      ∧ (∀ fuel, 255 ≤ fuel →
          Create fuel st ptr1 ptr2 width height stride stride1 false 0
            = some (finalAverage t))
      ∧ (∀ fuel sw, 255 ≤ fuel →
          Create fuel st ptr1 ptr2 width height stride stride1 false sw
            = some (finalAverage (smoothCurve sw t)))
      ∧ ∀ j, j < 256 → rd (finalAverage t).curve j = rd t.curve j := by
  obtain ⟨t, t1, _, _, t4, t5, t6⟩ :=
    Create_two st ptr1 ptr2 width height stride stride1 a b hx hab
  refine ⟨t, t1 255 (le_refl 255), t4, t5, fun fuel hf => ?_, t6,
    fun j hj => finalAverage_id t t5 t4 j hj⟩
  rw [t6 fuel 0 hf]
  simp [smoothCurve]

/-- The mirror relations of the first pass hold in the curve returned with
`smoothing_window = 0`. -/
theorem reflection_value (st : CurveData) (ptr1 ptr2 : Mem) (width height stride stride1 : Nat)
    (a b : Nat) (hx : Extremes (rawState st ptr1 ptr2 width height stride stride1).div a b)
    (hab : a < b) (res : CurveData)
    (hres : Create 255 st ptr1 ptr2 width height stride stride1 false 0 = some res) :
    (∀ i, i < a → 2 * a ≤ b + i →
        (rd res.curve i : Int) = mirrorValue res (a : Int) ((a : Int) * 2 - (i : Int)))
      ∧ ∀ i, b < i → i < 256 → i + a ≤ 2 * b →
          (rd res.curve i : Int) = mirrorValue res (b : Int) ((b : Int) * 2 - (i : Int)) := by
  obtain ⟨t, t1, _, _, t4, _, t6⟩ :=
    Create_zero_loop st ptr1 ptr2 width height stride stride1 a b hx hab
  have hres2 : res = finalAverage t := by
    have := t4 255 (le_refl 255)
    rw [hres] at this
    exact Option.some.inj this
  have hI := fillMissing_interval _ a b hx hab
  have hb := hx.1
  obtain ⟨t2, u1, u2⟩ := extendLoop_after_pass _ a b hI hab
  have htt : t2 = t := by
    rw [t1] at u1
    exact (Option.some.inj u1).symm
  rw [htt] at u2
  obtain ⟨_, hI2⟩ := extendPass_spec _ a b hI hab
  obtain ⟨m1, m2⟩ := extendPass_mirror _ a b hI hab
  -- entries populated after the first pass are those of the returned curve
  have keep : ∀ j, 2 * a - b ≤ j → j ≤ min 255 (2 * b - (2 * a - b)) →
      rd res.curve j
        = rd (extendPass (fillMissing
            (rawState st ptr1 ptr2 width height stride stride1))).curve j := by
    intro j h1 h2
    rw [hres2, t6 j (by omega)]
    exact (Extends_keep _ _ u2 j (by omega) ((hI2.2 j (by omega)).mpr ⟨h1, h2⟩)).2.2
  constructor
  · intro i hia hm
    rw [keep i (by omega) (by omega), m1 i hia hm]
    symm
    apply mirrorValue_frame
    · rw [Int.toNat_ofNat]; exact keep a (by omega) (by omega)
    · rw [show ((a : Int) * 2 - (i : Int)).toNat = 2 * a - i by omega]
      exact keep (2 * a - i) (by omega) (by omega)
  · intro i hbi hi hm
    rw [keep i (by omega) (by omega), m2 i hbi hi (by omega)]
    symm
    apply mirrorValue_frame
    · rw [Int.toNat_ofNat]; exact keep b (by omega) (by omega)
    · rw [show ((b : Int) * 2 - (i : Int)).toNat = 2 * b - i by omega]
      exact keep (2 * b - i) (by omega) (by omega)

/-! ## The sums of "Smooth curve" -/

theorem single_term (f : Nat → Nat) (x : Int) :
    (∑ k ∈ Finset.range 256, if (k : Int) = x then f k else 0)
      = if 0 ≤ x ∧ x < 256 then f x.toNat else 0 := by
  by_cases h : 0 ≤ x ∧ x < 256
  · rw [if_pos h]
    have e : ∀ k ∈ Finset.range 256, (if (k : Int) = x then f k else 0)
        = if k = x.toNat then f k else 0 := by
      intro k _
      have : ((k : Int) = x) ↔ k = x.toNat := by omega
      simp only [this]
    rw [Finset.sum_congr rfl e, Finset.sum_ite_eq' (Finset.range 256) x.toNat f,
      if_pos (Finset.mem_range.mpr (by omega))]
  · rw [if_neg h]
    apply Finset.sum_eq_zero
    intro k hk
    have hk2 := Finset.mem_range.mp hk
    rw [if_neg (by omega)]

/-- One more iteration of the loop over `j` adds the term of `k = lo + n` when that
index is in `0..255`. -/
theorem window_step (f : Nat → Nat) (lo : Int) (n : Nat) :
    (∑ k ∈ Finset.range 256,
        if lo ≤ (k : Int) ∧ (k : Int) < lo + ((n + 1 : Nat) : Int) then f k else 0)
      = (∑ k ∈ Finset.range 256,
          if lo ≤ (k : Int) ∧ (k : Int) < lo + (n : Int) then f k else 0)
        + (if 0 ≤ lo + (n : Int) ∧ lo + (n : Int) < 256 then f (lo + (n : Int)).toNat
            else 0) := by
  rw [← single_term f (lo + (n : Int)), ← Finset.sum_add_distrib]
  apply Finset.sum_congr rfl
  intro k _
  by_cases h1 : (k : Int) = lo + (n : Int)
  · rw [if_pos (by omega), if_neg (by omega), if_pos h1]
    omega
  · by_cases h2 : lo ≤ (k : Int) ∧ (k : Int) < lo + (n : Int)
    · rw [if_pos (by omega), if_pos h2, if_neg h1]
      omega
    · rw [if_neg (by omega), if_neg h2, if_neg h1]

theorem window_bound (f : Nat → Nat) (hf : ∀ k, k < 256 → f k ≤ 255) (lo hi : Int) :
    (∑ k ∈ Finset.range 256, if lo ≤ (k : Int) ∧ (k : Int) < hi then f k else 0) ≤ 65280 := by
  have h := Finset.sum_le_card_nsmul (Finset.range 256)
    (fun k => if lo ≤ (k : Int) ∧ (k : Int) < hi then f k else 0) 255
    (fun k hk => by
      have := hf k (Finset.mem_range.mp hk)
      beta_reduce
      split <;> omega)
  simpa using h

/-- The sum and the count "Smooth curve" leaves at index `i`. -/
theorem smoothStep_exact (w : Int) (hw : 0 < w) (s : CurveData) (i : Nat) (hi : i < 256)
    (hc : ∀ j, j < 256 → rd s.curve j < 256) :
    rd (smoothStep w s i).sum i = windowSum s.curve i w
      ∧ rd (smoothStep w s i).div i = windowCount i w := by
  unfold smoothStep
  have h := foldl_range_ind (smoothAdd w i)
    (fun n u => u.curve = s.curve
      ∧ rd u.sum i = (∑ k ∈ Finset.range 256,
          if (i : Int) - w ≤ (k : Int) ∧ (k : Int) < (i : Int) - w + (n : Int)
            then rd s.curve k else 0)
      ∧ rd u.div i = (∑ k ∈ Finset.range 256,
          if (i : Int) - w ≤ (k : Int) ∧ (k : Int) < (i : Int) - w + (n : Int)
            then 1 else 0))
    { s with sum := wr s.sum i 0, div := wr s.div i 0 } (2 * w).toNat
    (by
      refine ⟨rfl, ?_, ?_⟩
      · simp only [rd_wr_same _ _ _ hi]
        symm
        apply Finset.sum_eq_zero
        intro k _
        rw [if_neg (by omega)]
      · simp only [rd_wr_same _ _ _ hi]
        symm
        apply Finset.sum_eq_zero
        intro k _
        rw [if_neg (by omega)])
    (by
      intro n u _ hp
      obtain ⟨h1, h2, h3⟩ := hp
      have e : (i : Int) + (-w + (n : Int)) = (i : Int) - w + (n : Int) := by ring
      have s1 := window_step (fun k => rd s.curve k) ((i : Int) - w) n
      have s2 := window_step (fun _ => 1) ((i : Int) - w) n
      have b1 := window_bound (fun k => rd s.curve k) (fun k hk => by have := hc k hk; beta_reduce; omega)
        ((i : Int) - w) ((i : Int) - w + ((n + 1 : Nat) : Int))
      have b2 := window_bound (fun _ => 1) (fun _ _ => by beta_reduce; omega)
        ((i : Int) - w) ((i : Int) - w + ((n + 1 : Nat) : Int))
      unfold smoothAdd
      rw [e]
      by_cases hv : 0 ≤ (i : Int) - w + (n : Int) ∧ (i : Int) - w + (n : Int) < 256
      · rw [if_pos hv]
        rw [if_pos hv] at s1 s2
        refine ⟨h1, ?_, ?_⟩
        · simp only [rd_wr_same _ _ _ hi]
          rw [h2, h1, s1]
          rw [s1] at b1
          exact Nat.mod_eq_of_lt (by omega)
        · simp only [rd_wr_same _ _ _ hi]
          rw [h3, s2]
          rw [s2] at b2
          exact Nat.mod_eq_of_lt (by omega)
      · rw [if_neg hv]
        rw [if_neg hv] at s1 s2
        exact ⟨h1, by rw [h2, s1, Nat.add_zero], by rw [h3, s2, Nat.add_zero]⟩)
  obtain ⟨_, h2, h3⟩ := h
  unfold windowSum windowCount
  rw [h2, h3]
  constructor
  · apply Finset.sum_congr rfl
    intro k _
    by_cases hk : (i : Int) - w ≤ (k : Int) ∧ (k : Int) ≤ (i : Int) + w - 1
    · rw [if_pos hk, if_pos (by omega)]
    · rw [if_neg hk, if_neg (by omega)]
  · apply Finset.sum_congr rfl
    intro k _
    by_cases hk : (i : Int) - w ≤ (k : Int) ∧ (k : Int) ≤ (i : Int) + w - 1
    · rw [if_pos hk, if_pos (by omega)]
    · rw [if_neg hk, if_neg (by omega)]

theorem smoothCurve_exact (w : Int) (hw : 0 < w) (s : CurveData)
    (hc : ∀ j, j < 256 → rd s.curve j < 256) :
    ∀ i, i < 256 → rd (smoothCurve w s).sum i = windowSum s.curve i w
      ∧ rd (smoothCurve w s).div i = windowCount i w := by
  unfold smoothCurve
  rw [if_pos (by omega)]
  have h := foldl_range_ind (smoothStep w)
    (fun n u => n ≤ 256 → (u.curve = s.curve
      ∧ ∀ i, i < n → rd u.sum i = windowSum s.curve i w ∧ rd u.div i = windowCount i w))
    s 256 (fun _ => ⟨rfl, fun i hi => absurd hi (Nat.not_lt_zero i)⟩)
    (by
      intro n u hn hp hle
      obtain ⟨h1, h2⟩ := hp (by omega)
      obtain ⟨e1, e2, _⟩ := smoothStep_spec w hw u n hn (by rw [h1]; exact hc)
      obtain ⟨x1, x2⟩ := smoothStep_exact w hw u n hn (by rw [h1]; exact hc)
      refine ⟨e1.trans h1, fun i hi => ?_⟩
      by_cases hin : i = n
      · subst hin
        rw [x1, x2, h1]
        exact ⟨rfl, rfl⟩
      · rw [(e2 i hin).1, (e2 i hin).2]
        exact h2 i (by omega))
  exact (h (le_refl 256)).2

/-- The entry the final averaging stores when `1 <= div[i] <= 2 ^ 23` and
`sum[i] <= 255 * div[i]`. -/
theorem meanValue_exact (s : CurveData) (i : Nat) (h1 : 1 ≤ rd s.div i)
    (h2 : rd s.div i ≤ 8388608) (h3 : rd s.sum i ≤ 255 * rd s.div i) :
    toUChar (meanValue s i) = (rd s.sum i + rd s.div i / 2) / rd s.div i := by
  unfold meanValue
  rw [toInt_small _ (by omega), toInt_small _ (by omega), IntDiv_nonneg]
  have hq : (rd s.sum i + rd s.div i / 2) / rd s.div i < 256 := by
    rw [Nat.div_lt_iff_lt_mul (by omega)]; omega
  exact toUChar_small _ hq

/-- The curve `Create` returns with a window `w >= 1`, from the state `t` in which the
loop exits. -/
theorem smoothed_value (w : Int) (hw : 0 < w) (t : CurveData) (ha : Averaged t)
    (hI : Interval t 0 255) (i : Nat) (hi : i < 256) :
    rd (finalAverage (smoothCurve w t)).curve i
        = (windowSum t.curve i w + windowCount i w / 2) / windowCount i w
      ∧ 1 ≤ windowCount i w := by
  have hc : ∀ j, j < 256 → rd t.curve j < 256 := fun j hj => Averaged_curve_lt t ha hI j hj
  obtain ⟨_, hb⟩ := smoothCurve_spec w hw t hc
  obtain ⟨b1, b2, b3⟩ := hb i hi
  obtain ⟨x1, x2⟩ := smoothCurve_exact w hw t hc i hi
  rw [(finalAverage_spec _).2.2 i hi, meanValue_exact _ i b1 (by omega) b3, x1, x2]
  rw [x2] at b1
  exact ⟨rfl, b1⟩

theorem windowSum_congr (c d : Arr) (h : ∀ k, k < 256 → rd c k = rd d k) (i : Nat) (w : Int) :
    windowSum c i w = windowSum d i w := by
  unfold windowSum
  apply Finset.sum_congr rfl
  intro k hk
  rw [h k (Finset.mem_range.mp hk)]

theorem scenario_extremes (st : CurveData) :
    Extremes (rawState st (stripedPlane 50 200) (stripedPlane 80 220) 2 1 2 2).div 50 200 := by
  refine ⟨by decide, ?_, ?_, fun j hj => ?_, fun j hj1 hj2 => ?_⟩
  · rw [scenario_div st 50 (by decide)]; decide
  · rw [scenario_div st 200 (by decide)]; decide
  · rw [scenario_div st j (by omega), if_neg (by omega)]
  · rw [scenario_div st j hj2, if_neg (by omega)]

theorem scenario_mono (st : CurveData) :
    ∀ x y, x < y → y < 256 →
      rd (rawState st (stripedPlane 50 200) (stripedPlane 80 220) 2 1 2 2).div x ≠ 0 →
      rd (rawState st (stripedPlane 50 200) (stripedPlane 80 220) 2 1 2 2).div y ≠ 0 →
      rd (rawState st (stripedPlane 50 200) (stripedPlane 80 220) 2 1 2 2).curve x
        ≤ rd (rawState st (stripedPlane 50 200) (stripedPlane 80 220) 2 1 2 2).curve y := by
  intro x y hxy hy hx hy2
  rw [scenario_div st x (by omega)] at hx
  rw [scenario_div st y hy] at hy2
  have h1 : x = 50 ∨ x = 200 := by
    by_contra h
    exact hx (if_neg h)
  have h2 : y = 50 ∨ y = 200 := by
    by_contra h
    exact hy2 (if_neg h)
  have e1 : x = 50 := by omega
  have e2 : y = 200 := by omega
  rw [e1, e2, (scenario_curve st).1, (scenario_curve st).2]
  decide

/-! ## Properties of the populated interval kept by the loop -/

theorem extendPass_preserves (P : CurveData → Nat → Nat → Prop)
    (hbot : ∀ s a b, Interval s a b → a < b → P s a b → P (extendBottom s) (2 * a - b) b)
    (htop : ∀ s a b, Interval s a b → a < b → P s a b →
      P (extendTop s) a (min 255 (2 * b - a)))
    (s : CurveData) (a b : Nat) (hI : Interval s a b) (hab : a < b) (hP : P s a b) :
    P (extendPass s) (2 * a - b) (min 255 (2 * b - (2 * a - b))) := by
  obtain ⟨z0, z255⟩ := Interval_zero_iff s a b hI (by omega)
  have hb := hI.1
  have h1 : Interval (if rd s.div 0 = 0 then extendBottom s else s) (2 * a - b) b
      ∧ P (if rd s.div 0 = 0 then extendBottom s else s) (2 * a - b) b := by
    by_cases h0 : rd s.div 0 = 0
    · rw [if_pos h0]
      exact ⟨(extendBottom_spec s a b hI hab).2.1, hbot s a b hI hab hP⟩
    · rw [if_neg h0]
      have ha : a = 0 := by
        by_contra hne
        exact h0 (z0.mpr (by omega))
      rw [show 2 * a - b = a by omega]
      exact ⟨hI, hP⟩
  unfold extendPass
  generalize (if rd s.div 0 = 0 then extendBottom s else s) = s1 at h1
  obtain ⟨hI1, hP1⟩ := h1
  obtain ⟨_, y255⟩ := Interval_zero_iff s1 (2 * a - b) b hI1 (by omega)
  by_cases h255 : rd s1.div 255 = 0
  · rw [if_pos h255]
    exact htop s1 (2 * a - b) b hI1 (by omega) hP1
  · rw [if_neg h255]
    have hb255 : b = 255 := by
      by_contra hne
      exact h255 (y255.mpr (by omega))
    rw [show min 255 (2 * b - (2 * a - b)) = b by omega]
    exact hP1

/-- A property of the populated interval that "Extend bottom" and "Extend top" keep
holds, in the state in which the loop exits, on all of `0, ..., 255`. -/
theorem extendLoop_preserves (P : CurveData → Nat → Nat → Prop)
    (hbot : ∀ s a b, Interval s a b → a < b → P s a b → P (extendBottom s) (2 * a - b) b)
    (htop : ∀ s a b, Interval s a b → a < b → P s a b →
      P (extendTop s) a (min 255 (2 * b - a))) :
    ∀ (fuel : Nat) (s t : CurveData) (a b : Nat), Interval s a b → a < b → P s a b →
      extendLoop fuel s = some t → P t 0 255 := by
  intro fuel
  induction fuel with
  | zero =>
    intro s t a b hI hab hP h
    obtain ⟨z0, z255⟩ := Interval_zero_iff s a b hI (by omega)
    have hb := hI.1
    by_cases hc : rd s.div 0 = 0 ∨ rd s.div 255 = 0
    · simp [extendLoop, hc] at h
    · simp only [extendLoop, hc, if_false, Option.some.injEq] at h
      have h0 : ¬ 0 < a := fun h => hc (Or.inl (z0.mpr h))
      have h255 : ¬ b < 255 := fun h => hc (Or.inr (z255.mpr h))
      rw [show a = 0 by omega, show b = 255 by omega] at hP
      rw [← h]
      exact hP
  | succ f ih =>
    intro s t a b hI hab hP h
    obtain ⟨z0, z255⟩ := Interval_zero_iff s a b hI (by omega)
    have hb := hI.1
    rw [extendLoop_succ] at h
    by_cases hc : rd s.div 0 = 0 ∨ rd s.div 255 = 0
    · rw [if_pos hc] at h
      obtain ⟨_, e2⟩ := extendPass_spec s a b hI hab
      exact ih (extendPass s) t _ _ e2 (by omega)
        (extendPass_preserves P hbot htop s a b hI hab hP) h
    · rw [if_neg hc] at h
      have h0 : ¬ 0 < a := fun h => hc (Or.inl (z0.mpr h))
      have h255 : ¬ b < 255 := fun h => hc (Or.inr (z255.mpr h))
      rw [show a = 0 by omega, show b = 255 by omega] at hP
      rw [← Option.some.inj h]
      exact hP

/-- The value "Extend bottom" stores at an index it fills, and the entries it keeps. -/
theorem bottom_value (s : CurveData) (a b : Nat) (hI : Interval s a b) (hab : a < b) :
    (∀ i, a ≤ i → i < 256 → rd (extendBottom s).curve i = rd s.curve i)
      ∧ ∀ i, i < a → 2 * a ≤ b + i →
          (rd (extendBottom s).curve i : Int)
            = clamp ((rd s.curve a : Int) * 2 - (rd s.curve (2 * a - i) : Int)) := by
  obtain ⟨_, _, hC, hV⟩ := extendBottom_spec s a b hI hab
  refine ⟨hC, fun i hia hm => ?_⟩
  rw [hV i hia hm, mirrorValue_toUChar]
  unfold mirrorValue
  rw [Int.toNat_ofNat, show ((a : Int) * 2 - (i : Int)).toNat = 2 * a - i by omega]

/-- The value "Extend top" stores at an index it fills, and the entries it keeps. -/
theorem top_value (s : CurveData) (a b : Nat) (hI : Interval s a b) (hab : a < b) :
    (∀ i, i ≤ b → rd (extendTop s).curve i = rd s.curve i)
      ∧ ∀ i, b < i → i < 256 → i + a ≤ 2 * b →
          (rd (extendTop s).curve i : Int)
            = clamp ((rd s.curve b : Int) * 2 - (rd s.curve (2 * b - i) : Int)) := by
  obtain ⟨_, _, hC, hV⟩ := extendTop_spec s a b hI hab
  refine ⟨hC, fun i hbi hi hm => ?_⟩
  rw [hV i hbi hi hm, mirrorValue_toUChar]
  unfold mirrorValue
  rw [Int.toNat_ofNat, show ((b : Int) * 2 - (i : Int)).toNat = 2 * b - i by omega]

theorem IdOn_bottom (s : CurveData) (a b : Nat) (hI : Interval s a b) (hab : a < b)
    (hP : IdOn s a b) : IdOn (extendBottom s) (2 * a - b) b := by
  obtain ⟨hC, hV⟩ := bottom_value s a b hI hab
  have hb := hI.1
  intro i hi1 hi2
  by_cases hia : a ≤ i
  · rw [hC i hia (by omega)]
    exact hP i hia hi2
  · have h := hV i (by omega) (by omega)
    rw [hP a (le_refl a) (by omega), hP (2 * a - i) (by omega) (by omega)] at h
    unfold clamp at h
    omega

theorem IdOn_top (s : CurveData) (a b : Nat) (hI : Interval s a b) (hab : a < b)
    (hP : IdOn s a b) : IdOn (extendTop s) a (min 255 (2 * b - a)) := by
  obtain ⟨hC, hV⟩ := top_value s a b hI hab
  have hb := hI.1
  intro i hi1 hi2
  by_cases hib : i ≤ b
  · rw [hC i hib]
    exact hP i hi1 hib
  · have h := hV i (by omega) (by omega) (by omega)
    rw [hP b (by omega) (le_refl b), hP (2 * b - i) (by omega) (by omega)] at h
    unfold clamp at h
    omega

theorem MonoOn_bottom (s : CurveData) (a b : Nat) (hI : Interval s a b) (hab : a < b)
    (hP : MonoOn s a b) : MonoOn (extendBottom s) (2 * a - b) b := by
  obtain ⟨hC, hV⟩ := bottom_value s a b hI hab
  have hb := hI.1
  obtain ⟨hB, hM⟩ := hP
  constructor
  · intro i hi1 hi2
    by_cases hia : a ≤ i
    · rw [hC i hia (by omega)]
      exact hB i hia hi2
    · have h := hV i (by omega) (by omega)
      unfold clamp at h
      omega
  · intro i j hi hij hj
    by_cases hia : a ≤ i
    · rw [hC i hia (by omega), hC j (by omega) (by omega)]
      exact hM i j hia hij hj
    · have h1 := hV i (by omega) (by omega)
      have m1 := hM a (2 * a - i) (le_refl a) (by omega) (by omega)
      unfold clamp at h1
      by_cases hja : a ≤ j
      · rw [hC j hja (by omega)]
        have m2 := hM a j (le_refl a) hja hj
        omega
      · have h2 := hV j (by omega) (by omega)
        have m2 := hM (2 * a - j) (2 * a - i) (by omega) (by omega) (by omega)
        unfold clamp at h2
        omega

theorem MonoOn_top (s : CurveData) (a b : Nat) (hI : Interval s a b) (hab : a < b)
    (hP : MonoOn s a b) : MonoOn (extendTop s) a (min 255 (2 * b - a)) := by
  obtain ⟨hC, hV⟩ := top_value s a b hI hab
  have hb := hI.1
  obtain ⟨hB, hM⟩ := hP
  constructor
  · intro i hi1 hi2
    by_cases hib : i ≤ b
    · rw [hC i hib]
      exact hB i hi1 hib
    · have h := hV i (by omega) (by omega) (by omega)
      unfold clamp at h
      omega
  · intro i j hi hij hj
    by_cases hjb : j ≤ b
    · rw [hC i (by omega), hC j hjb]
      exact hM i j hi hij hjb
    · have h2 := hV j (by omega) (by omega) (by omega)
      have m2 := hM (2 * b - j) b (by omega) (by omega) (le_refl b)
      have bb := hB b (by omega) (le_refl b)
      unfold clamp at h2
      by_cases hib : i ≤ b
      · rw [hC i hib]
        have m1 := hM i b hi hib (le_refl b)
        omega
      · have h1 := hV i (by omega) (by omega) (by omega)
        have m1 := hM (2 * b - j) (2 * b - i) (by omega) (by omega) (by omega)
        unfold clamp at h1
        omega

/-! ## The neighbouring measured indices -/

theorem exists_prev (d : Arr) (a : Nat) (ha : rd d a ≠ 0) :
    ∀ i, a ≤ i → ∃ p, a ≤ p ∧ p ≤ i ∧ rd d p ≠ 0 ∧ ∀ j, p < j → j ≤ i → rd d j = 0 := by
  intro i
  induction i with
  | zero =>
    intro h
    have e : a = 0 := by omega
    subst e
    exact ⟨0, le_refl 0, le_refl 0, ha, fun j h1 h2 => by omega⟩
  | succ n ih =>
    intro h
    by_cases hd : rd d (n + 1) = 0
    · have hne : a ≠ n + 1 := fun e => ha (by rw [e]; exact hd)
      obtain ⟨p, p0, p1, p2, p3⟩ := ih (by omega)
      refine ⟨p, p0, by omega, p2, fun j h1 h2 => ?_⟩
      by_cases hj : j = n + 1
      · rw [hj]; exact hd
      · exact p3 j h1 (by omega)
    · exact ⟨n + 1, h, le_refl _, hd, fun j h1 h2 => by omega⟩

theorem exists_next (d : Arr) (b : Nat) (hb : rd d b ≠ 0) :
    ∀ n i, i + n = b → 0 < n →
      ∃ q, i < q ∧ q ≤ b ∧ rd d q ≠ 0 ∧ ∀ j, i < j → j < q → rd d j = 0 := by
  intro n
  induction n with
  | zero => intro i _ h; omega
  | succ m ih =>
    intro i hi _
    by_cases hd : rd d (i + 1) = 0
    · have hm : 0 < m := by
        rcases Nat.eq_zero_or_pos m with e | e
        · subst e
          exact absurd (by rw [← hi]; exact hd) hb
        · exact e
      obtain ⟨q, q1, q2, q3, q4⟩ := ih (i + 1) (by omega) hm
      refine ⟨q, by omega, q2, q3, fun j h1 h2 => ?_⟩
      by_cases hj : j = i + 1
      · rw [hj]; exact hd
      · exact q4 j (by omega) h2
    · exact ⟨i + 1, by omega, by omega, hd, fun j h1 h2 => by omega⟩

/-- Around every index `i` with `a <= i < b` there are consecutive measured indices
`p <= i < q`. -/
theorem gap_around (d : Arr) (a b : Nat) (hx : Extremes d a b) (i : Nat) (hai : a ≤ i)
    (hib : i < b) :
    ∃ p q, a ≤ p ∧ p ≤ i ∧ i < q ∧ q ≤ b ∧ rd d p ≠ 0 ∧ rd d q ≠ 0
      ∧ ∀ j, p < j → j < q → rd d j = 0 := by
  obtain ⟨p, p0, p1, p2, p3⟩ := exists_prev d a hx.2.1 i hai
  obtain ⟨q, q1, q2, q3, q4⟩ := exists_next d b hx.2.2.1 (b - i) i (by omega) (by omega)
  refine ⟨p, q, p0, p1, q1, q2, p2, q3, fun j h1 h2 => ?_⟩
  by_cases hj : j ≤ i
  · exact p3 j h1 hj
  · exact q4 j (by omega) h2

theorem IntDiv_self (d : Int) (hd : 1 ≤ d) : IntDiv d d = 1 := by
  rw [IntDiv_of_nonneg d d (by omega) (by omega)]
  have e : d + d / 2 = d / 2 + d * 1 := by ring
  rw [e, Int.add_mul_ediv_left _ _ (by omega), Int.ediv_eq_zero_of_lt (by omega) (by omega)]
  rfl

theorem mono_of_adjacent (f : Nat → Nat) (a b : Nat)
    (h : ∀ i, a ≤ i → i < b → f i ≤ f (i + 1)) :
    ∀ j i, a ≤ i → i ≤ j → j ≤ b → f i ≤ f j := by
  intro j
  induction j with
  | zero =>
    intro i _ h2 _
    have e : i = 0 := by omega
    rw [e]
  | succ n ih =>
    intro i h1 h2 h3
    by_cases hi : i = n + 1
    · rw [hi]
    · exact le_trans (ih i h1 (by omega) (by omega)) (h n (by omega) (by omega))

/-! ## "Fill missing" on an identity and on a non-decreasing raw curve -/

theorem fillMissing_lt (s0 : CurveData) (a b : Nat) (hx : Extremes s0.div a b) (hab : a < b)
    (hlt : ∀ j, j < 256 → rd s0.curve j < 256) (j : Nat) (hj : j < 256) :
    rd (fillMissing s0).curve j < 256 := by
  rcases (fillMissing_inv s0 a b hx hab).1 j hj with ⟨_, _, h⟩ | ⟨_, _, h, _⟩
  · rw [h]; exact hlt j hj
  · exact h

theorem IdOn_fill (s0 : CurveData) (a b : Nat) (hx : Extremes s0.div a b) (hab : a < b)
    (hlt : ∀ j, j < 256 → rd s0.curve j < 256)
    (hid : ∀ v, v < 256 → rd s0.div v ≠ 0 → rd s0.curve v = v) :
    IdOn (fillMissing s0) a b := by
  have hb := hx.1
  have key : ∀ p q, p < q → q < 256 → rd s0.div p ≠ 0 → rd s0.div q ≠ 0 →
      (∀ j, p < j → j < q → rd s0.div j = 0) →
      ∀ n k, k = p + n → k < q → rd (fillMissing s0).curve k = k := by
    intro p q hpq hq hp hqp hgap
    obtain ⟨g1, g2, g3⟩ := fill_gap s0 a b hx hab hlt p q hpq hq hp hqp hgap
    intro n
    induction n with
    | zero =>
      intro k hk _
      rw [hk, Nat.add_zero, g1]
      exact hid p (by omega) hp
    | succ m ih =>
      intro k hk hkq
      have h1 := ih (p + m) rfl (by omega)
      have h2 := (g3 k (by omega) hkq).1
      rw [show k - 1 = p + m by omega, h1, g2, hid q hq hqp] at h2
      rw [IntDiv_self _ (by omega)] at h2
      omega
  intro i hi1 hi2
  by_cases hib : i = b
  · rw [hib, (Extends_keep _ _ (fillMissing_inv s0 a b hx hab).1 b hb hx.2.2.1).2.2]
    exact hid b hb hx.2.2.1
  · obtain ⟨p, q, _, p1, q1, q2, hp, hq, hgap⟩ := gap_around s0.div a b hx i hi1 (by omega)
    exact key p q (by omega) (by omega) hp hq hgap (i - p) i (by omega) q1

theorem MonoOn_fill (s0 : CurveData) (a b : Nat) (hx : Extremes s0.div a b) (hab : a < b)
    (hlt : ∀ j, j < 256 → rd s0.curve j < 256)
    (hmono : ∀ u v, u < v → v < 256 → rd s0.div u ≠ 0 → rd s0.div v ≠ 0 →
      rd s0.curve u ≤ rd s0.curve v) :
    MonoOn (fillMissing s0) a b := by
  have hb := hx.1
  refine ⟨fun i _ hi => fillMissing_lt s0 a b hx hab hlt i (by omega), ?_⟩
  intro i j hi hij hj
  refine mono_of_adjacent (fun k => rd (fillMissing s0).curve k) a b ?_ j i hi hij hj
  intro k hk1 hk2
  beta_reduce
  obtain ⟨p, q, _, p1, q1, q2, hp, hq, hgap⟩ := gap_around s0.div a b hx k hk1 hk2
  obtain ⟨g1, g2, g3⟩ := fill_gap s0 a b hx hab hlt p q (by omega) (by omega) hp hq hgap
  have hm := hmono p q (by omega) (by omega) hp hq
  by_cases hkq : k + 1 < q
  · have h := ((g3 (k + 1) (by omega) hkq).2.1 hm).1
    rw [Nat.add_sub_cancel] at h
    exact h
  · have e : k + 1 = q := by omega
    rw [e, g2]
    by_cases hkp : k = p
    · rw [hkp, g1]
      exact hm
    · exact ((g3 k (by omega) (by omega)).2.1 hm).2.2

/-! ## A plane matched against itself -/

theorem targetSum_self (ptr : Mem) (width height stride v : Nat) :
    targetSum ptr ptr width height stride stride v = v * pixelCount ptr width height stride v := by
  unfold targetSum pixelCount
  rw [Finset.mul_sum]
  apply Finset.sum_congr rfl
  intro r _
  rw [Finset.mul_sum]
  apply Finset.sum_congr rfl
  intro c _
  by_cases h : load ptr (r * stride + c) = v
  · rw [if_pos h, if_pos h, h, Nat.mul_one]
  · rw [if_neg h, if_neg h, Nat.mul_zero]

theorem rawState_self (st : CurveData) (ptr : Mem) (width height stride : Nat)
    (hsz : width * height ≤ 8388608) (v : Nat) (hv : v < 256)
    (hp : rd (rawState st ptr ptr width height stride stride).div v ≠ 0) :
    rd (rawState st ptr ptr width height stride stride).curve v = v := by
  obtain ⟨_, q2, q3, _⟩ := rawState_exact st ptr ptr width height stride stride v hv hsz
  rw [q2] at hp
  rw [q3, if_neg hp, targetSum_self]
  generalize pixelCount ptr width height stride v = n at hp
  have hn : 0 < n := Nat.pos_of_ne_zero hp
  rw [show v * n + n / 2 = n / 2 + n * v by rw [Nat.mul_comm]; omega,
    Nat.add_mul_div_left _ _ hn, Nat.div_eq_of_lt (by omega)]
  omega

/-- The window sums over an identity: `n` terms from `lo` on count `n` and add up to
`n * lo + n * (n - 1) / 2`. -/
theorem partial_identity (f : Nat → Nat) (lo : Nat) :
    ∀ n, lo + n ≤ 256 → (∀ k, lo ≤ k → k < lo + n → f k = k) →
      (∑ k ∈ Finset.range 256,
          if (lo : Int) ≤ (k : Int) ∧ (k : Int) < (lo : Int) + (n : Int) then 1 else 0) = n
        ∧ 2 * (∑ k ∈ Finset.range 256,
          if (lo : Int) ≤ (k : Int) ∧ (k : Int) < (lo : Int) + (n : Int) then f k else 0) + n
          = n * (2 * lo + n) := by
  intro n
  induction n with
  | zero =>
    intro _ _
    have z : ∀ g : Nat → Nat, (∑ k ∈ Finset.range 256,
        if (lo : Int) ≤ (k : Int) ∧ (k : Int) < (lo : Int) + ((0 : Nat) : Int) then g k else 0)
          = 0 := by
      intro g
      apply Finset.sum_eq_zero
      intro k _
      rw [if_neg (by omega)]
    rw [z (fun _ => 1), z f]
    exact ⟨rfl, by rw [Nat.zero_mul]⟩
  | succ m ih =>
    intro h1 h2
    obtain ⟨i1, i2⟩ := ih (by omega) (fun k hk1 hk2 => h2 k hk1 (by omega))
    have s1 := window_step (fun _ => 1) (lo : Int) m
    have s2 := window_step f (lo : Int) m
    rw [if_pos (by omega)] at s1 s2
    rw [show ((lo : Int) + (m : Int)).toNat = lo + m by omega, h2 (lo + m) (by omega) (by omega)]
      at s2
    rw [s1, s2, i1]
    refine ⟨rfl, ?_⟩
    have e : (m + 1) * (2 * lo + (m + 1)) = m * (2 * lo + m) + (2 * lo + 2 * m + 1) := by ring
    rw [e, ← i2]
    omega

theorem window_identity (c : Arr) (hc : ∀ k, k < 256 → rd c k = k) (i : Nat) (w : Int)
    (hw : 0 < w) (h1 : w ≤ (i : Int)) (h2 : (i : Int) + w ≤ 256) :
    windowCount i w = 2 * w.toNat ∧ windowSum c i w + w.toNat = 2 * w.toNat * i := by
  obtain ⟨p1, p2⟩ := partial_identity (fun k => rd c k) (i - w.toNat) (2 * w.toNat) (by omega)
    (fun k _ hk => hc k (by omega))
  have e1 : windowCount i w = ∑ k ∈ Finset.range 256,
      if ((i - w.toNat : Nat) : Int) ≤ (k : Int)
        ∧ (k : Int) < ((i - w.toNat : Nat) : Int) + ((2 * w.toNat : Nat) : Int) then 1 else 0 := by
    unfold windowCount
    apply Finset.sum_congr rfl
    intro k _
    by_cases hk : (i : Int) - w ≤ (k : Int) ∧ (k : Int) ≤ (i : Int) + w - 1
    · rw [if_pos hk, if_pos (by omega)]
    · rw [if_neg hk, if_neg (by omega)]
  have e2 : windowSum c i w = ∑ k ∈ Finset.range 256,
      if ((i - w.toNat : Nat) : Int) ≤ (k : Int)
        ∧ (k : Int) < ((i - w.toNat : Nat) : Int) + ((2 * w.toNat : Nat) : Int)
        then rd c k else 0 := by
    unfold windowSum
    apply Finset.sum_congr rfl
    intro k _
    by_cases hk : (i : Int) - w ≤ (k : Int) ∧ (k : Int) ≤ (i : Int) + w - 1
    · rw [if_pos hk, if_pos (by omega)]
    · rw [if_neg hk, if_neg (by omega)]
  rw [e1, e2, p1]
  refine ⟨rfl, ?_⟩
  generalize (∑ k ∈ Finset.range 256,
      if ((i - w.toNat : Nat) : Int) ≤ (k : Int)
        ∧ (k : Int) < ((i - w.toNat : Nat) : Int) + ((2 * w.toNat : Nat) : Int)
        then rd c k else 0) = S at p2
  generalize hW : w.toNat = W at p2
  have hWi : W ≤ i := by omega
  obtain ⟨d, rfl⟩ := Nat.exists_eq_add_of_le hWi
  rw [Nat.add_sub_cancel_left] at p2
  have e : 2 * W * (2 * d + 2 * W) = 2 * (2 * W * (W + d)) := by ring
  rw [e] at p2
  omega

/-- A plane with two distinct pixel values and at most `2 ^ 23` pixels, matched against
itself: the loop exits in a fully populated state whose curve is the identity. -/
theorem Create_self (st : CurveData) (ptr : Mem) (width height stride : Nat)
    (hsz : width * height ≤ 8388608) (r1 c1 r2 c2 : Nat)
    (hr1 : r1 < height) (hc1 : c1 < width) (hr2 : r2 < height) (hc2 : c2 < width)
    (hne : load ptr (r1 * stride + c1) ≠ load ptr (r2 * stride + c2)) :
    ∃ t, IdOn t 0 255 ∧ Interval t 0 255 ∧ Averaged t
      ∧ ∀ fuel sw, 255 ≤ fuel →
          Create fuel st ptr ptr width height stride stride false sw
            = some (finalAverage (smoothCurve sw t)) := by
  have pop : ∀ r c, r < height → c < width →
      rd (rawState st ptr ptr width height stride stride).div (load ptr (r * stride + c))
        ≠ 0 := by
    intro r c hr hc
    rw [(rawState_exact st ptr ptr width height stride stride _ (load_lt _ _) hsz).2.1]
    exact Nat.pos_iff_ne_zero.mp (pixelCount_pos ptr width height stride r c hr hc)
  have hex : ∃ a b, Extremes (rawState st ptr ptr width height stride stride).div a b
      ∧ a < b := by
    rcases Nat.lt_or_gt_of_ne hne with h | h
    · exact extremes_of_two _ _ _ h (load_lt _ _) (pop r1 c1 hr1 hc1) (pop r2 c2 hr2 hc2)
    · exact extremes_of_two _ _ _ h (load_lt _ _) (pop r2 c2 hr2 hc2) (pop r1 c1 hr1 hc1)
  obtain ⟨a, b, hx, hab⟩ := hex
  obtain ⟨t, t1, t2, t3, _, t5, _⟩ :=
    Create_zero_loop st ptr ptr width height stride stride a b hx hab
  have hI := fillMissing_interval _ a b hx hab
  have hF := IdOn_fill _ a b hx hab
    (fun j hj => by unfold rawState; exact rawCurve_lt _ j hj)
    (fun v hv hp => rawState_self st ptr width height stride hsz v hv hp)
  exact ⟨t, extendLoop_preserves IdOn IdOn_bottom IdOn_top 255 _ t a b hI hab hF t1,
    t2, t3, t5⟩

/-! ## The window mean of a non-decreasing curve -/

theorem div_le_div_cross (a b c d : Nat) (hb : 0 < b) (hd : 0 < d) (h : a * d ≤ c * b) :
    a / b ≤ c / d := by
  rw [Nat.le_div_iff_mul_le hd]
  have h1 := Nat.div_mul_le_self a b
  have h2 : a / b * d * b ≤ c * b := by
    calc a / b * d * b = a / b * b * d := by ring
      _ ≤ a * d := Nat.mul_le_mul_right d h1
      _ ≤ c * b := h
  exact Nat.le_of_mul_le_mul_right h2 hb

/-- Rounding half up keeps the order of two quotients. -/
theorem round_mono (S N S2 N2 : Nat) (hN : 1 ≤ N) (hN2 : 1 ≤ N2) (h : S * N2 ≤ S2 * N) :
    (S + N / 2) / N ≤ (S2 + N2 / 2) / N2 := by
  have e1 : (S + N / 2) / N = (2 * S + N) / (2 * N) := by
    rw [← Nat.div_div_eq_div_mul]; congr 1; omega
  have e2 : (S2 + N2 / 2) / N2 = (2 * S2 + N2) / (2 * N2) := by
    rw [← Nat.div_div_eq_div_mul]; congr 1; omega
  rw [e1, e2]
  apply div_le_div_cross _ _ _ _ (by omega) (by omega)
  nlinarith

/-- The window of `i + 1` is the window of `i` without the index `i - w` and with the
index `i + w`. -/
theorem window_shift (f : Nat → Nat) (i : Nat) (w : Int) (hw : 0 < w) :
    (∑ k ∈ Finset.range 256,
        if ((i + 1 : Nat) : Int) - w ≤ (k : Int) ∧ (k : Int) ≤ ((i + 1 : Nat) : Int) + w - 1
          then f k else 0)
      + (if 0 ≤ (i : Int) - w ∧ (i : Int) - w < 256 then f ((i : Int) - w).toNat else 0)
      = (∑ k ∈ Finset.range 256,
        if (i : Int) - w ≤ (k : Int) ∧ (k : Int) ≤ (i : Int) + w - 1 then f k else 0)
      + (if 0 ≤ (i : Int) + w ∧ (i : Int) + w < 256 then f ((i : Int) + w).toNat else 0) := by
  rw [← single_term f ((i : Int) - w), ← single_term f ((i : Int) + w),
    ← Finset.sum_add_distrib, ← Finset.sum_add_distrib]
  apply Finset.sum_congr rfl
  intro k _
  by_cases h1 : (k : Int) = (i : Int) - w
  · rw [if_neg (by omega), if_pos h1, if_pos (by omega), if_neg (by omega)]
    omega
  · by_cases h2 : (k : Int) = (i : Int) + w
    · rw [if_pos (by omega), if_neg h1, if_neg (by omega), if_pos h2]
      omega
    · by_cases h3 : (i : Int) - w ≤ (k : Int) ∧ (k : Int) ≤ (i : Int) + w - 1
      · rw [if_pos (by omega), if_neg h1, if_pos h3, if_neg h2]
      · rw [if_neg (by omega), if_neg h1, if_neg h3, if_neg h2]

theorem window_ge (c : Arr) (i : Nat) (w : Int) (L : Nat)
    (h : ∀ k : Nat, k < 256 → (i : Int) - w ≤ (k : Int) → (k : Int) ≤ (i : Int) + w - 1 →
      L ≤ rd c k) :
    L * windowCount i w ≤ windowSum c i w := by
  unfold windowCount windowSum
  rw [Finset.mul_sum]
  apply Finset.sum_le_sum
  intro k hk
  by_cases hA : (i : Int) - w ≤ (k : Int) ∧ (k : Int) ≤ (i : Int) + w - 1
  · rw [if_pos hA, if_pos hA, Nat.mul_one]
    exact h k (Finset.mem_range.mp hk) hA.1 hA.2
  · rw [if_neg hA, if_neg hA, Nat.mul_zero]

theorem window_le (c : Arr) (i : Nat) (w : Int) (R : Nat)
    (h : ∀ k : Nat, k < 256 → (i : Int) - w ≤ (k : Int) → (k : Int) ≤ (i : Int) + w - 1 →
      rd c k ≤ R) :
    windowSum c i w ≤ R * windowCount i w := by
  unfold windowCount windowSum
  rw [Finset.mul_sum]
  apply Finset.sum_le_sum
  intro k hk
  by_cases hA : (i : Int) - w ≤ (k : Int) ∧ (k : Int) ≤ (i : Int) + w - 1
  · rw [if_pos hA, if_pos hA, Nat.mul_one]
    exact h k (Finset.mem_range.mp hk) hA.1 hA.2
  · rw [if_neg hA, if_neg hA, Nat.mul_zero]

/-- The rounded window means of a non-decreasing curve are non-decreasing. -/
theorem window_mean_mono (c : Arr)
    (hm : ∀ x y, x ≤ y → y < 256 → rd c x ≤ rd c y) (i : Nat) (hi : i < 255) (w : Int)
    (hw : 0 < w) (h1 : 1 ≤ windowCount i w) (h2 : 1 ≤ windowCount (i + 1) w) :
    (windowSum c i w + windowCount i w / 2) / windowCount i w
      ≤ (windowSum c (i + 1) w + windowCount (i + 1) w / 2) / windowCount (i + 1) w := by
  apply round_mono _ _ _ _ h1 h2
  have sS := window_shift (fun k => rd c k) i w hw
  have sN := window_shift (fun _ => 1) i w hw
  beta_reduce at sS sN
  have eS : windowSum c (i + 1) w = ∑ k ∈ Finset.range 256,
      if ((i + 1 : Nat) : Int) - w ≤ (k : Int) ∧ (k : Int) ≤ ((i + 1 : Nat) : Int) + w - 1
        then rd c k else 0 := rfl
  have eN : windowCount (i + 1) w = ∑ k ∈ Finset.range 256,
      if ((i + 1 : Nat) : Int) - w ≤ (k : Int) ∧ (k : Int) ≤ ((i + 1 : Nat) : Int) + w - 1
        then 1 else 0 := rfl
  have eS0 : windowSum c i w = ∑ k ∈ Finset.range 256,
      if (i : Int) - w ≤ (k : Int) ∧ (k : Int) ≤ (i : Int) + w - 1 then rd c k else 0 := rfl
  have eN0 : windowCount i w = ∑ k ∈ Finset.range 256,
      if (i : Int) - w ≤ (k : Int) ∧ (k : Int) ≤ (i : Int) + w - 1 then 1 else 0 := rfl
  rw [← eS, ← eS0] at sS
  rw [← eN, ← eN0] at sN
  generalize windowSum c (i + 1) w = S2 at sS ⊢
  generalize windowCount (i + 1) w = N2 at sN h2 ⊢
  by_cases hL : 0 ≤ (i : Int) - w ∧ (i : Int) - w < 256
  · have bL := window_ge c i w (rd c ((i : Int) - w).toNat)
      (fun k hk k1 _ => hm _ k (by omega) hk)
    rw [if_pos hL] at sS sN
    by_cases hR : 0 ≤ (i : Int) + w ∧ (i : Int) + w < 256
    · rw [if_pos hR] at sS sN
      have hLR := hm ((i : Int) - w).toNat ((i : Int) + w).toNat (by omega) (by omega)
      have e : N2 = windowCount i w := by omega
      rw [e]
      exact Nat.mul_le_mul_right _ (by omega)
    · rw [if_neg hR] at sS sN
      generalize windowSum c i w = S at sS bL ⊢
      generalize windowCount i w = N at sN bL h1 ⊢
      generalize rd c ((i : Int) - w).toNat = L at sS bL
      have e1 : N = N2 + 1 := by omega
      have e2 : S = S2 + L := by omega
      subst e1
      subst e2
      nlinarith
  · rw [if_neg hL] at sS sN
    by_cases hR : 0 ≤ (i : Int) + w ∧ (i : Int) + w < 256
    · have bR := window_le c i w (rd c ((i : Int) + w).toNat)
        (fun k hk _ k2 => hm k _ (by omega) (by omega))
      rw [if_pos hR] at sS sN
      generalize windowSum c i w = S at sS bR ⊢
      generalize windowCount i w = N at sN bR h1 ⊢
      generalize rd c ((i : Int) + w).toNat = R at sS bR
      have e1 : N2 = N + 1 := by omega
      have e2 : S2 = S + R := by omega
      subst e1
      subst e2
      nlinarith
    · rw [if_neg hR] at sS sN
      have e1 : N2 = windowCount i w := by omega
      have e2 : S2 = windowSum c i w := by omega
      rw [e1, e2]

/-- A plane pair with two populated source intensities and non-decreasing raw means:
the loop exits in a fully populated state whose curve is non-decreasing. -/
theorem Create_mono (st : CurveData) (ptr1 ptr2 : Mem) (width height stride stride1 : Nat)
    (u v : Nat) (huv : u < v) (hv : v < 256)
    (hpu : rd (rawState st ptr1 ptr2 width height stride stride1).div u ≠ 0)
    (hpv : rd (rawState st ptr1 ptr2 width height stride stride1).div v ≠ 0)
    (hmono : ∀ x y, x < y → y < 256 →
      rd (rawState st ptr1 ptr2 width height stride stride1).div x ≠ 0 →
      rd (rawState st ptr1 ptr2 width height stride stride1).div y ≠ 0 →
      rd (rawState st ptr1 ptr2 width height stride stride1).curve x
        ≤ rd (rawState st ptr1 ptr2 width height stride stride1).curve y) :
    ∃ t, MonoOn t 0 255 ∧ Interval t 0 255 ∧ Averaged t
      ∧ ∀ fuel sw, 255 ≤ fuel →
          Create fuel st ptr1 ptr2 width height stride stride1 false sw
            = some (finalAverage (smoothCurve sw t)) := by
  obtain ⟨a, b, hx, hab⟩ := extremes_of_two _ u v huv hv hpu hpv
  obtain ⟨t, t1, t2, t3, _, t5, _⟩ :=
    Create_zero_loop st ptr1 ptr2 width height stride stride1 a b hx hab
  have hI := fillMissing_interval _ a b hx hab
  have hF := MonoOn_fill _ a b hx hab
    (fun j hj => by unfold rawState; exact rawCurve_lt _ j hj) hmono
  exact ⟨t, extendLoop_preserves MonoOn MonoOn_bottom MonoOn_top 255 _ t a b hI hab hF t1,
    t2, t3, t5⟩

/-! ## The claims -/

/-- C1 (raw-mode completeness).  For a plane pair with at most `2 ^ 23` pixels and any
`smoothing_window`, `Create` with `raw = true` returns (whatever the number of passes
allowed to the loop it never enters) the state after "Raw curve", and for every
`v < 256` its `curve[v]` is `0` when no source pixel has the value `v` and otherwise
`(S + n / 2) / n`, with `n` the number of pixels whose source value is `v` and `S` the
sum of the target values at those positions. -/
theorem raw_mode_completeness (fuel : Nat) (st : CurveData) (ptr1 ptr2 : Mem)
    (width height stride stride1 : Nat) (smoothing_window : Int)
    (hsz : width * height ≤ 8388608) :
    ∃ res, Create fuel st ptr1 ptr2 width height stride stride1 true smoothing_window = some res
      ∧ ∀ v, v < 256 → rd res.curve v
          = if pixelCount ptr1 width height stride v = 0 then 0
            else (targetSum ptr1 ptr2 width height stride stride1 v
              + pixelCount ptr1 width height stride v / 2)
                / pixelCount ptr1 width height stride v := by
  refine ⟨rawState st ptr1 ptr2 width height stride stride1, ?_, ?_⟩
  · simp [Create]
  · intro v hv
    exact (rawState_exact st ptr1 ptr2 width height stride stride1 v hv hsz).2.2.1

/-- Witness of C1: a 2x1 plane pair (source 50, 200; target 80, 220). -/
theorem raw_mode_completeness_witness :
    2 * 1 ≤ 8388608
      ∧ ∃ res, Create 0 zeroData (stripedPlane 50 200) (stripedPlane 80 220) 2 1 2 2 true 8
            = some res
          ∧ ∀ v, v < 256 → rd res.curve v
              = if pixelCount (stripedPlane 50 200) 2 1 2 v = 0 then 0
                else (targetSum (stripedPlane 50 200) (stripedPlane 80 220) 2 1 2 2 v
                  + pixelCount (stripedPlane 50 200) 2 1 2 v / 2)
                    / pixelCount (stripedPlane 50 200) 2 1 2 v :=
  ⟨by decide,
    raw_mode_completeness 0 zeroData (stripedPlane 50 200) (stripedPlane 80 220) 2 1 2 2 8
      (by decide)⟩

/-- C2 (uniform-color law).  For a plane pair with at least one and at most `2 ^ 23`
pixels whose source plane has the value `k` at every pixel, and for every
`smoothing_window` (and every bound on the loop passes), `Create` with `raw = false`
returns a curve that has, at each of the 256 indices, the mean of the target plane's
values rounded half up: `(T + n / 2) / n`, `n` the number of pixels and `T` the sum of
the target values; this is `IntDiv(sum[k], div[k])`, the raw curve entry at `k`. -/
theorem uniform_color_law (fuel : Nat) (st : CurveData) (ptr1 ptr2 : Mem)
    (width height stride stride1 : Nat) (smoothing_window : Int) (k : Nat)
    (hpos : 1 ≤ width * height) (hsz : width * height ≤ 8388608)
    (hk : ∀ r c, r < height → c < width → load ptr1 (r * stride + c) = k) :
    ∃ res, Create fuel st ptr1 ptr2 width height stride stride1 false smoothing_window
          = some res
      ∧ ∀ v, v < 256 →
          rd res.curve v
              = (planeSum ptr2 width height stride1 + width * height / 2) / (width * height)
            ∧ (rd res.curve v : Int)
              = IntDiv (toInt (rd (rawState st ptr1 ptr2 width height stride stride1).sum k))
                  (toInt (rd (rawState st ptr1 ptr2 width height stride stride1).div k)) := by
  have hw : 0 < width := Nat.pos_of_ne_zero (fun e => by rw [e] at hpos; omega)
  have hh : 0 < height := Nat.pos_of_ne_zero (fun e => by rw [e] at hpos; omega)
  have hk256 : k < 256 := by
    have := load_lt ptr1 (0 * stride + 0)
    rw [hk 0 0 hh hw] at this
    exact this
  have hdiv : ∀ v, v < 256 →
      rd (rawState st ptr1 ptr2 width height stride stride1).div v
        = if k = v then width * height else 0 := by
    intro v hv
    rw [(rawState_exact st ptr1 ptr2 width height stride stride1 v hv hsz).2.1,
      pixelCount_of_const ptr1 width height stride k hk v]
  have hflat : flatScan (rawState st ptr1 ptr2 width height stride stride1).div 256 0 (-1)
      = (k : Int) := by
    refine flatScan_one _ k ?_ 256 0 (Nat.zero_le k) (by omega) ?_
    · rw [hdiv k hk256, if_pos rfl]; omega
    · intro j _ hj hjk
      rw [hdiv j (by omega), if_neg (fun e => hjk e.symm)]
  obtain ⟨_, _, hu⟩ := uniformColor_spec (rawState st ptr1 ptr2 width height stride stride1) k
  refine ⟨uniformColor (rawState st ptr1 ptr2 width height stride stride1) (k : Int), ?_, ?_⟩
  · unfold Create
    rw [hflat]
    have : ((k : Int) ≠ -1) := by omega
    simp [this]
  · intro v hv
    rw [hu v hv]
    have hpk : rd (rawState st ptr1 ptr2 width height stride stride1).div k ≠ 0 := by
      rw [hdiv k hk256, if_pos rfl]; omega
    refine ⟨?_, ?_⟩
    · rw [(rawState_exact st ptr1 ptr2 width height stride stride1 k hk256 hsz).2.2.1,
        pixelCount_of_const ptr1 width height stride k hk k, if_pos rfl,
        targetSum_of_const ptr1 ptr2 width height stride stride1 k hk,
        if_neg (by omega)]
    · have ha : Averaged (rawState st ptr1 ptr2 width height stride stride1) := by
        unfold rawState
        exact Averaged_rawCurve _
      obtain ⟨b1, b2⟩ :=
        Bounded_rawState st ptr1 ptr2 width height stride stride1 hsz k hk256 hpk
      obtain ⟨m1, m2⟩ := meanValue_range _ k (by omega) b1 b2
      rw [ha k hk256 hpk, toUChar_of_range _ m1 m2]
      rfl

/-- Witness of C2: source 10 and target 200 everywhere on 64x64; every curve entry is 200. -/
theorem uniform_color_law_witness :
    1 ≤ 64 * 64 ∧ 64 * 64 ≤ 8388608
      ∧ (∀ r c, r < 64 → c < 64 → load (flatPlane 10) (r * 64 + c) = 10)
      ∧ ∃ res, Create 0 zeroData (flatPlane 10) (flatPlane 200) 64 64 64 64 false 8 = some res
          ∧ ∀ v, v < 256 → rd res.curve v = 200 := by
  refine ⟨by decide, by decide, fun _ _ _ _ => rfl, ?_⟩
  obtain ⟨res, h1, h2⟩ :=
    uniform_color_law 0 zeroData (flatPlane 10) (flatPlane 200) 64 64 64 64 8 10
      (by decide) (by decide) (fun _ _ _ _ => rfl)
  refine ⟨res, h1, fun v hv => ?_⟩
  rw [(h2 v hv).1, planeSum_flat]

/-- C3 (non-raw totality).  For a plane pair with at least one and at most `2 ^ 23`
pixels and every `smoothing_window`, when `Create` with `raw = false` does not take
the uniform-colour branch (`flat` is `-1`), the loop exits within 255 passes in a state
`t`, `Create` returns the final averaging of the smoothed `t`, and at that final step
every index `i < 256` has `div[i] != 0` and `IntDiv(sum[i], div[i])` in `0..255`
before it is narrowed.  The other stores into `curve` are in `0..255` as well: the raw
curve's `IntDiv(sum[i], div[i])` at a populated index, the fill value of line 98 (whose
divisor `next - prev` is positive) and the mirror values of lines 119 and 140. -/
theorem nonraw_totality (st : CurveData) (ptr1 ptr2 : Mem)
    (width height stride stride1 : Nat) (smoothing_window : Int)
    (hpos : 1 ≤ width * height) (hsz : width * height ≤ 8388608)
    (hflat : flatScan (rawState st ptr1 ptr2 width height stride stride1).div 256 0 (-1) = -1) :
    (∃ t, (∀ fuel, 255 ≤ fuel →
            extendLoop fuel (fillMissing (rawState st ptr1 ptr2 width height stride stride1))
              = some t)
        ∧ (∀ fuel, 255 ≤ fuel →
            Create fuel st ptr1 ptr2 width height stride stride1 false smoothing_window
              = some (finalAverage (smoothCurve smoothing_window t)))
        ∧ ∀ i, i < 256 → rd (smoothCurve smoothing_window t).div i ≠ 0
            ∧ 0 ≤ meanValue (smoothCurve smoothing_window t) i
            ∧ meanValue (smoothCurve smoothing_window t) i ≤ 255)
      ∧ (∀ i, i < 256 → rd (rawState st ptr1 ptr2 width height stride stride1).div i ≠ 0 →
          0 ≤ meanValue (rawState st ptr1 ptr2 width height stride stride1) i
            ∧ meanValue (rawState st ptr1 ptr2 width height stride stride1) i ≤ 255)
      ∧ (∀ (u : CurveData) (i : Nat) (prev next : Int),
          0 ≤ fillValue u i prev next ∧ fillValue u i prev next ≤ 255)
      ∧ (∀ (d : Arr) (i : Nat), scanDown d i ≠ -1 → scanUp d (255 - i) (i + 1) ≠ -1 →
          0 < scanUp d (255 - i) (i + 1) - scanDown d i)
      ∧ ∀ (u : CurveData) (edge m : Int),
          0 ≤ mirrorValue u edge m ∧ mirrorValue u edge m ≤ 255 := by
  have hB := Bounded_rawState st ptr1 ptr2 width height stride stride1 hsz
  refine ⟨?_, fun i hi hp => ?_, fun u i prev next => clamp_range _, fun d i h1 h2 => ?_,
    fun u edge m => clamp_range _⟩
  · obtain ⟨v, hv, hpv⟩ :=
      exists_populated st ptr1 ptr2 width height stride stride1 hpos (by omega)
    obtain ⟨a, b, hx, hab⟩ := extremes_of_flat _ v hv hpv hflat
    obtain ⟨t, t1, _, t3, t4, t5, t6⟩ :=
      Create_two st ptr1 ptr2 width height stride stride1 a b hx hab
    refine ⟨t, t1, fun fuel hf => t6 fuel smoothing_window hf, fun i hi => ?_⟩
    by_cases hw : 0 < smoothing_window
    · obtain ⟨_, hs⟩ := smoothCurve_spec smoothing_window hw t
        (fun j hj => Averaged_curve_lt t t5 t4 j hj)
      obtain ⟨s1, s2, s3⟩ := hs i hi
      exact ⟨by omega, meanValue_range _ i s1 (by omega) s3⟩
    · have hid : smoothCurve smoothing_window t = t := by
        unfold smoothCurve
        rw [if_neg (by omega)]
      rw [hid]
      have hpi : rd t.div i ≠ 0 := (t4.2 i hi).mpr ⟨Nat.zero_le i, by omega⟩
      obtain ⟨b1, b2⟩ := Bounded_extends _ t hB t3 i hi hpi
      exact ⟨hpi, meanValue_range t i (by omega) b1 b2⟩
  · obtain ⟨b1, b2⟩ := hB i hi hp
    exact meanValue_range _ i (by omega) b1 b2
  · rcases scanDown_spec d i with ⟨e, _⟩ | ⟨p, e1, e2, _, _⟩
    · exact absurd e h1
    · rcases scanUp_spec d (255 - i) (i + 1) with ⟨e, _⟩ | ⟨q, f1, f2, _, _, _⟩
      · exact absurd e h2
      · rw [e1, f1]
        omega

/-- Witness of C3: the two-point scenario on a 2x1 plane pair, `smoothing_window = 8`. -/
theorem nonraw_totality_witness :
    1 ≤ 2 * 1 ∧ 2 * 1 ≤ 8388608
      ∧ flatScan (rawState zeroData (stripedPlane 50 200) (stripedPlane 80 220) 2 1 2 2).div
          256 0 (-1) = -1
      ∧ ∃ t, (∀ fuel, 255 ≤ fuel →
            extendLoop fuel
                (fillMissing (rawState zeroData (stripedPlane 50 200) (stripedPlane 80 220)
                  2 1 2 2))
              = some t)
        ∧ (∀ fuel, 255 ≤ fuel →
            Create fuel zeroData (stripedPlane 50 200) (stripedPlane 80 220) 2 1 2 2 false 8
              = some (finalAverage (smoothCurve 8 t)))
        ∧ ∀ i, i < 256 → rd (smoothCurve 8 t).div i ≠ 0
            ∧ 0 ≤ meanValue (smoothCurve 8 t) i ∧ meanValue (smoothCurve 8 t) i ≤ 255 :=
  have hflat : flatScan
      (rawState zeroData (stripedPlane 50 200) (stripedPlane 80 220) 2 1 2 2).div
      256 0 (-1) = -1 :=
    flatScan_two _ 50 200 (by decide)
      (by rw [scenario_div zeroData 50 (by decide)]; decide)
      (by rw [scenario_div zeroData 200 (by decide)]; decide) 256 0 (by decide) (by decide)
  ⟨by decide, by decide, hflat,
    (nonraw_totality zeroData (stripedPlane 50 200) (stripedPlane 80 220) 2 1 2 2 8
      (by decide) (by decide) hflat).1⟩

/-- What the loop does where the counters hold the counts.  For every plane pair with at
least one and at most `2 ^ 23` pixels (no counter wraps and every `IntDiv` stays inside
`int`), `Create` with `raw = false` returns: one result is produced for every bound of
at least 255 passes.  Whenever two distinct source intensities `u < v` are populated
after accumulation, every pass of the loop entered with `div[0] == 0 || div[255] == 0`
strictly decreases the number of unpopulated indices and populates an index that was
unpopulated; the state before pass `k + 1` is `k` passes applied to the state after
"Fill missing". -/
theorem extrapolation_terminates (st : CurveData) (ptr1 ptr2 : Mem)
    (width height stride stride1 : Nat) (smoothing_window : Int)
    (hpos : 1 ≤ width * height) (hsz : width * height ≤ 8388608) :
    (∃ res, ∀ fuel, 255 ≤ fuel →
        Create fuel st ptr1 ptr2 width height stride stride1 false smoothing_window = some res)
      ∧ ∀ u v, u < v → v < 256 →
          rd (rawState st ptr1 ptr2 width height stride stride1).div u ≠ 0 →
          rd (rawState st ptr1 ptr2 width height stride stride1).div v ≠ 0 →
          ∀ k,
            (rd (Nat.iterate extendPass k
                  (fillMissing (rawState st ptr1 ptr2 width height stride stride1))).div 0 = 0
              ∨ rd (Nat.iterate extendPass k
                  (fillMissing (rawState st ptr1 ptr2 width height stride stride1))).div 255
                  = 0) →
            unpopulated (extendPass (Nat.iterate extendPass k
                (fillMissing (rawState st ptr1 ptr2 width height stride stride1))))
              < unpopulated (Nat.iterate extendPass k
                (fillMissing (rawState st ptr1 ptr2 width height stride stride1)))
            ∧ ∃ i, i < 256
                ∧ rd (Nat.iterate extendPass k
                    (fillMissing (rawState st ptr1 ptr2 width height stride stride1))).div i = 0
                ∧ rd (extendPass (Nat.iterate extendPass k
                    (fillMissing (rawState st ptr1 ptr2 width height stride stride1)))).div i
                    ≠ 0 := by
  constructor
  · obtain ⟨v, hv, hpv⟩ :=
      exists_populated st ptr1 ptr2 width height stride stride1 hpos (by omega)
    obtain ⟨a, b, hx, _, _⟩ := exists_extremes _ v hv hpv
    have hle := Extremes_le _ a b hx
    by_cases hab : a < b
    · obtain ⟨t, _, _, _, _, _, t6⟩ :=
        Create_two st ptr1 ptr2 width height stride stride1 a b hx hab
      exact ⟨_, fun fuel hf => t6 fuel smoothing_window hf⟩
    · have hab : a = b := by omega
      subst hab
      have h1 := flatScan_one _ a hx.2.1 256 0 (Nat.zero_le a) (by have := hx.1; omega)
        (fun j _ hj hja => by
          by_contra hne
          have := Extremes_range _ a a hx j (by omega) hne
          omega)
      refine ⟨uniformColor (rawState st ptr1 ptr2 width height stride stride1) (a : Int),
        fun fuel _ => ?_⟩
      unfold Create
      rw [h1]
      have : ((a : Int) ≠ -1) := by omega
      simp [this]
  · intro u v huv hv hpu hpv k hc
    obtain ⟨a, b, hx, hab⟩ := extremes_of_two _ u v huv hv hpu hpv
    have hI := fillMissing_interval _ a b hx hab
    obtain ⟨a2, b2, hI2, hab2⟩ := extendPass_iterate _ a b hI hab k
    exact extendPass_progress _ a2 b2 hI2 hab2 hc

/-- The two-point scenario on a 2x1 plane pair: `Create` returns. -/
theorem extrapolation_terminates_witness :
    1 ≤ 2 * 1 ∧ 2 * 1 ≤ 8388608
      ∧ ∃ res, ∀ fuel, 255 ≤ fuel →
          Create fuel zeroData (stripedPlane 50 200) (stripedPlane 80 220) 2 1 2 2 false 8
            = some res :=
  ⟨by decide, by decide,
    (extrapolation_terminates zeroData (stripedPlane 50 200) (stripedPlane 80 220) 2 1 2 2 8
      (by decide) (by decide)).1⟩

/-- C5, the claim as stated fails: in the two-point scenario (source 50 with target 80,
source 200 with target 220) the returned curve has `curve[58] = 88`, while linear
interpolation between the measured points 50 and 200 gives
`clamp(curve[50] + IntDiv((58 - 50) * (curve[200] - curve[50]), 200 - 50)) = 87`. -/
theorem interior_fill_counterexample :
    ∃ res, Create 255 zeroData (stripedPlane 50 200) (stripedPlane 80 220) 2 1 2 2 false 0
          = some res
      ∧ rd res.curve 50 = 80 ∧ rd res.curve 200 = 220 ∧ rd res.curve 58 = 88
      ∧ clamp ((rd res.curve 50 : Int)
          + IntDiv (((58 : Int) - 50) * ((rd res.curve 200 : Int) - (rd res.curve 50 : Int)))
              ((200 : Int) - 50)) = 87 := by
  have hd := scenario_div zeroData
  obtain ⟨a, b, hx, hab⟩ := extremes_of_two
    (rawState zeroData (stripedPlane 50 200) (stripedPlane 80 220) 2 1 2 2).div 50 200
    (by decide) (by decide) (by rw [hd 50 (by decide)]; decide)
    (by rw [hd 200 (by decide)]; decide)
  obtain ⟨res, r1, _⟩ := Create_zero zeroData _ _ 2 1 2 2 a b hx hab
  have hres := r1 255 (le_refl 255)
  have key : ∀ i, 50 < i → i < 200 →
      (rd res.curve i : Int) = fillValue res i ((i - 1 : Nat) : Int) ((200 : Nat) : Int)
        ∧ rd res.curve 50 = 80 ∧ rd res.curve 200 = 220 := by
    intro i h1 h2
    have := interior_value zeroData (stripedPlane 50 200) (stripedPlane 80 220) 2 1 2 2
      50 i 200 h1 h2 (by decide) (by rw [hd 50 (by decide)]; decide)
      (by rw [hd 200 (by decide)]; decide)
      (fun j hj1 hj2 => by rw [hd j (by omega), if_neg (by omega)]) res hres
    rw [(scenario_curve zeroData).1, (scenario_curve zeroData).2] at this
    exact this
  have h50 : rd res.curve 50 = 80 := (key 51 (by decide) (by decide)).2.1
  have h200 : rd res.curve 200 = 220 := (key 51 (by decide) (by decide)).2.2
  have step : ∀ i c, 50 < i → i < 200 → rd res.curve (i - 1) = c →
      (rd res.curve i : Int)
        = clamp ((c : Int) + IntDiv (((i : Int) - ((i - 1 : Nat) : Int)) * (220 - (c : Int)))
            (200 - ((i - 1 : Nat) : Int))) := by
    intro i c h1 h2 hc
    rw [(key i h1 h2).1]
    unfold fillValue
    simp only [Int.toNat_ofNat, hc, h200]
    rfl
  have h51 : rd res.curve 51 = 81 :=
    Int.ofNat_inj.mp ((step 51 80 (by decide) (by decide) h50).trans (by decide))
  have h52 : rd res.curve 52 = 82 :=
    Int.ofNat_inj.mp ((step 52 81 (by decide) (by decide) h51).trans (by decide))
  have h53 : rd res.curve 53 = 83 :=
    Int.ofNat_inj.mp ((step 53 82 (by decide) (by decide) h52).trans (by decide))
  have h54 : rd res.curve 54 = 84 :=
    Int.ofNat_inj.mp ((step 54 83 (by decide) (by decide) h53).trans (by decide))
  have h55 : rd res.curve 55 = 85 :=
    Int.ofNat_inj.mp ((step 55 84 (by decide) (by decide) h54).trans (by decide))
  have h56 : rd res.curve 56 = 86 :=
    Int.ofNat_inj.mp ((step 56 85 (by decide) (by decide) h55).trans (by decide))
  have h57 : rd res.curve 57 = 87 :=
    Int.ofNat_inj.mp ((step 57 86 (by decide) (by decide) h56).trans (by decide))
  have h58 : rd res.curve 58 = 88 :=
    Int.ofNat_inj.mp ((step 58 87 (by decide) (by decide) h57).trans (by decide))
  refine ⟨res, hres, h50, h200, h58, ?_⟩
  rw [h50, h200]
  decide

/-- C5, amended (interior gap fill).  For every non-raw build with
`smoothing_window = 0` and every index `i` with no observed sample that lies between
consecutive measured intensities `p < i < q` (`p` and `q` populated after accumulation,
nothing populated strictly between them), the returned curve satisfies
`curve[i] = clamp(curve[i-1] + IntDiv((i - (i-1)) * (curve[q] - curve[i-1]), q - (i-1)), 0, 255)`:
line 98 with `prev = i - 1`, the entry filled just before, and `next = q`; the measured
entries `curve[p]` and `curve[q]` are those of the raw curve. -/
theorem interior_fill (st : CurveData) (ptr1 ptr2 : Mem) (width height stride stride1 : Nat)
    (p i q : Nat) (hpi : p < i) (hiq : i < q) (hq : q < 256)
    (hp : rd (rawState st ptr1 ptr2 width height stride stride1).div p ≠ 0)
    (hqp : rd (rawState st ptr1 ptr2 width height stride stride1).div q ≠ 0)
    (hgap : ∀ j, p < j → j < q →
      rd (rawState st ptr1 ptr2 width height stride stride1).div j = 0) :
    ∃ res, (∀ fuel, 255 ≤ fuel →
          Create fuel st ptr1 ptr2 width height stride stride1 false 0 = some res)
      ∧ (rd res.curve i : Int)
          = clamp ((rd res.curve (i - 1) : Int)
              + IntDiv (((i : Int) - ((i - 1 : Nat) : Int))
                  * ((rd res.curve q : Int) - (rd res.curve (i - 1) : Int)))
                ((q : Int) - ((i - 1 : Nat) : Int)))
      ∧ rd res.curve p = rd (rawState st ptr1 ptr2 width height stride stride1).curve p
      ∧ rd res.curve q = rd (rawState st ptr1 ptr2 width height stride stride1).curve q := by
  obtain ⟨a, b, hx, hab⟩ := extremes_of_two _ p q (by omega) hq hp hqp
  obtain ⟨res, r1, _⟩ := Create_zero st ptr1 ptr2 width height stride stride1 a b hx hab
  obtain ⟨h1, h2, h3⟩ := interior_value st ptr1 ptr2 width height stride stride1 p i q
    hpi hiq hq hp hqp hgap res (r1 255 (le_refl 255))
  refine ⟨res, r1, ?_, h2, h3⟩
  rw [h1]
  unfold fillValue
  simp only [Int.toNat_ofNat]

/-- Witness of amended C5: the two-point scenario at `i = 58`, between 50 and 200. -/
theorem interior_fill_witness :
    50 < 58 ∧ 58 < 200 ∧ 200 < 256
      ∧ rd (rawState zeroData (stripedPlane 50 200) (stripedPlane 80 220) 2 1 2 2).div 50 ≠ 0
      ∧ rd (rawState zeroData (stripedPlane 50 200) (stripedPlane 80 220) 2 1 2 2).div 200 ≠ 0
      ∧ (∀ j, 50 < j → j < 200 →
          rd (rawState zeroData (stripedPlane 50 200) (stripedPlane 80 220) 2 1 2 2).div j = 0)
      ∧ ∃ res, (∀ fuel, 255 ≤ fuel →
            Create fuel zeroData (stripedPlane 50 200) (stripedPlane 80 220) 2 1 2 2 false 0
              = some res)
          ∧ (rd res.curve 58 : Int)
              = clamp ((rd res.curve (58 - 1) : Int)
                  + IntDiv ((((58 : Nat) : Int) - ((58 - 1 : Nat) : Int))
                      * ((rd res.curve 200 : Int) - (rd res.curve (58 - 1) : Int)))
                    (((200 : Nat) : Int) - ((58 - 1 : Nat) : Int))) :=
  have h50 : rd (rawState zeroData (stripedPlane 50 200) (stripedPlane 80 220) 2 1 2 2).div 50
      ≠ 0 := by rw [scenario_div zeroData 50 (by decide)]; decide
  have h200 : rd (rawState zeroData (stripedPlane 50 200) (stripedPlane 80 220) 2 1 2 2).div 200
      ≠ 0 := by rw [scenario_div zeroData 200 (by decide)]; decide
  have hgap : ∀ j, 50 < j → j < 200 →
      rd (rawState zeroData (stripedPlane 50 200) (stripedPlane 80 220) 2 1 2 2).div j = 0 :=
    fun j hj1 hj2 => by rw [scenario_div zeroData j (by omega), if_neg (by omega)]
  ⟨by decide, by decide, by decide, h50, h200, hgap,
    (interior_fill zeroData (stripedPlane 50 200) (stripedPlane 80 220) 2 1 2 2 50 58 200
      (by decide) (by decide) (by decide) h50 h200 hgap).imp
      (fun _ h => ⟨h.1, h.2.1⟩)⟩

/-- C6 (accumulator exactness for large planes): the code does not do what the claim
says.  On the claim's own example, a 4000x4000 pair whose source is 0 everywhere and
whose target is 255 everywhere, `sum[0] = 4080000000` and `div[0] = 16000000` are the
exact total and count, and the rounded mean is 255; line 49 passes the
`unsigned int sum[0]` to `IntDiv(int, int)`, where it is the `int` `-214967296`, and the
raw curve entry is `(unsigned char) IntDiv(-214967296, 16000000) = (unsigned char) -13
= 243`.  Both arguments and `x - (y >> 1)` are inside the 32-bit range, so the embedding
is the code on this input. -/
theorem raw_mean_wrong_on_large_plane :
    ∃ res, Create 0 zeroData (flatPlane 0) (flatPlane 255) 4000 4000 4000 4000 true 0 = some res
      ∧ rd res.sum 0 = 4080000000
      ∧ rd res.div 0 = 16000000
      ∧ targetSum (flatPlane 0) (flatPlane 255) 4000 4000 4000 4000 0 = 4080000000
      ∧ pixelCount (flatPlane 0) 4000 4000 4000 0 = 16000000
      ∧ toInt (rd res.sum 0) = -214967296
      ∧ toInt (rd res.div 0) = 16000000
      ∧ IntDiv (toInt (rd res.sum 0)) (toInt (rd res.div 0)) = -13
      ∧ rd res.curve 0 = 243
      ∧ (targetSum (flatPlane 0) (flatPlane 255) 4000 4000 4000 4000 0
          + pixelCount (flatPlane 0) 4000 4000 4000 0 / 2)
            / pixelCount (flatPlane 0) 4000 4000 4000 0 = 255 := by
  refine ⟨rawState zeroData (flatPlane 0) (flatPlane 255) 4000 4000 4000 4000, ?_, ?_⟩
  · simp [Create]
  · obtain ⟨q1, q2, q3⟩ :=
      rawState_spec zeroData (flatPlane 0) (flatPlane 255) 4000 4000 4000 4000 0 (by decide)
    rw [q1, q2, q3]
    simp only [pixelCount_flat, targetSum_flat]
    refine ⟨by decide, by decide, by decide, by decide, by decide, by decide, by decide,
      by decide, by decide⟩

/-- What the accumulation does on every plane pair.  `sum` and `div` are 32-bit
counters: for every `v < 256`, after accumulation `sum[v]` and `div[v]` hold the target
sum and the pixel count of `v` modulo `2 ^ 32`; when the pair has at most `2 ^ 23`
pixels both are exact and the raw curve entry is the exact mean rounded half up. -/
theorem accumulator_exactness (st : CurveData) (ptr1 ptr2 : Mem)
    (width height stride stride1 : Nat) (v : Nat) (hv : v < 256) :
    rd (rawState st ptr1 ptr2 width height stride stride1).sum v
        = targetSum ptr1 ptr2 width height stride stride1 v % 4294967296
      ∧ rd (rawState st ptr1 ptr2 width height stride stride1).div v
        = pixelCount ptr1 width height stride v % 4294967296
      ∧ (width * height ≤ 8388608 →
          rd (rawState st ptr1 ptr2 width height stride stride1).sum v
            = targetSum ptr1 ptr2 width height stride stride1 v
          ∧ rd (rawState st ptr1 ptr2 width height stride stride1).div v
            = pixelCount ptr1 width height stride v
          ∧ rd (rawState st ptr1 ptr2 width height stride stride1).curve v
            = if pixelCount ptr1 width height stride v = 0 then 0
              else (targetSum ptr1 ptr2 width height stride stride1 v
                + pixelCount ptr1 width height stride v / 2)
                  / pixelCount ptr1 width height stride v) := by
  obtain ⟨q1, q2, _⟩ := rawState_spec st ptr1 ptr2 width height stride stride1 v hv
  refine ⟨q1, q2, fun hsz => ?_⟩
  obtain ⟨e1, e2, e3, _⟩ := rawState_exact st ptr1 ptr2 width height stride stride1 v hv hsz
  exact ⟨e1, e2, e3⟩

/-- A 64x64 pair, source 10 everywhere and target 200 everywhere, at `v = 10`: the
counters are exact. -/
theorem accumulator_exactness_witness :
    10 < 256 ∧ 64 * 64 ≤ 8388608
      ∧ rd (rawState zeroData (flatPlane 10) (flatPlane 200) 64 64 64 64).sum 10
          = targetSum (flatPlane 10) (flatPlane 200) 64 64 64 64 10
      ∧ rd (rawState zeroData (flatPlane 10) (flatPlane 200) 64 64 64 64).div 10
          = pixelCount (flatPlane 10) 64 64 64 10 :=
  ⟨by decide, by decide,
    ((accumulator_exactness zeroData (flatPlane 10) (flatPlane 200) 64 64 64 64 10
      (by decide)).2.2 (by decide)).1,
    ((accumulator_exactness zeroData (flatPlane 10) (flatPlane 200) 64 64 64 64 10
      (by decide)).2.2 (by decide)).2.1⟩

/-- C7 (smoothing neutrality).  For every plane pair with two populated source
intensities `u < v` and every `smoothing_window <= 0`, the loop exits within 255
passes in a state `t` (the result of gap filling and boundary extrapolation), `Create`
with `raw = false` returns the final averaging of `t`, and that pass leaves each of the
256 curve entries as it is in `t`. -/
theorem smoothing_neutrality (st : CurveData) (ptr1 ptr2 : Mem)
    (width height stride stride1 : Nat) (smoothing_window : Int) (u v : Nat)
    (hw : smoothing_window ≤ 0) (huv : u < v) (hv : v < 256)
    (hpu : rd (rawState st ptr1 ptr2 width height stride stride1).div u ≠ 0)
    (hpv : rd (rawState st ptr1 ptr2 width height stride stride1).div v ≠ 0) :
    ∃ t, (∀ fuel, 255 ≤ fuel →
          extendLoop fuel (fillMissing (rawState st ptr1 ptr2 width height stride stride1))
            = some t)
      ∧ (∀ fuel, 255 ≤ fuel →
          Create fuel st ptr1 ptr2 width height stride stride1 false smoothing_window
            = some (finalAverage t))
      ∧ ∀ i, i < 256 → rd (finalAverage t).curve i = rd t.curve i := by
  obtain ⟨a, b, hx, hab⟩ := extremes_of_two _ u v huv hv hpu hpv
  obtain ⟨t, t1, _, _, t4, t5, t6⟩ :=
    Create_two st ptr1 ptr2 width height stride stride1 a b hx hab
  have hid : smoothCurve smoothing_window t = t := by
    unfold smoothCurve
    rw [if_neg (by omega)]
  refine ⟨t, t1, fun fuel hf => ?_, fun i hi => finalAverage_id t t5 t4 i hi⟩
  rw [t6 fuel smoothing_window hf, hid]

/-- Witness of C7: the two-point scenario on a 2x1 plane pair, `smoothing_window = 0`. -/
theorem smoothing_neutrality_witness :
    (0 : Int) ≤ 0 ∧ 50 < 200 ∧ 200 < 256
      ∧ rd (rawState zeroData (stripedPlane 50 200) (stripedPlane 80 220) 2 1 2 2).div 50 ≠ 0
      ∧ rd (rawState zeroData (stripedPlane 50 200) (stripedPlane 80 220) 2 1 2 2).div 200 ≠ 0
      ∧ ∃ t, (∀ fuel, 255 ≤ fuel →
            extendLoop fuel
                (fillMissing (rawState zeroData (stripedPlane 50 200) (stripedPlane 80 220)
                  2 1 2 2))
              = some t)
          ∧ (∀ fuel, 255 ≤ fuel →
              Create fuel zeroData (stripedPlane 50 200) (stripedPlane 80 220) 2 1 2 2 false 0
                = some (finalAverage t))
          ∧ ∀ i, i < 256 → rd (finalAverage t).curve i = rd t.curve i :=
  have h50 : rd (rawState zeroData (stripedPlane 50 200) (stripedPlane 80 220) 2 1 2 2).div 50
      ≠ 0 := by rw [scenario_div zeroData 50 (by decide)]; decide
  have h200 : rd (rawState zeroData (stripedPlane 50 200) (stripedPlane 80 220) 2 1 2 2).div 200
      ≠ 0 := by rw [scenario_div zeroData 200 (by decide)]; decide
  ⟨by decide, by decide, by decide, h50, h200,
    smoothing_neutrality zeroData (stripedPlane 50 200) (stripedPlane 80 220) 2 1 2 2 0 50 200
      (by decide) (by decide) (by decide) h50 h200⟩

/-- C8 (`Process` is a lookup-table remap).  For every curve (an array of `unsigned char`),
every `width`, `height`, source stride and destination stride `>= width`, `Process`
sets the destination byte of row `r < height` and column `c < width` to
`curve[src(r, c)]`, leaves every other destination byte as it was (and has no store to
the curve); when `curve[v] = v` for all `v`, the destination pixels equal the source
pixels. -/
theorem process_is_lookup (cd : CurveData) (srcp dstp : Mem)
    (width height stride dst_stride : Nat) (hd : width ≤ dst_stride)
    (hc : ∀ v, v < 256 → rd cd.curve v < 256) :
    (∀ r c, r < height → c < width →
        load (Process cd srcp dstp width height stride dst_stride) (r * dst_stride + c)
          = rd cd.curve (load srcp (r * stride + c)))
      ∧ (∀ a, (∀ r c, r < height → c < width → a ≠ r * dst_stride + c) →
          Process cd srcp dstp width height stride dst_stride a = dstp a)
      ∧ ((∀ v, v < 256 → rd cd.curve v = v) →
          ∀ r c, r < height → c < width →
            load (Process cd srcp dstp width height stride dst_stride) (r * dst_stride + c)
              = load srcp (r * stride + c)) := by
  obtain ⟨q1, q2⟩ := processRows_spec cd srcp width stride dst_stride hd height 0 0 dstp
  simp only [Nat.zero_add] at q1 q2
  have key : ∀ r c, r < height → c < width →
      load (Process cd srcp dstp width height stride dst_stride) (r * dst_stride + c)
        = rd cd.curve (load srcp (r * stride + c)) := by
    intro r c hr hcw
    have hlt := hc _ (load_lt srcp (r * stride + c))
    unfold Process
    show processRows cd srcp width stride dst_stride height 0 0 dstp (r * dst_stride + c) % 256
      = rd cd.curve (load srcp (r * stride + c))
    rw [q1 r c hr hcw]
    omega
  refine ⟨key, fun a ha => q2 a ha, fun hid r c hr hcw => ?_⟩
  rw [key r c hr hcw, hid _ (load_lt srcp (r * stride + c))]

/-- Witness of C8: the identity curve on a 2x1 plane with strides 2 and 3. -/
theorem process_is_lookup_witness :
    2 ≤ 3 ∧ (∀ v, v < 256 → rd identityArr v < 256)
      ∧ ∀ r c, r < 1 → c < 2 →
          load (Process { sum := constArr 0, div := constArr 0, curve := identityArr }
              (stripedPlane 50 200) (flatPlane 0) 2 1 2 3) (r * 3 + c)
            = load (stripedPlane 50 200) (r * 2 + c) :=
  ⟨by decide, fun v hv => by rw [rd_identityArr v hv]; exact hv,
    (process_is_lookup { sum := constArr 0, div := constArr 0, curve := identityArr }
      (stripedPlane 50 200) (flatPlane 0) 2 1 2 3 (by decide)
      (fun v hv => by rw [rd_identityArr v hv]; exact hv)).2.2
      (fun v hv => rd_identityArr v hv)⟩

/-- C9 (the build depends only on the logical plane contents).  Two calls of `Create`
with the same `width`, `height`, `raw`, `smoothing_window` (and the same bound on the
loop passes), whose source planes agree at every row `r < height` and column
`c < width`, each addressed with its own stride, and whose target planes agree
likewise, return the same result, whatever the strides, the bytes outside the
`width x height` grid and the previous contents of `sum`, `div` and `curve`. -/
theorem build_depends_on_contents (fuel : Nat) (st1 st2 : CurveData) (p1 t1 p2 t2 : Mem)
    (width height s1 u1 s2 u2 : Nat) (raw : Bool) (smoothing_window : Int)
    (hsrc : ∀ r c, r < height → c < width → load p1 (r * s1 + c) = load p2 (r * s2 + c))
    (htgt : ∀ r c, r < height → c < width → load t1 (r * u1 + c) = load t2 (r * u2 + c)) :
    Create fuel st1 p1 t1 width height s1 u1 raw smoothing_window
      = Create fuel st2 p2 t2 width height s2 u2 raw smoothing_window := by
  unfold Create
  rw [rawState_congr st1 st2 p1 t1 p2 t2 width height s1 u1 s2 u2 hsrc htgt]

/-- Witness of C9: the same 2x1 pixels stored with stride 2 and with stride 5, in
objects with different previous contents. -/
theorem build_depends_on_contents_witness :
    (∀ r c, r < 1 → c < 2 →
        load (stripedPlane 50 200) (r * 2 + c) = load (stripedPlane 50 200) (r * 5 + c))
      ∧ (∀ r c, r < 1 → c < 2 →
        load (stripedPlane 80 220) (r * 2 + c) = load (stripedPlane 80 220) (r * 5 + c))
      ∧ Create 255 zeroData (stripedPlane 50 200) (stripedPlane 80 220) 2 1 2 2 false 8
          = Create 255 { sum := constArr 7, div := constArr 9, curve := constArr 3 }
              (stripedPlane 50 200) (stripedPlane 80 220) 2 1 5 5 false 8 :=
  have h1 : ∀ r c, r < 1 → c < 2 →
      load (stripedPlane 50 200) (r * 2 + c) = load (stripedPlane 50 200) (r * 5 + c) :=
    fun r c hr _ => by rw [show r = 0 by omega]
  have h2 : ∀ r c, r < 1 → c < 2 →
      load (stripedPlane 80 220) (r * 2 + c) = load (stripedPlane 80 220) (r * 5 + c) :=
    fun r c hr _ => by rw [show r = 0 by omega]
  ⟨h1, h2, build_depends_on_contents 255 _ _ _ _ _ _ 2 1 2 2 5 5 false 8 h1 h2⟩

/-- C10 (result of `Debug`).  For every curve (an array of `unsigned char`) and every
canvas with `stride >= 256`, after `Debug` each column `i < 256` satisfies: every row
`r` with `255 - curve[i] < r <= 255` holds `curve[i]`; the row `255 - curve[i]` holds
255 when `curve[i] > 0` and 0 when `curve[i] = 0`; every row `r < 255 - curve[i]` of
the column is unchanged; every byte of a column `k` with `256 <= k < stride` is
unchanged; and, more generally, so is every byte that is not in a row `<= 255` and a
column `<= 255`. -/
theorem debug_render (cd : CurveData) (ptr : Mem) (stride : Nat) (hs : 256 ≤ stride)
    (hc : ∀ v, v < 256 → rd cd.curve v < 256) (i : Nat) (hi : i < 256) :
    (∀ r, 255 - rd cd.curve i < r → r ≤ 255 →
        load (Debug cd ptr stride) (r * stride + i) = rd cd.curve i)
      ∧ (0 < rd cd.curve i →
          load (Debug cd ptr stride) ((255 - rd cd.curve i) * stride + i) = 255)
      ∧ (rd cd.curve i = 0 → load (Debug cd ptr stride) (255 * stride + i) = 0)
      ∧ (∀ r, r < 255 - rd cd.curve i →
          Debug cd ptr stride (r * stride + i) = ptr (r * stride + i))
      ∧ (∀ r k, 256 ≤ k → k < stride →
          Debug cd ptr stride (r * stride + k) = ptr (r * stride + k))
      ∧ (∀ a, (∀ r k, r ≤ 255 → k < 256 → a ≠ r * stride + k) →
          Debug cd ptr stride a = ptr a) := by
  obtain ⟨f1, f2⟩ := debugFill_spec cd stride hs ptr
  obtain ⟨c1, c2⟩ := debugCap_spec cd stride hs (debugFill cd stride ptr)
  have hv := hc i hi
  have hout : ∀ a, (∀ r k, r ≤ 255 → k < 256 → a ≠ r * stride + k) →
      debugCap cd stride (debugFill cd stride ptr) a = ptr a := by
    intro a ha
    rw [c2 a (fun k hk _ => ha _ k (by omega) hk)]
    exact f2 a (fun k j hk _ => ha _ k (by omega) hk)
  unfold Debug
  refine ⟨fun r hr1 hr2 => ?_, fun hpos => ?_, fun h0 => ?_, fun r hr => ?_,
    fun r k hk1 hk2 => hout _ (fun r2 k2 _ hk3 e => by
      have := (addr_inj stride _ _ _ _ hk2 (by omega) e).2
      omega),
    hout⟩
  · show debugCap cd stride (debugFill cd stride ptr) (r * stride + i) % 256 = rd cd.curve i
    rw [c2 _ (fun k hk _ e => by
      obtain ⟨e1, e2⟩ := addr_inj stride _ _ _ _ (by omega) (by omega) e
      subst e2
      omega)]
    have := f1 i (255 - r) hi (by omega)
    rw [show 255 - (255 - r) = r by omega] at this
    rw [this]
    omega
  · show debugCap cd stride (debugFill cd stride ptr) ((255 - rd cd.curve i) * stride + i) % 256
      = 255
    rw [c1 i hi hpos]
  · show debugCap cd stride (debugFill cd stride ptr) (255 * stride + i) % 256 = 0
    rw [c2 _ (fun k hk hkp e => by
      obtain ⟨_, e2⟩ := addr_inj stride _ _ _ _ (by omega) (by omega) e
      subst e2
      omega)]
    have := f1 i 0 hi (Nat.zero_le _)
    rw [show 255 - 0 = 255 by rfl] at this
    rw [this, h0]
  · rw [c2 _ (fun k hk _ e => by
      obtain ⟨e1, e2⟩ := addr_inj stride _ _ _ _ (by omega) (by omega) e
      subst e2
      omega)]
    exact f2 _ (fun k j hk hj e => by
      have hkv := hc k hk
      obtain ⟨e1, e2⟩ := addr_inj stride _ _ _ _ (by omega) (by omega) e
      subst e2
      omega)

/-- Witness of C10: the identity curve, column 3, on a canvas of stride 256. -/
theorem debug_render_witness :
    256 ≤ 256 ∧ (∀ v, v < 256 → rd identityArr v < 256) ∧ 3 < 256
      ∧ load (Debug { sum := constArr 0, div := constArr 0, curve := identityArr }
            (flatPlane 0) 256) ((255 - rd identityArr 3) * 256 + 3) = 255 :=
  ⟨by decide, fun v hv => by rw [rd_identityArr v hv]; exact hv, by decide,
    (debug_render { sum := constArr 0, div := constArr 0, curve := identityArr }
      (flatPlane 0) 256 (by decide) (fun v hv => by rw [rd_identityArr v hv]; exact hv)
      3 (by decide)).2.1 (by rw [rd_identityArr 3 (by decide)]; decide)⟩

/-- C11 (overlay plot).  For every curve (an array of `unsigned char`), every marker
color (a `uint8_t`) and every canvas with `stride >= 256`, after `Show` each column
`i < 256` has exactly one pixel set: the pixel at row `r = 255 - curve[i]` holds the
marker color and every other row of the column is unchanged; every byte that is not
one of these 256 pixels is unchanged (and `Show` has no store to the curve). -/
theorem show_overlay (cd : CurveData) (ptr : Mem) (stride color : Nat) (hs : 256 ≤ stride)
    (hc : ∀ v, v < 256 → rd cd.curve v < 256) (hcol : color < 256) :
    (∀ i, i < 256 → ∃ r, r ≤ 255 ∧ r + rd cd.curve i = 255
        ∧ load (Show cd ptr stride color) (r * stride + i) = color
        ∧ ∀ r2, r2 ≠ r → Show cd ptr stride color (r2 * stride + i) = ptr (r2 * stride + i))
      ∧ ∀ a, (∀ i, i < 256 → a ≠ (255 - rd cd.curve i) * stride + i) →
          Show cd ptr stride color a = ptr a := by
  obtain ⟨h1, h2⟩ := Show_spec cd ptr stride color hs
  refine ⟨fun i hi => ⟨255 - rd cd.curve i, by omega, by have := hc i hi; omega, ?_, ?_⟩, h2⟩
  · show Show cd ptr stride color ((255 - rd cd.curve i) * stride + i) % 256 = color
    rw [h1 i hi]
    omega
  · intro r2 hr2
    refine h2 _ (fun k hk e => ?_)
    obtain ⟨e1, e2⟩ := addr_inj stride _ _ _ _ (by omega) (by omega) e
    subst e2
    exact hr2 e1

/-- Witness of C11: the identity curve, marker color 235, stride 256. -/
theorem show_overlay_witness :
    256 ≤ 256 ∧ (∀ v, v < 256 → rd identityArr v < 256) ∧ 235 < 256
      ∧ ∀ a, (∀ i, i < 256 → a ≠ (255 - rd identityArr i) * 256 + i) →
          Show { sum := constArr 0, div := constArr 0, curve := identityArr }
            (flatPlane 16) 256 235 a = flatPlane 16 a :=
  ⟨by decide, fun v hv => by rw [rd_identityArr v hv]; exact hv, by decide,
    (show_overlay { sum := constArr 0, div := constArr 0, curve := identityArr }
      (flatPlane 16) 256 235 (by decide) (fun v hv => by rw [rd_identityArr v hv]; exact hv)
      (by decide)).2⟩

/-- C14 (`IntDiv` rounds to nearest, ties away from zero, for a positive divisor).
For all integers `x` and `y > 0`, `q = IntDiv(x, y)` satisfies `|q * y - x| <= y / 2`
as rationals (`-y <= 2 * (q * y - x) <= y`), and when `q * y - x` is exactly half of
`y` in absolute value `q` is the candidate farther from zero (above `x / y` only for
`x > 0`, below only for `x < 0`); `IntDiv(x, y) = floor((x + floor(y / 2)) / y)` for
`x >= 0`, and `IntDiv(-x, y) = -IntDiv(x, y)`. -/
theorem IntDiv_rounds_to_nearest (x y : Int) (hy : 0 < y) :
    -y ≤ 2 * (IntDiv x y * y - x) ∧ 2 * (IntDiv x y * y - x) ≤ y
      ∧ (2 * (IntDiv x y * y - x) = y → 0 < x)
      ∧ (2 * (IntDiv x y * y - x) = -y → x < 0)
      ∧ (0 ≤ x → IntDiv x y = (x + y / 2) / y)
      ∧ IntDiv (-x) y = -IntDiv x y := by
  refine ⟨?_, ?_, ?_, ?_, fun hx => IntDiv_of_nonneg x y hx hy, IntDiv_neg_eq x y hy⟩
  all_goals
    rcases Int.lt_or_le x 0 with hx | hx
    · rw [IntDiv_of_neg x y hx hy]
      obtain ⟨r1, r2, r3⟩ := round_nonneg (-x) y (by omega) hy
      rw [neg_mul]
      generalize (-x + y / 2) / y * y = m at r1 r2 r3 ⊢
      omega
    · rw [IntDiv_of_nonneg x y hx hy]
      obtain ⟨r1, r2, r3⟩ := round_nonneg x y hx hy
      generalize (x + y / 2) / y * y = m at r1 r2 r3 ⊢
      omega

/-- Witness of C14: `IntDiv(-7, 2) = -4`, the tie `-3.5` rounded away from zero. -/
theorem IntDiv_rounds_to_nearest_witness :
    (0 : Int) < 2 ∧ IntDiv (-7) 2 = -4 ∧ IntDiv (-(-7)) 2 = -IntDiv (-7) 2 :=
  ⟨by decide, by decide, (IntDiv_rounds_to_nearest (-7) 2 (by decide)).2.2.2.2.2⟩

/-- C18 (gap filling never alters measured points).  For every plane pair with at most
`2 ^ 23` pixels and every intensity `v` with `count[v] > 0`, the curve returned by
`Create` with `raw = false` and `smoothing_window = 0` has at `v` the value of the curve
returned with `raw = true`, which is `IntDiv(sum[v], div[v])`, the mean rounded half
up. -/
theorem measured_points_kept (st : CurveData) (ptr1 ptr2 : Mem)
    (width height stride stride1 : Nat) (v : Nat) (hv : v < 256)
    (hsz : width * height ≤ 8388608) (hcount : 0 < pixelCount ptr1 width height stride v) :
    ∃ res rawres,
      (∀ fuel, 255 ≤ fuel →
          Create fuel st ptr1 ptr2 width height stride stride1 false 0 = some res)
        ∧ (∀ fuel, Create fuel st ptr1 ptr2 width height stride stride1 true 0 = some rawres)
        ∧ rd res.curve v = rd rawres.curve v
        ∧ (rd res.curve v : Int) = IntDiv (toInt (rd rawres.sum v)) (toInt (rd rawres.div v))
        ∧ rd res.curve v
            = (targetSum ptr1 ptr2 width height stride stride1 v
                + pixelCount ptr1 width height stride v / 2)
              / pixelCount ptr1 width height stride v := by
  obtain ⟨e1, e2, e3, _⟩ := rawState_exact st ptr1 ptr2 width height stride stride1 v hv hsz
  have hpv : rd (rawState st ptr1 ptr2 width height stride stride1).div v ≠ 0 := by
    rw [e2]; omega
  have hraw : ∀ fuel, Create fuel st ptr1 ptr2 width height stride stride1 true 0
      = some (rawState st ptr1 ptr2 width height stride stride1) := by
    intro fuel
    simp [Create]
  have hint : (rd (rawState st ptr1 ptr2 width height stride stride1).curve v : Int)
      = IntDiv (toInt (rd (rawState st ptr1 ptr2 width height stride stride1).sum v))
          (toInt (rd (rawState st ptr1 ptr2 width height stride stride1).div v)) := by
    have ha : Averaged (rawState st ptr1 ptr2 width height stride stride1) := by
      unfold rawState
      exact Averaged_rawCurve _
    obtain ⟨b1, b2⟩ := Bounded_rawState st ptr1 ptr2 width height stride stride1 hsz v hv hpv
    obtain ⟨m1, m2⟩ := meanValue_range _ v (by omega) b1 b2
    rw [ha v hv hpv, toUChar_of_range _ m1 m2]
    rfl
  have hval : rd (rawState st ptr1 ptr2 width height stride stride1).curve v
      = (targetSum ptr1 ptr2 width height stride stride1 v
          + pixelCount ptr1 width height stride v / 2)
        / pixelCount ptr1 width height stride v := by
    rw [e3, if_neg (by omega)]
  obtain ⟨a, b, hx, hav, hvb⟩ := exists_extremes _ v hv hpv
  by_cases hab : a < b
  · obtain ⟨res, r1, r2⟩ := Create_zero st ptr1 ptr2 width height stride stride1 a b hx hab
    have hI := fillMissing_interval _ a b hx hab
    have hE := (fillMissing_inv _ a b hx hab).1
    have hk : rd res.curve v = rd (rawState st ptr1 ptr2 width height stride stride1).curve v := by
      rw [r2 v hv ((hI.2 v hv).mpr ⟨hav, hvb⟩)]
      exact (Extends_keep _ _ hE v hv hpv).2.2
    exact ⟨res, _, r1, hraw, hk, by rw [hk]; exact hint, by rw [hk]; exact hval⟩
  · have hva : a = v := by omega
    have hvb2 : b = v := by omega
    rw [hva, hvb2] at hx
    have h1 := flatScan_one _ v hx.2.1 256 0 (Nat.zero_le v) (by omega)
      (fun j _ hj hja => by
        by_contra hne
        have := Extremes_range _ v v hx j (by omega) hne
        omega)
    obtain ⟨_, _, hu⟩ := uniformColor_spec (rawState st ptr1 ptr2 width height stride stride1) v
    refine ⟨uniformColor (rawState st ptr1 ptr2 width height stride stride1) (v : Int), _,
      fun fuel _ => ?_, hraw, hu v hv, by rw [hu v hv]; exact hint, by rw [hu v hv]; exact hval⟩
    unfold Create
    rw [h1]
    have : ((v : Int) ≠ -1) := by omega
    simp [this]

/-- Witness of C18: the two-point scenario on a 2x1 plane pair at `v = 50`. -/
theorem measured_points_kept_witness :
    50 < 256 ∧ 2 * 1 ≤ 8388608 ∧ 0 < pixelCount (stripedPlane 50 200) 2 1 2 50
      ∧ ∃ res rawres,
          (∀ fuel, 255 ≤ fuel →
            Create fuel zeroData (stripedPlane 50 200) (stripedPlane 80 220) 2 1 2 2 false 0
              = some res)
          ∧ (∀ fuel,
            Create fuel zeroData (stripedPlane 50 200) (stripedPlane 80 220) 2 1 2 2 true 0
              = some rawres)
          ∧ rd res.curve 50 = rd rawres.curve 50 :=
  have hc : 0 < pixelCount (stripedPlane 50 200) 2 1 2 50 := by
    rw [scenario_count]; decide
  ⟨by decide, by decide, hc,
    (measured_points_kept zeroData (stripedPlane 50 200) (stripedPlane 80 220) 2 1 2 2 50
      (by decide) (by decide) hc).imp
      (fun _ h => h.imp (fun _ h2 => ⟨h2.1, h2.2.1, h2.2.2.1⟩))⟩

/-- C19 (the interior fill is a running one-step interpolation).  In a non-raw build,
let `p < i < q` with `p` and `q` populated after accumulation and nothing populated
strictly between them.  When the fill loop reaches `i`, `i` is unpopulated, the
predecessor search finds `i - 1` and the successor search finds `q`, so the loop
assigns line 98 with `prev = i - 1` and `next = q`; the entries it reads and the entry
it writes keep their values until the end of the loop.  In the curve after the loop,
`curve[i] = curve[i-1] + IntDiv(curve[q] - curve[i-1], q - (i - 1))`, the clamp leaves
this value as it is, `curve[p]` and `curve[q]` are the raw values, and the filled
values run from `curve[p]` to `curve[q]`: non-decreasing and within
`curve[p]..curve[q]` when `curve[p] <= curve[q]`, non-increasing and within
`curve[q]..curve[p]` when `curve[q] <= curve[p]`. -/
theorem running_fill (st : CurveData) (ptr1 ptr2 : Mem) (width height stride stride1 : Nat)
    (p i q : Nat) (hpi : p < i) (hiq : i < q) (hq : q < 256)
    (hp : rd (rawState st ptr1 ptr2 width height stride stride1).div p ≠ 0)
    (hqp : rd (rawState st ptr1 ptr2 width height stride stride1).div q ≠ 0)
    (hgap : ∀ j, p < j → j < q →
      rd (rawState st ptr1 ptr2 width height stride stride1).div j = 0) :
    (rd (fillPrefix (rawState st ptr1 ptr2 width height stride stride1) i).div i = 0
      ∧ scanDown (fillPrefix (rawState st ptr1 ptr2 width height stride stride1) i).div i
          = ((i - 1 : Nat) : Int)
      ∧ scanUp (fillPrefix (rawState st ptr1 ptr2 width height stride stride1) i).div
          (255 - i) (i + 1) = (q : Int)
      ∧ fillStep (fillPrefix (rawState st ptr1 ptr2 width height stride stride1) i) i
          = markFilled (fillPrefix (rawState st ptr1 ptr2 width height stride stride1) i) i
              (fillValue (fillPrefix (rawState st ptr1 ptr2 width height stride stride1) i) i
                ((i - 1 : Nat) : Int) (q : Int)))
      ∧ (rd (fillStep (fillPrefix (rawState st ptr1 ptr2 width height stride stride1) i) i).curve i
          = rd (fillMissing (rawState st ptr1 ptr2 width height stride stride1)).curve i
        ∧ rd (fillPrefix (rawState st ptr1 ptr2 width height stride stride1) i).curve (i - 1)
          = rd (fillMissing (rawState st ptr1 ptr2 width height stride stride1)).curve (i - 1)
        ∧ rd (fillPrefix (rawState st ptr1 ptr2 width height stride stride1) i).curve q
          = rd (fillMissing (rawState st ptr1 ptr2 width height stride stride1)).curve q)
      ∧ (rd (fillMissing (rawState st ptr1 ptr2 width height stride stride1)).curve p
          = rd (rawState st ptr1 ptr2 width height stride stride1).curve p
        ∧ rd (fillMissing (rawState st ptr1 ptr2 width height stride stride1)).curve q
          = rd (rawState st ptr1 ptr2 width height stride stride1).curve q)
      ∧ ((rd (fillMissing (rawState st ptr1 ptr2 width height stride stride1)).curve i : Int)
          = (rd (fillMissing (rawState st ptr1 ptr2 width height stride stride1)).curve (i - 1)
              : Int)
            + IntDiv
                ((rd (fillMissing (rawState st ptr1 ptr2 width height stride stride1)).curve q
                    : Int)
                  - (rd (fillMissing (rawState st ptr1 ptr2 width height stride stride1)).curve
                      (i - 1) : Int))
                ((q : Int) - ((i - 1 : Nat) : Int))
        ∧ clamp (rd (fillMissing (rawState st ptr1 ptr2 width height stride stride1)).curve i
              : Int)
            = (rd (fillMissing (rawState st ptr1 ptr2 width height stride stride1)).curve i
              : Int))
      ∧ (rd (rawState st ptr1 ptr2 width height stride stride1).curve p
            ≤ rd (rawState st ptr1 ptr2 width height stride stride1).curve q →
          rd (fillMissing (rawState st ptr1 ptr2 width height stride stride1)).curve (i - 1)
              ≤ rd (fillMissing (rawState st ptr1 ptr2 width height stride stride1)).curve i
            ∧ rd (rawState st ptr1 ptr2 width height stride stride1).curve p
              ≤ rd (fillMissing (rawState st ptr1 ptr2 width height stride stride1)).curve i
            ∧ rd (fillMissing (rawState st ptr1 ptr2 width height stride stride1)).curve i
              ≤ rd (rawState st ptr1 ptr2 width height stride stride1).curve q)
      ∧ (rd (rawState st ptr1 ptr2 width height stride stride1).curve q
            ≤ rd (rawState st ptr1 ptr2 width height stride stride1).curve p →
          rd (fillMissing (rawState st ptr1 ptr2 width height stride stride1)).curve i
              ≤ rd (fillMissing (rawState st ptr1 ptr2 width height stride stride1)).curve (i - 1)
            ∧ rd (rawState st ptr1 ptr2 width height stride stride1).curve q
              ≤ rd (fillMissing (rawState st ptr1 ptr2 width height stride stride1)).curve i
            ∧ rd (fillMissing (rawState st ptr1 ptr2 width height stride stride1)).curve i
              ≤ rd (rawState st ptr1 ptr2 width height stride stride1).curve p) := by
  obtain ⟨a, b, hx, hab⟩ := extremes_of_two _ p q (by omega) hq hp hqp
  have hpr := Extremes_range _ a b hx p (by omega) hp
  have hqr := Extremes_range _ a b hx q hq hqp
  have hlt : ∀ j, j < 256 → rd (rawState st ptr1 ptr2 width height stride stride1).curve j < 256 := by
    intro j hj
    unfold rawState
    exact rawCurve_lt _ j hj
  generalize hrs : rawState st ptr1 ptr2 width height stride stride1 = rs at *
  have hFI := fill_prefix_inv rs a b hx hab i (by omega)
  obtain ⟨g1, g2, g3⟩ := fill_gap rs a b hx hab hlt p q (by omega) hq hp hqp hgap
  obtain ⟨k1, k2, k3⟩ := g3 i hpi hiq
  have hd : rd (fillPrefix rs i).div i = 0 := by
    by_contra hne
    rcases (hFI.2.1 i (by omega)).mp hne with h1 | ⟨_, _, h3⟩
    · exact h1 (hgap i hpi hiq)
    · omega
  obtain ⟨c1, c2, _⟩ := fill_scans rs a b hx i (fillPrefix rs i) hFI (by omega) (by omega)
  have hnext : scanUp rs.div (255 - i) (i + 1) = (q : Int) :=
    scanUp_eq _ (255 - i) (i + 1) q (by omega) (by omega) hqp
      (fun j h3 h4 => hgap j (by omega) h4)
  rw [hnext] at c2
  have hstep : fillStep (fillPrefix rs i) i
      = markFilled (fillPrefix rs i) i
          (fillValue (fillPrefix rs i) i ((i - 1 : Nat) : Int) (q : Int)) := by
    unfold fillStep
    rw [if_pos hd, c1, c2, if_pos ⟨by omega, by omega⟩]
  have hsucc : fillStep (fillPrefix rs i) i = fillPrefix rs (i + 1) := by
    unfold fillPrefix
    rw [List.range_succ, List.foldl_append]
    rfl
  have hE1 : Extends (fillPrefix rs i) (fillMissing rs) := fill_prefix_extends rs i 256 (by omega) (le_refl 256)
  have hE2 : Extends (fillStep (fillPrefix rs i) i) (fillMissing rs) := by
    rw [hsucc]
    exact fill_prefix_extends rs (i + 1) 256 (by omega) (le_refl 256)
  have hpop1 : rd (fillPrefix rs i).div (i - 1) ≠ 0 := by
    refine (hFI.2.1 (i - 1) (by omega)).mpr ?_
    by_cases hia : i - 1 = a
    · rw [hia]; exact Or.inl hx.2.1
    · exact Or.inr ⟨by omega, by omega, by omega⟩
  have hpopq : rd (fillPrefix rs i).div q ≠ 0 := (hFI.2.1 q hq).mpr (Or.inl hqp)
  have hpopi : rd (fillStep (fillPrefix rs i) i).div i ≠ 0 := by
    rw [hstep, markFilled_div _ _ _ _ (by omega), if_pos rfl]
    omega
  refine ⟨⟨hd, c1, c2, hstep⟩,
    ⟨((Extends_keep _ _ hE2 i (by omega) hpopi).2.2).symm,
      ((Extends_keep _ _ hE1 (i - 1) (by omega) hpop1).2.2).symm,
      ((Extends_keep _ _ hE1 q hq hpopq).2.2).symm⟩,
    ⟨g1, g2⟩, ⟨k1, ?_⟩, k2, k3⟩
  have hb : rd (fillMissing rs).curve i < 256 := by
    have := hlt p (by omega)
    have := hlt q hq
    rcases le_total (rd rs.curve p) (rd rs.curve q) with hle | hle
    · have := k2 hle; omega
    · have := k3 hle; omega
  unfold clamp
  omega

/-- Witness of C19: the two-point scenario at `i = 58`, between 50 and 200. -/
theorem running_fill_witness :
    50 < 58 ∧ 58 < 200 ∧ 200 < 256
      ∧ rd (rawState zeroData (stripedPlane 50 200) (stripedPlane 80 220) 2 1 2 2).div 50 ≠ 0
      ∧ rd (rawState zeroData (stripedPlane 50 200) (stripedPlane 80 220) 2 1 2 2).div 200 ≠ 0
      ∧ (∀ j, 50 < j → j < 200 →
          rd (rawState zeroData (stripedPlane 50 200) (stripedPlane 80 220) 2 1 2 2).div j = 0)
      ∧ scanDown (fillPrefix
            (rawState zeroData (stripedPlane 50 200) (stripedPlane 80 220) 2 1 2 2) 58).div 58
          = ((58 - 1 : Nat) : Int) :=
  have h50 : rd (rawState zeroData (stripedPlane 50 200) (stripedPlane 80 220) 2 1 2 2).div 50
      ≠ 0 := by rw [scenario_div zeroData 50 (by decide)]; decide
  have h200 : rd (rawState zeroData (stripedPlane 50 200) (stripedPlane 80 220) 2 1 2 2).div 200
      ≠ 0 := by rw [scenario_div zeroData 200 (by decide)]; decide
  have hgap : ∀ j, 50 < j → j < 200 →
      rd (rawState zeroData (stripedPlane 50 200) (stripedPlane 80 220) 2 1 2 2).div j = 0 :=
    fun j hj1 hj2 => by rw [scenario_div zeroData j (by omega), if_neg (by omega)]
  ⟨by decide, by decide, by decide, h50, h200, hgap,
    (running_fill zeroData (stripedPlane 50 200) (stripedPlane 80 220) 2 1 2 2 50 58 200
      (by decide) (by decide) (by decide) h50 h200 hgap).1.2.1⟩

/-- C12 (boundary extrapolation is point reflection).  For every non-raw build with
`smoothing_window = 0` whose smallest and largest populated intensities after
accumulation are `first < last`, the returned curve `c` satisfies
`c[i] = clamp(2 * c[first] - c[2 * first - i], 0, 255)` for every `i` with
`max(0, 2 * first - last) <= i < first`, and
`c[i] = clamp(2 * c[last] - c[2 * last - i], 0, 255)` for every `i` with
`last < i <= min(255, 2 * last - first)`. -/
theorem boundary_reflection (st : CurveData) (ptr1 ptr2 : Mem)
    (width height stride stride1 : Nat) (first last : Nat)
    (hx : Extremes (rawState st ptr1 ptr2 width height stride stride1).div first last)
    (hfl : first < last) :
    ∃ res, (∀ fuel, 255 ≤ fuel →
          Create fuel st ptr1 ptr2 width height stride stride1 false 0 = some res)
      ∧ (∀ i, 2 * first ≤ last + i → i < first →
          (rd res.curve i : Int)
            = clamp ((rd res.curve first : Int) * 2 - (rd res.curve (2 * first - i) : Int)))
      ∧ ∀ i, last < i → i < 256 → i + first ≤ 2 * last →
          (rd res.curve i : Int)
            = clamp ((rd res.curve last : Int) * 2 - (rd res.curve (2 * last - i) : Int)) := by
  obtain ⟨t, _, _, _, t4, _, _⟩ :=
    Create_zero_loop st ptr1 ptr2 width height stride stride1 first last hx hfl
  obtain ⟨m1, m2⟩ := reflection_value st ptr1 ptr2 width height stride stride1 first last
    hx hfl (finalAverage t) (t4 255 (le_refl 255))
  refine ⟨finalAverage t, t4, fun i h1 h2 => ?_, fun i h1 h2 h3 => ?_⟩
  · rw [m1 i h2 h1]
    unfold mirrorValue
    rw [Int.toNat_ofNat, show ((first : Int) * 2 - (i : Int)).toNat = 2 * first - i by omega]
  · rw [m2 i h1 h2 h3]
    unfold mirrorValue
    rw [Int.toNat_ofNat, show ((last : Int) * 2 - (i : Int)).toNat = 2 * last - i by omega]

/-- Witness of C12: the two-point scenario, `first = 50` and `last = 200`. -/
theorem boundary_reflection_witness :
    Extremes (rawState zeroData (stripedPlane 50 200) (stripedPlane 80 220) 2 1 2 2).div 50 200
      ∧ 50 < 200
      ∧ ∃ res, (∀ fuel, 255 ≤ fuel →
            Create fuel zeroData (stripedPlane 50 200) (stripedPlane 80 220) 2 1 2 2 false 0
              = some res)
          ∧ (∀ i, 2 * 50 ≤ 200 + i → i < 50 →
              (rd res.curve i : Int)
                = clamp ((rd res.curve 50 : Int) * 2 - (rd res.curve (2 * 50 - i) : Int)))
          ∧ ∀ i, 200 < i → i < 256 → i + 50 ≤ 2 * 200 →
              (rd res.curve i : Int)
                = clamp ((rd res.curve 200 : Int) * 2 - (rd res.curve (2 * 200 - i) : Int)) :=
  ⟨scenario_extremes zeroData, by decide,
    boundary_reflection zeroData (stripedPlane 50 200) (stripedPlane 80 220) 2 1 2 2 50 200
      (scenario_extremes zeroData) (by decide)⟩

/-- C13 (smoothing is an asymmetric clipped moving average of the unsmoothed curve).
For every plane pair with two populated source intensities `u < v` and every
`smoothing_window = w >= 1`, with `c0` the curve `Create` returns with `raw = false` and
window 0 and `cw` the curve it returns with window `w`, every `i < 256` satisfies
`cw[i] = (S + n / 2) / n`, where `S` is the sum of `c0[k]` over the `k` from
`max(0, i - w)` to `min(255, i + w - 1)` and `n >= 1` is the number of such `k`. -/
theorem smoothing_is_window_mean (st : CurveData) (ptr1 ptr2 : Mem)
    (width height stride stride1 : Nat) (w : Int) (u v : Nat)
    (hw : 1 ≤ w) (huv : u < v) (hv : v < 256)
    (hpu : rd (rawState st ptr1 ptr2 width height stride stride1).div u ≠ 0)
    (hpv : rd (rawState st ptr1 ptr2 width height stride stride1).div v ≠ 0) :
    ∃ c0 cw,
      (∀ fuel, 255 ≤ fuel →
          Create fuel st ptr1 ptr2 width height stride stride1 false 0 = some c0)
        ∧ (∀ fuel, 255 ≤ fuel →
          Create fuel st ptr1 ptr2 width height stride stride1 false w = some cw)
        ∧ ∀ i, i < 256 →
            rd cw.curve i
                = (windowSum c0.curve i w + windowCount i w / 2) / windowCount i w
              ∧ 1 ≤ windowCount i w := by
  obtain ⟨a, b, hx, hab⟩ := extremes_of_two _ u v huv hv hpu hpv
  obtain ⟨t, _, t2, t3, t4, t5, t6⟩ :=
    Create_zero_loop st ptr1 ptr2 width height stride stride1 a b hx hab
  refine ⟨finalAverage t, finalAverage (smoothCurve w t), t4,
    fun fuel hf => t5 fuel w hf, fun i hi => ?_⟩
  rw [windowSum_congr (finalAverage t).curve t.curve t6 i w]
  exact smoothed_value w (by omega) t t3 t2 i hi

/-- Witness of C13: the two-point scenario with `smoothing_window = 8`. -/
theorem smoothing_is_window_mean_witness :
    (1 : Int) ≤ 8 ∧ 50 < 200 ∧ 200 < 256
      ∧ rd (rawState zeroData (stripedPlane 50 200) (stripedPlane 80 220) 2 1 2 2).div 50 ≠ 0
      ∧ rd (rawState zeroData (stripedPlane 50 200) (stripedPlane 80 220) 2 1 2 2).div 200 ≠ 0
      ∧ ∃ c0 cw,
          (∀ fuel, 255 ≤ fuel →
            Create fuel zeroData (stripedPlane 50 200) (stripedPlane 80 220) 2 1 2 2 false 0
              = some c0)
          ∧ (∀ fuel, 255 ≤ fuel →
            Create fuel zeroData (stripedPlane 50 200) (stripedPlane 80 220) 2 1 2 2 false 8
              = some cw)
          ∧ ∀ i, i < 256 →
              rd cw.curve i
                  = (windowSum c0.curve i 8 + windowCount i 8 / 2) / windowCount i 8
                ∧ 1 ≤ windowCount i 8 :=
  ⟨by decide, by decide, by decide, (scenario_extremes zeroData).2.1,
    (scenario_extremes zeroData).2.2.1,
    smoothing_is_window_mean zeroData (stripedPlane 50 200) (stripedPlane 80 220) 2 1 2 2 8
      50 200 (by decide) (by decide) (by decide) (scenario_extremes zeroData).2.1
      (scenario_extremes zeroData).2.2.1⟩

/-- C15 (frame-level apply and the third clip's pitch): the code does not do what the
claim says.  First and second clip: 64 x 2 planes of pitch 64, constant 50 and constant
80, `raw = true`, so the curve has `curve[50] = 80` and `curve[0] = 0`.  Third clip and
output: 128 x 2 planes of pitch 128, the third clip's first row 0 and second row 50.
The third clip's pixel at row 1, column 0, addressed with its own pitch, is 50, so the
claim gives `dst(1, 0) = curve[50] = 80`; `GetFrame` passes the first clip's pitch 64 to
`Process`, which reads offset 64 of the third clip's plane (a pixel of row 0) and stores
`curve[0] = 0`. -/
theorem frame_apply_uses_first_pitch :
    ∃ c out,
      Create 0 zeroData (flatPlane 50) (flatPlane 80) 64 2 64 64 true 0 = some c
        ∧ GetFramePlane 0 zeroData ⟨flatPlane 50, 64, 64, 2⟩ ⟨flatPlane 80, 64, 64, 2⟩
            ⟨twoRows, 128, 128, 2⟩ ⟨flatPlane 0, 128, 128, 2⟩ true 0 = some out
        ∧ load twoRows (1 * 128 + 0) = 50
        ∧ rd c.curve (load twoRows (1 * 128 + 0)) = 80
        ∧ out (1 * 128 + 0) = 0 := by
  have hp0 : pixelCount (flatPlane 50) 64 2 64 0 = 0 := by
    rw [pixelCount_flat]; decide
  have hp50 : pixelCount (flatPlane 50) 64 2 64 50 = 128 := by
    rw [pixelCount_flat]; decide
  have ht50 : targetSum (flatPlane 50) (flatPlane 80) 64 2 64 64 50 = 10240 := by
    rw [targetSum_flat]; decide
  have hc0 : rd (rawState zeroData (flatPlane 50) (flatPlane 80) 64 2 64 64).curve 0 = 0 := by
    rw [(rawState_exact zeroData (flatPlane 50) (flatPlane 80) 64 2 64 64 0 (by decide)
      (by decide)).2.2.1, if_pos hp0]
  have hc50 : rd (rawState zeroData (flatPlane 50) (flatPlane 80) 64 2 64 64).curve 50 = 80 := by
    rw [(rawState_exact zeroData (flatPlane 50) (flatPlane 80) 64 2 64 64 50 (by decide)
      (by decide)).2.2.1, hp50, ht50]
    decide
  have hl : load twoRows (1 * 128 + 0) = 50 := by decide
  have hl0 : load twoRows (0 + 1 * 64 + 0) = 0 := by decide
  refine ⟨rawState zeroData (flatPlane 50) (flatPlane 80) 64 2 64 64,
    Process (rawState zeroData (flatPlane 50) (flatPlane 80) 64 2 64 64) twoRows (flatPlane 0)
      128 2 64 128, by simp [Create], by simp [GetFramePlane, Create], hl, ?_, ?_⟩
  · rw [hl, hc50]
  · have h := (processRows_spec (rawState zeroData (flatPlane 50) (flatPlane 80) 64 2 64 64)
      twoRows 128 64 128 (le_refl 128) 2 0 0 (flatPlane 0)).1 1 0 (by decide) (by decide)
    rw [hl0, hc0] at h
    unfold Process
    have e : 0 + 1 * 128 + 0 = 1 * 128 + 0 := by decide
    rw [e] at h
    exact h

/-- C16 (matching a plane against itself gives the identity curve).  For every plane with
at most `2 ^ 23` pixels and two pixels of different values, and every
`smoothing_window = w >= 0`, `Create` with that plane as source and as target and
`raw = false` returns (given at least 255 passes of fuel) a curve with `curve[i] = i` for
every `i < 256` with `w <= i <= 256 - w`; with `w = 0` that is every index, and `Process`
with this curve stores at every pixel the value it reads. -/
theorem self_match_identity (st : CurveData) (ptr : Mem) (width height stride : Nat) (w : Int)
    (r1 c1 r2 c2 : Nat) (hsz : width * height ≤ 8388608) (hw : 0 ≤ w)
    (hr1 : r1 < height) (hc1 : c1 < width) (hr2 : r2 < height) (hc2 : c2 < width)
    (hne : load ptr (r1 * stride + c1) ≠ load ptr (r2 * stride + c2)) :
    ∃ res,
      (∀ fuel, 255 ≤ fuel →
          Create fuel st ptr ptr width height stride stride false w = some res)
        ∧ (∀ i : Nat, i < 256 → w ≤ (i : Int) → (i : Int) + w ≤ 256 → rd res.curve i = i)
        ∧ (w = 0 → ∀ (srcp dstp : Mem) (width3 height3 stride3 dst_stride : Nat),
            width3 ≤ dst_stride → ∀ r c, r < height3 → c < width3 →
              Process res srcp dstp width3 height3 stride3 dst_stride (r * dst_stride + c)
                = load srcp (r * stride3 + c)) := by
  obtain ⟨t, t1, t2, t3, t4⟩ :=
    Create_self st ptr width height stride hsz r1 c1 r2 c2 hr1 hc1 hr2 hc2 hne
  have hcurve : ∀ i : Nat, i < 256 → w ≤ (i : Int) → (i : Int) + w ≤ 256 →
      rd (finalAverage (smoothCurve w t)).curve i = i := by
    intro i hi h1 h2
    by_cases h0 : w = 0
    · subst h0
      have e : smoothCurve 0 t = t := by simp [smoothCurve]
      rw [e, finalAverage_id t t3 t2 i hi]
      exact t1 i (Nat.zero_le i) (by omega)
    · have hpos : 0 < w := by omega
      obtain ⟨v1, _⟩ := smoothed_value w hpos t t3 t2 i hi
      obtain ⟨n1, n2⟩ := window_identity t.curve
        (fun k hk => t1 k (Nat.zero_le k) (by omega)) i w hpos h1 h2
      rw [v1, n1, show 2 * w.toNat / 2 = w.toNat by omega, n2]
      exact Nat.mul_div_cancel_left i (by omega)
  refine ⟨finalAverage (smoothCurve w t), fun fuel hf => t4 fuel w hf, hcurve, ?_⟩
  intro h0 srcp dstp width3 height3 stride3 dst_stride hd r c hr hc
  have h := (processRows_spec (finalAverage (smoothCurve w t)) srcp width3 stride3 dst_stride
    hd height3 0 0 dstp).1 r c hr hc
  rw [Nat.zero_add, Nat.zero_add] at h
  unfold Process
  rw [h, hcurve _ (load_lt _ _) (by rw [h0]; omega) (by have := load_lt srcp (r * stride3 + c); omega)]
  exact Nat.mod_eq_of_lt (load_lt _ _)

/-- Witness of C16: the 2x1 plane with the values 50 and 200, `smoothing_window = 8`. -/
theorem self_match_identity_witness :
    2 * 1 ≤ 8388608 ∧ (0 : Int) ≤ 8 ∧ 0 < 1 ∧ 0 < 2 ∧ 0 < 1 ∧ 1 < 2
      ∧ load (stripedPlane 50 200) (0 * 2 + 0) ≠ load (stripedPlane 50 200) (0 * 2 + 1)
      ∧ ∃ res,
          (∀ fuel, 255 ≤ fuel →
            Create fuel zeroData (stripedPlane 50 200) (stripedPlane 50 200) 2 1 2 2 false 8
              = some res)
          ∧ (∀ i : Nat, i < 256 → (8 : Int) ≤ (i : Int) → (i : Int) + 8 ≤ 256 →
              rd res.curve i = i)
          ∧ ((8 : Int) = 0 → ∀ (srcp dstp : Mem) (width3 height3 stride3 dst_stride : Nat),
              width3 ≤ dst_stride → ∀ r c, r < height3 → c < width3 →
                Process res srcp dstp width3 height3 stride3 dst_stride (r * dst_stride + c)
                  = load srcp (r * stride3 + c)) :=
  ⟨by decide, by decide, by decide, by decide, by decide, by decide, by decide,
    self_match_identity zeroData (stripedPlane 50 200) 2 1 2 8 0 0 0 1 (by decide) (by decide)
      (by decide) (by decide) (by decide) (by decide) (by decide)⟩

/-- C17 (monotonicity is preserved by filling, extrapolation and smoothing).  For every
plane pair with two populated source intensities `u < v` whose raw means are
non-decreasing in the source intensity (for all populated `x < y`, the raw
`curve[x] <= curve[y]`), and every `smoothing_window = w >= 0`, `Create` with
`raw = false` returns (given at least 255 passes of fuel) a curve with
`curve[i] <= curve[i + 1]` for every `i` in `0..254`.  No bound on the number of pixels
is used, so this holds in particular for at most `2 ^ 23` pixels. -/
theorem monotonicity_preserved (st : CurveData) (ptr1 ptr2 : Mem)
    (width height stride stride1 : Nat) (w : Int) (u v : Nat)
    (hw : 0 ≤ w) (huv : u < v) (hv : v < 256)
    (hpu : rd (rawState st ptr1 ptr2 width height stride stride1).div u ≠ 0)
    (hpv : rd (rawState st ptr1 ptr2 width height stride stride1).div v ≠ 0)
    (hmono : ∀ x y, x < y → y < 256 →
      rd (rawState st ptr1 ptr2 width height stride stride1).div x ≠ 0 →
      rd (rawState st ptr1 ptr2 width height stride stride1).div y ≠ 0 →
      rd (rawState st ptr1 ptr2 width height stride stride1).curve x
        ≤ rd (rawState st ptr1 ptr2 width height stride stride1).curve y) :
    ∃ res,
      (∀ fuel, 255 ≤ fuel →
          Create fuel st ptr1 ptr2 width height stride stride1 false w = some res)
        ∧ ∀ i, i < 255 → rd res.curve i ≤ rd res.curve (i + 1) := by
  obtain ⟨t, t1, t2, t3, t4⟩ :=
    Create_mono st ptr1 ptr2 width height stride stride1 u v huv hv hpu hpv hmono
  refine ⟨finalAverage (smoothCurve w t), fun fuel hf => t4 fuel w hf, fun i hi => ?_⟩
  by_cases h0 : w = 0
  · subst h0
    have e : smoothCurve 0 t = t := by simp [smoothCurve]
    rw [e, finalAverage_id t t3 t2 i (by omega), finalAverage_id t t3 t2 (i + 1) (by omega)]
    exact t1.2 i (i + 1) (Nat.zero_le i) (by omega) (by omega)
  · have hpos : 0 < w := by omega
    obtain ⟨v1, n1⟩ := smoothed_value w hpos t t3 t2 i (by omega)
    obtain ⟨v2, n2⟩ := smoothed_value w hpos t t3 t2 (i + 1) (by omega)
    rw [v1, v2]
    exact window_mean_mono t.curve
      (fun x y hxy hy => t1.2 x y (Nat.zero_le x) hxy (by omega)) i hi w hpos n1 n2

/-- Witness of C17: the two-point scenario (raw means 80 at 50 and 220 at 200) with
`smoothing_window = 8`. -/
theorem monotonicity_preserved_witness :
    (0 : Int) ≤ 8 ∧ 50 < 200 ∧ 200 < 256
      ∧ rd (rawState zeroData (stripedPlane 50 200) (stripedPlane 80 220) 2 1 2 2).div 50 ≠ 0
      ∧ rd (rawState zeroData (stripedPlane 50 200) (stripedPlane 80 220) 2 1 2 2).div 200 ≠ 0
      ∧ (∀ x y, x < y → y < 256 →
          rd (rawState zeroData (stripedPlane 50 200) (stripedPlane 80 220) 2 1 2 2).div x ≠ 0 →
          rd (rawState zeroData (stripedPlane 50 200) (stripedPlane 80 220) 2 1 2 2).div y ≠ 0 →
          rd (rawState zeroData (stripedPlane 50 200) (stripedPlane 80 220) 2 1 2 2).curve x
            ≤ rd (rawState zeroData (stripedPlane 50 200) (stripedPlane 80 220) 2 1 2 2).curve y)
      ∧ ∃ res,
          (∀ fuel, 255 ≤ fuel →
            Create fuel zeroData (stripedPlane 50 200) (stripedPlane 80 220) 2 1 2 2 false 8
              = some res)
          ∧ ∀ i, i < 255 → rd res.curve i ≤ rd res.curve (i + 1) :=
  ⟨by decide, by decide, by decide, (scenario_extremes zeroData).2.1,
    (scenario_extremes zeroData).2.2.1, scenario_mono zeroData,
    monotonicity_preserved zeroData (stripedPlane 50 200) (stripedPlane 80 220) 2 1 2 2 8
      50 200 (by decide) (by decide) (by decide) (scenario_extremes zeroData).2.1
      (scenario_extremes zeroData).2.2.1 (scenario_mono zeroData)⟩

end MatchHistogram
